import Mathlib

/-!
# The generic RBM trainer of dll (`include/dll/rbm_trainer.hpp`)

A shallow embedding of `dll::rbm_trainer<RBM, EnableWatcher, RW>::train` and of the helpers it
calls (`init_weights`, `shuffle`, `prepare_it`), followed by theorems about the embedding.

Conventions of the embedding.

* The weight type `typename rbm_t::weight` is an arbitrary type `W` with a zero, an addition, a
  division and a cast from `std::size_t`; nothing is assumed about its arithmetic.
* The model `RBM& rbm` is a record with the four momentum fields the trainer touches and one
  field for everything else.
* The model-supplied trainer, the watcher, the model's `init_weights`/`free_energy` and the random
  generator are parameters (`Env`): state transformers over the model and over a state `X` that
  stands for the trainer object and the watcher object.
* Iterators are offsets into a buffer; the four buffers are the caller's two ranges and the two
  local vectors `input_copy`, `expected_copy`.
* Every call to a collaborator is appended to a trace, so that the order and the arguments of the
  calls can be stated.
* `while` loops take fuel: the result is `none` when the fuel runs out.
* A division by zero has no result either: with a batch size of zero the divisibility test of
  line 149, `distance(input_first, input_last) % batch_size`, makes `train` return `none`,
  before the epoch loop and whatever the fuel.
* The counters are natural numbers: `std::size_t` does not overflow on a range that fits in
  memory.
* C++ leaves undefined the reading of the expected range past its end when it is shorter than
  the input range; here the batch is cut at the end of the buffer.
-/

namespace dll

/-! ## Data model -/

/-- Modelled from the spec: `rbm_training_context` is declared in a header that is not part of
the sources at hand; the spec gives it the three accumulators below, all zero when created. -/
structure rbm_training_context (W : Type) where
  reconstruction_error : W
  sparsity : W
  free_energy : W
deriving DecidableEq

/-- The model `RBM& rbm`: the momentum state read and written by `train`, and `params` for the
rest of the model (weights, biases, ...). The type of the model is a template parameter; the
four momentum fields are those `train` names, the switch epoch a counter of epochs as in the
spec. -/
structure RBM (W S : Type) where
  momentum : W
  initial_momentum : W
  final_momentum : W
  final_momentum_epoch : Nat
  params : S
deriving DecidableEq

/-- The capability flags `rbm_traits<RBM>` queried by the trainer. -/
structure rbm_traits where
  init_weights : Bool
  has_shuffle : Bool
  has_momentum : Bool
  free_energy : Bool
deriving DecidableEq

/-- One entry of the trace. All entries but `average` are calls made by `train`; `average` is a
ghost entry written at the averaging step (lines 196-199) that records the local counters
`batches` and `samples` and the accumulated context. `train_batch` also records the loop
variable `epoch`, the four iterator offsets, the context and the model as they are when the call
is made. -/
inductive Event (W S α : Type) where
  | training_begin (rbm : RBM W S)
  | init_weights (samples : List α)
  | warning
  | train_batch (epoch istart iit estart eit : Nat) (input_batch expected_batch : List α)
      (context : rbm_training_context W) (rbm : RBM W S)
  | free_energy (v : α)
  | average (epoch batches samples : Nat) (accumulated : rbm_training_context W)
  | epoch_end (epoch : Nat) (context : rbm_training_context W) (rbm : RBM W S)
  | training_end (rbm : RBM W S)
deriving DecidableEq

/-- The collaborators of the trainer and the template parameters of `rbm_trainer`. -/
structure Env (W S X G α : Type) where
  /-- The flags `rbm_traits<rbm_t>`. -/
  traits : rbm_traits
  /-- The template parameter `EnableWatcher`. -/
  EnableWatcher : Bool
  /-- The call `get_batch_size(rbm)`. -/
  get_batch_size : RBM W S → Nat
  /-- The call `rbm.init_weights(first, last)`. -/
  rbm_init_weights : RBM W S → List α → RBM W S
  /-- The call `rbm.free_energy(v)`. -/
  rbm_free_energy : RBM W S → α → W
  /-- The construction `std::make_unique<trainer_t<rbm_t>>(rbm)`. -/
  make_trainer : RBM W S → X → RBM W S × X
  /-- The call `trainer->train_batch(input_batch, expected_batch, context)`. -/
  train_batch : List α → List α → rbm_training_context W → RBM W S → X →
    rbm_training_context W × RBM W S × X
  /-- The call `watcher.training_begin(rbm)`. -/
  training_begin : RBM W S → X → RBM W S × X
  /-- The call `watcher.epoch_end(epoch, context, rbm)`: the watcher may change the model and
  its own state; the statistics are handed to it to be read. -/
  epoch_end : Nat → rbm_training_context W → RBM W S → X → RBM W S × X
  /-- The call `watcher.training_end(rbm)`. -/
  training_end : RBM W S → X → RBM W S × X
  /-- A draw `D(g, param_t(0, i))` from the generator `g`. -/
  draw : G → Nat → Nat × G

/-- The buffers an iterator of `train` can point into. -/
inductive Buf where
  | caller_input
  | caller_expected
  | input_copy
  | expected_copy
deriving DecidableEq

/-- The contents of the four buffers. -/
structure Mem (α : Type) where
  caller_input : List α
  caller_expected : List α
  input_copy : List α
  expected_copy : List α
deriving DecidableEq

/-- Read a buffer. -/
def Mem.get {α : Type} (m : Mem α) : Buf → List α
  | .caller_input => m.caller_input
  | .caller_expected => m.caller_expected
  | .input_copy => m.input_copy
  | .expected_copy => m.expected_copy

/-- Overwrite a buffer. -/
def Mem.set {α : Type} (m : Mem α) : Buf → List α → Mem α
  | .caller_input, xs => { m with caller_input := xs }
  | .caller_expected, xs => { m with caller_expected := xs }
  | .input_copy, xs => { m with input_copy := xs }
  | .expected_copy, xs => { m with expected_copy := xs }

/-- The state `train` works on: the model, the collaborators' own state, the static random
generator of `shuffle`, the buffers and the trace. -/
structure State (W S X G α : Type) where
  rbm : RBM W S
  ext : X
  gen : G
  mem : Mem α
  trace : List (Event W S α)
deriving DecidableEq

/-- The local variables of the batch loop of one epoch (lines 161-194), with the state. -/
structure BatchLoop (W S X G α : Type) where
  st : State W S X G α
  iit : Nat
  eit : Nat
  batches : Nat
  samples : Nat
  i : Nat
  context : rbm_training_context W
deriving DecidableEq

/-! ## Operations -/

/-- A `while (cond) body` loop with fuel. -/
def while_loop {σ : Type} (cond : σ → Bool) (body : σ → Option σ) : Nat → σ → Option σ
  | 0, _ => none
  | fuel + 1, s => if cond s then (body s).bind (while_loop cond body fuel) else some s

/-- Modelled from the spec: `make_batch(first, last)` of `batch.hpp`, the view of the samples
between two iterators. -/
def make_batch {α : Type} (xs : List α) (first last : Nat) : List α :=
  (xs.drop first).take (last - first)

/-- The exchange `swap(first[i], first[j])`. -/
def swap_at {α : Type} (xs : List α) (i j : Nat) : List α :=
  match xs[i]?, xs[j]? with
  | some a, some b => (xs.set i b).set j a
  | _, _ => xs

/-- Modelled from the spec: `cpp::parallel_shuffle` is defined in `cpp_utils/algorithm.hpp`,
which is not among the sources at hand; the spec has it apply one permutation identically to
the two ranges. It is taken here as the walk `for (i = n - 1; i > 0; --i)` with one draw per
position and the same swap in both ranges. -/
def parallel_shuffle_loop {G α : Type} (draw : G → Nat → Nat × G) :
    Nat → G → List α → List α → List α × List α × G
  | 0, g, xs, ys => (xs, ys, g)
  | i + 1, g, xs, ys =>
    let r := draw g (i + 1)
    parallel_shuffle_loop draw i r.2 (swap_at xs (i + 1) r.1) (swap_at ys (i + 1) r.1)

/-- Modelled from the spec: the call `cpp::parallel_shuffle(first_1, last_1, first_2, last_2,
g)`, the walk above over the length of the first range. -/
def parallel_shuffle {G α : Type} (draw : G → Nat → Nat × G) (g : G) (xs ys : List α) :
    List α × List α × G :=
  parallel_shuffle_loop draw (xs.length - 1) g xs ys

/-- The loop of `std::shuffle`, whose algorithm the standard leaves open, as the same walk over
one range: a sequence of swaps inside the range. -/
def std_shuffle_loop {G α : Type} (draw : G → Nat → Nat × G) : Nat → G → List α → List α × G
  | 0, g, xs => (xs, g)
  | i + 1, g, xs =>
    let r := draw g (i + 1)
    std_shuffle_loop draw i r.2 (swap_at xs (i + 1) r.1)

/-- The call `std::shuffle(first, last, g)`. -/
def std_shuffle {G α : Type} (draw : G → Nat → Nat × G) (g : G) (xs : List α) : List α × G :=
  std_shuffle_loop draw (xs.length - 1) g xs

/-- The function `rbm_trainer::shuffle<Denoising>` (lines 71-84) on the ranges that start at `ibuf`, `ebuf`. -/
def shuffle {G α : Type} (t : rbm_traits) (draw : G → Nat → Nat × G) (Denoising : Bool)
    (ibuf ebuf : Buf) (g : G) (m : Mem α) : Mem α × G :=
  if t.has_shuffle then
    if Denoising then
      let r := parallel_shuffle draw g (m.get ibuf) (m.get ebuf)
      ((m.set ibuf r.1).set ebuf r.2.1, r.2.2)
    else
      let r := std_shuffle draw g (m.get ibuf)
      (m.set ibuf r.1, r.2)
  else (m, g)

/-- The function `rbm_trainer::prepare_it<Denoising>` (lines 86-107): fills the local vectors when the model
shuffles and returns the buffers the input and the expected iterators point into. -/
def prepare_it {α : Type} (t : rbm_traits) (Denoising : Bool) (m : Mem α) : Mem α × Buf × Buf :=
  if t.has_shuffle then
    let m1 := { m with input_copy := m.input_copy ++ m.caller_input }
    if Denoising then
      let m2 := { m1 with expected_copy := m1.expected_copy ++ m1.caller_expected }
      (m2, Buf.input_copy, Buf.expected_copy)
    else (m1, Buf.input_copy, Buf.input_copy)
  else (m, Buf.caller_input, Buf.caller_expected)

/-- Append an entry to the trace. -/
def State.log {W S X G α : Type} (s : State W S X G α) (e : Event W S α) : State W S X G α :=
  { s with trace := s.trace ++ [e] }

/-- The function `rbm_trainer::init_weights` (lines 56-64). -/
def init_weights {W S X G α : Type} (c : Env W S X G α) (s : State W S X G α) (xs : List α) :
    State W S X G α :=
  if c.traits.init_weights then
    { s.log (Event.init_weights xs) with rbm := c.rbm_init_weights s.rbm xs }
  else s

section train

variable {W S X G α : Type} [Zero W] [Add W] [Div W] [NatCast W]

/-- Condition of the inner loop, line 176. -/
def inner_cond (end_ batch_size : Nat) (l : BatchLoop W S X G α) : Bool :=
  l.iit != end_ && decide (l.i < batch_size)

/-- Body of the inner loop, lines 177-180. -/
def inner_body (l : BatchLoop W S X G α) : Option (BatchLoop W S X G α) :=
  some { l with iit := l.iit + 1, eit := l.eit + 1, samples := l.samples + 1, i := l.i + 1 }

/-- One step of the loop over the samples of a batch, lines 190-192. -/
def free_energy_step (c : Env W S X G α) (l : BatchLoop W S X G α) (v : α) :
    BatchLoop W S X G α :=
  { l with
    st := l.st.log (Event.free_energy v)
    context := { l.context with
      free_energy := l.context.free_energy + c.rbm_free_energy l.st.rbm v } }

/-- Body of the batch loop, lines 172-193. -/
def batch_body (c : Env W S X G α) (fuel epoch : Nat) (ibuf ebuf : Buf) (end_ batch_size : Nat)
    (l : BatchLoop W S X G α) : Option (BatchLoop W S X G α) :=
  let istart := l.iit
  let estart := l.eit
  (while_loop (inner_cond end_ batch_size) inner_body fuel { l with i := 0 }).map fun l1 =>
    let l2 := { l1 with batches := l1.batches + 1 }
    let input_batch := make_batch (l2.st.mem.get ibuf) istart l2.iit
    let expected_batch := make_batch (l2.st.mem.get ebuf) estart l2.eit
    let s := l2.st.log
      (Event.train_batch epoch istart l2.iit estart l2.eit input_batch expected_batch
        l2.context l2.st.rbm)
    let r := c.train_batch input_batch expected_batch l2.context s.rbm s.ext
    let l3 := { l2 with context := r.1, st := { s with rbm := r.2.1, ext := r.2.2 } }
    if c.EnableWatcher && c.traits.free_energy then
      input_batch.foldl (free_energy_step c) l3
    else l3

/-- The local variables when the batch loop starts, lines 161-169: the counters are zero, the
iterators are at the start of their ranges and the context is new. -/
def batch_init (s : State W S X G α) : BatchLoop W S X G α :=
  { st := s, iit := 0, eit := 0, batches := 0, samples := 0, i := 0,
    context := { reconstruction_error := 0, sparsity := 0, free_energy := 0 } }

/-- The batch loop of one epoch, lines 161-194, started on the state `s`. -/
def run_batches (c : Env W S X G α) (fuel epoch : Nat) (ibuf ebuf : Buf) (batch_size : Nat)
    (s : State W S X G α) : Option (BatchLoop W S X G α) :=
  let end_ := (s.mem.get ibuf).length
  while_loop (fun l => l.iit != end_) (batch_body c fuel epoch ibuf ebuf end_ batch_size) fuel
    (batch_init s)

/-- The averaging step, lines 197-199. -/
def average (l : BatchLoop W S X G α) : rbm_training_context W :=
  { reconstruction_error := l.context.reconstruction_error / (l.batches : W)
    sparsity := l.context.sparsity / (l.batches : W)
    free_energy := l.context.free_energy / (l.samples : W) }

/-- The momentum switch, lines 202-204. -/
def update_momentum (t : rbm_traits) (epoch : Nat) (rbm : RBM W S) : RBM W S :=
  if t.has_momentum && epoch == rbm.final_momentum_epoch then
    { rbm with momentum := rbm.final_momentum }
  else rbm

/-- The watcher notification of lines 207-209. -/
def notify_epoch_end (c : Env W S X G α) (epoch : Nat) (context : rbm_training_context W)
    (s : State W S X G α) : State W S X G α :=
  if c.EnableWatcher then
    let r := c.epoch_end epoch context s.rbm s.ext
    { s.log (Event.epoch_end epoch context s.rbm) with rbm := r.1, ext := r.2 }
  else s

/-- What follows the batch loop in the body of the epoch loop, lines 196-212: the state after
the notification and the new value of `last_error`. -/
def finish_epoch (c : Env W S X G α) (epoch : Nat) (l : BatchLoop W S X G α) :
    State W S X G α × W :=
  let context := average l
  let s1 := l.st.log (Event.average epoch l.batches l.samples l.context)
  let s2 := { s1 with rbm := update_momentum c.traits epoch s1.rbm }
  (notify_epoch_end c epoch context s2, context.reconstruction_error)

/-- Body of the epoch loop, lines 158-212. -/
def epoch_body (c : Env W S X G α) (Denoising : Bool) (fuel : Nat) (ibuf ebuf : Buf)
    (batch_size epoch : Nat) (s : State W S X G α) : Option (State W S X G α × W) :=
  let r := shuffle c.traits c.draw Denoising ibuf ebuf s.gen s.mem
  (run_batches c fuel epoch ibuf ebuf batch_size { s with mem := r.1, gen := r.2 }).map
    (finish_epoch c epoch)

/-- The loop `for (epoch = 0; epoch < max_epochs; ++epoch)`: `k` iterations are left, the
second component of the state is `last_error`. -/
def epoch_loop (body : Nat → State W S X G α → Option (State W S X G α × W)) :
    Nat → Nat → State W S X G α × W → Option (State W S X G α × W)
  | 0, _, r => some r
  | k + 1, epoch, r => (body epoch r.1).bind (epoch_loop body k (epoch + 1))

/-- The watcher notification of lines 119-121. -/
def notify_training_begin (c : Env W S X G α) (s : State W S X G α) : State W S X G α :=
  if c.EnableWatcher then
    let r := c.training_begin s.rbm s.ext
    { s.log (Event.training_begin s.rbm) with rbm := r.1, ext := r.2 }
  else s

/-- The watcher notification of lines 215-217. -/
def notify_training_end (c : Env W S X G α) (s : State W S X G α) : State W S X G α :=
  if c.EnableWatcher then
    let r := c.training_end s.rbm s.ext
    { s.log (Event.training_end s.rbm) with rbm := r.1, ext := r.2 }
  else s

/-- Lines 117-152 of `train`: everything before the epoch loop. Returns the state, the buffers
of the input and of the expected iterators, and the batch size. The divisibility test of line
149 evaluates `distance(input_first, input_last) % batch_size`: with a batch size of zero it
divides by zero, and `train` has no result. -/
def train_setup (c : Env W S X G α) (Denoising : Bool) (rbm : RBM W S) (ext : X) (g : G)
    (input expected : List α) : Option (State W S X G α × Buf × Buf × Nat) :=
  let s0 : State W S X G α :=
    { rbm := { rbm with momentum := rbm.initial_momentum }, ext := ext, gen := g,
      mem := { caller_input := input, caller_expected := expected,
               input_copy := [], expected_copy := [] },
      trace := [] }
  let s1 := notify_training_begin c s0
  let p := prepare_it c.traits Denoising s1.mem
  let ibuf := p.2.1
  let ebuf := p.2.2
  let s2 := { s1 with mem := p.1 }
  let s3 := init_weights c s2 (s2.mem.get ibuf)
  let t := c.make_trainer s3.rbm s3.ext
  let s4 := { s3 with rbm := t.1, ext := t.2 }
  let batch_size := c.get_batch_size s4.rbm
  if batch_size = 0 then none
  else
    let s5 := if (s4.mem.get ibuf).length % batch_size != 0 then s4.log Event.warning else s4
    some (s5, ibuf, ebuf, batch_size)

/-- The function `rbm_trainer::train<Denoising>(rbm, ifirst, ilast, efirst, elast, max_epochs)`, lines
115-220. The result is the final state and the returned `last_error`; there is none when the
divisibility test divides by zero or when the fuel of a loop runs out. -/
def train (c : Env W S X G α) (Denoising : Bool) (fuel : Nat) (rbm : RBM W S) (ext : X) (g : G)
    (input expected : List α) (max_epochs : Nat) : Option (State W S X G α × W) :=
  (train_setup c Denoising rbm ext g input expected).bind fun p =>
    let ibuf := p.2.1
    let ebuf := p.2.2.1
    let batch_size := p.2.2.2
    (epoch_loop (epoch_body c Denoising fuel ibuf ebuf batch_size) max_epochs 0 (p.1, 0)).map
      fun r => (notify_training_end c r.1, r.2)

/-- The function `rbm_trainer::train(rbm, first, last, max_epochs)`, lines 66-69. -/
def train_single (c : Env W S X G α) (fuel : Nat) (rbm : RBM W S) (ext : X) (g : G)
    (input : List α) (max_epochs : Nat) : Option (State W S X G α × W) :=
  train c false fuel rbm ext g input input max_epochs

end train

end dll

/-! ## Closed forms used to state the theorems -/

namespace dll

section specification

variable {W S X G α : Type} [Add W]

/-- The first part of one iteration of the batch loop in closed form, up to the call of the
trainer: the batch is the next `min batch_size (end_ - iit)` samples. -/
def batch_call (c : Env W S X G α) (epoch : Nat) (ibuf ebuf : Buf) (end_ batch_size : Nat)
    (l : BatchLoop W S X G α) : BatchLoop W S X G α :=
  let k := min batch_size (end_ - l.iit)
  let input_batch := make_batch (l.st.mem.get ibuf) l.iit (l.iit + k)
  let expected_batch := make_batch (l.st.mem.get ebuf) l.eit (l.eit + k)
  let r := c.train_batch input_batch expected_batch l.context l.st.rbm l.st.ext
  { st := { l.st with
            rbm := r.2.1, ext := r.2.2,
            trace := l.st.trace ++
              [Event.train_batch epoch l.iit (l.iit + k) l.eit (l.eit + k) input_batch
                expected_batch l.context l.st.rbm] }
    iit := l.iit + k, eit := l.eit + k, batches := l.batches + 1, samples := l.samples + k,
    i := k, context := r.1 }

/-- One iteration of the batch loop in closed form. -/
def batch_step (c : Env W S X G α) (epoch : Nat) (ibuf ebuf : Buf) (end_ batch_size : Nat)
    (l : BatchLoop W S X G α) : BatchLoop W S X G α :=
  if c.EnableWatcher && c.traits.free_energy then
    (make_batch (l.st.mem.get ibuf) l.iit (l.iit + min batch_size (end_ - l.iit))).foldl
      (free_energy_step c) (batch_call c epoch ibuf ebuf end_ batch_size l)
  else batch_call c epoch ibuf ebuf end_ batch_size l

/-- The result of `train_setup` when the batch size is not zero, in closed form: the state when
the epoch loop starts, the buffers of the two iterators and the batch size. -/
def setup_result (c : Env W S X G α) (Denoising : Bool) (rbm : RBM W S) (ext : X) (g : G)
    (input expected : List α) : State W S X G α × Buf × Buf × Nat :=
  let s0 : State W S X G α :=
    { rbm := { rbm with momentum := rbm.initial_momentum }, ext := ext, gen := g,
      mem := { caller_input := input, caller_expected := expected,
               input_copy := [], expected_copy := [] },
      trace := [] }
  let s1 := notify_training_begin c s0
  let p := prepare_it c.traits Denoising s1.mem
  let s2 := { s1 with mem := p.1 }
  let s3 := init_weights c s2 (s2.mem.get p.2.1)
  let t := c.make_trainer s3.rbm s3.ext
  let s4 := { s3 with rbm := t.1, ext := t.2 }
  let batch_size := c.get_batch_size s4.rbm
  (if (s4.mem.get p.2.1).length % batch_size != 0 then s4.log Event.warning else s4,
    p.2.1, p.2.2, batch_size)

/-- The value `ceil(n / b)` in natural-number arithmetic. -/
def ceil_div (n b : Nat) : Nat := (n + b - 1) / b

/-- What every iteration of the batch loop keeps true: the iterators move together by whole
batches, `samples` counts the samples passed, the buffers and the generator are not touched. -/
def Core (n b : Nat) (s : State W S X G α) (l : BatchLoop W S X G α) : Prop :=
  l.iit = min (l.batches * b) n ∧ l.eit = l.iit ∧ l.samples = l.iit ∧
    l.st.mem = s.mem ∧ l.st.gen = s.gen ∧ (l.batches = 0 ∨ (l.batches - 1) * b < n)

/-- A trace entry without the context and the model: what was called, in which epoch, on which
part of the buffers and with which samples. -/
inductive Shape (α : Type) where
  | training_begin
  | init_weights (samples : List α)
  | warning
  | train_batch (epoch istart iit estart eit : Nat) (input_batch expected_batch : List α)
  | free_energy (v : α)
  | average (epoch batches samples : Nat)
  | epoch_end (epoch : Nat)
  | training_end
deriving DecidableEq

/-- Forget the context and the model of a trace entry. -/
def Event.shape : Event W S α → Shape α
  | Event.training_begin _ => Shape.training_begin
  | Event.init_weights xs => Shape.init_weights xs
  | Event.warning => Shape.warning
  | Event.train_batch e a b a' b' ib eb _ _ => Shape.train_batch e a b a' b' ib eb
  | Event.free_energy v => Shape.free_energy v
  | Event.average e b s _ => Shape.average e b s
  | Event.epoch_end e _ _ => Shape.epoch_end e
  | Event.training_end _ => Shape.training_end

/-- The entries of batch number `k` of an epoch over the input `inp` and the targets `tgt`: the
call of the trainer on the samples `[k * b, min ((k + 1) * b) n)` of both, then the free-energy
calls when the watcher is enabled and the model tracks its free energy. -/
def batch_shape (c : Env W S X G α) (epoch : Nat) (inp tgt : List α) (b k : Nat) :
    List (Shape α) :=
  Shape.train_batch epoch (k * b) (min ((k + 1) * b) inp.length) (k * b)
      (min ((k + 1) * b) inp.length)
      (make_batch inp (k * b) (min ((k + 1) * b) inp.length))
      (make_batch tgt (k * b) (min ((k + 1) * b) inp.length)) ::
    (if c.EnableWatcher && c.traits.free_energy then
      (make_batch inp (k * b) (min ((k + 1) * b) inp.length)).map Shape.free_energy
     else [])

/-- The entries of the batch loop of one epoch. -/
def batches_shape (c : Env W S X G α) (epoch : Nat) (inp tgt : List α) (b : Nat) :
    List (Shape α) :=
  (List.range (ceil_div inp.length b)).flatMap (batch_shape c epoch inp tgt b)

/-- The entries of one epoch: the batches, the averaging, the notification. -/
def epoch_shape (c : Env W S X G α) (epoch : Nat) (inp tgt : List α) (b : Nat) :
    List (Shape α) :=
  batches_shape c epoch inp tgt b ++
    Shape.average epoch (ceil_div inp.length b) inp.length ::
    (if c.EnableWatcher then [Shape.epoch_end epoch] else [])

/-- The shuffle at the start of an epoch, on the pair of the buffers and the generator. -/
def shuffle_step (c : Env W S X G α) (Denoising : Bool) (ibuf ebuf : Buf) (p : Mem α × G) :
    Mem α × G :=
  shuffle c.traits c.draw Denoising ibuf ebuf p.2 p.1

/-- The buffers and the generator after the shuffles of `e` epochs. -/
def shuffled (c : Env W S X G α) (Denoising : Bool) (ibuf ebuf : Buf) (e : Nat)
    (p : Mem α × G) : Mem α × G :=
  (shuffle_step c Denoising ibuf ebuf)^[e] p

/-- The buffers when `train` has called `prepare_it`. -/
def prepared (c : Env W S X G α) (Denoising : Bool) (input expected : List α) :
    Mem α × Buf × Buf :=
  prepare_it c.traits Denoising
    { caller_input := input, caller_expected := expected, input_copy := [], expected_copy := [] }

/-- The sequence presented in epoch `e` of a call of `train`: the input buffer after `e + 1`
shuffles. -/
def epoch_input (c : Env W S X G α) (Denoising : Bool) (g : G) (input expected : List α)
    (e : Nat) : List α :=
  let p := prepared c Denoising input expected
  (shuffled c Denoising p.2.1 p.2.2 (e + 1) (p.1, g)).1.get p.2.1

/-- The targets presented in epoch `e` of a call of `train`. -/
def epoch_expected (c : Env W S X G α) (Denoising : Bool) (g : G) (input expected : List α)
    (e : Nat) : List α :=
  let p := prepared c Denoising input expected
  (shuffled c Denoising p.2.1 p.2.2 (e + 1) (p.1, g)).1.get p.2.2

/-- The entries of a whole call of `train` with batch size `b`. -/
def train_shape (c : Env W S X G α) (Denoising : Bool) (g : G) (input expected : List α)
    (b max_epochs : Nat) : List (Shape α) :=
  (if c.EnableWatcher then [Shape.training_begin] else []) ++
  (if c.traits.init_weights then [Shape.init_weights input] else []) ++
  (if input.length % b != 0 then [Shape.warning] else []) ++
  (List.range max_epochs).flatMap (fun e =>
    epoch_shape c e (epoch_input c Denoising g input expected e)
      (epoch_expected c Denoising g input expected e) b) ++
  (if c.EnableWatcher then [Shape.training_end] else [])

/-- The arguments of one call of the per-batch trainer: the offsets of the four iterators and
the two batches. -/
structure BatchCall (α : Type) where
  istart : Nat
  iit : Nat
  estart : Nat
  eit : Nat
  input_batch : List α
  expected_batch : List α
deriving DecidableEq

/-- The call of the per-batch trainer recorded by an entry, when it is one of epoch `e`. -/
def Shape.batch_of (e : Nat) : Shape α → Option (BatchCall α)
  | Shape.train_batch e' a b a' b' ib eb =>
    if e' = e then some ⟨a, b, a', b', ib, eb⟩ else none
  | _ => none

/-- The calls of the per-batch trainer in epoch `e`, in the order of the trace. -/
def batch_calls (e : Nat) (trace : List (Event W S α)) : List (BatchCall α) :=
  (trace.map Event.shape).filterMap (Shape.batch_of e)

/-- The slice number `k` of a sequence cut into pieces of `b` samples. -/
def slice_call (seq tgt : List α) (b k : Nat) : BatchCall α :=
  { istart := k * b, iit := min ((k + 1) * b) seq.length,
    estart := k * b, eit := min ((k + 1) * b) seq.length,
    input_batch := make_batch seq (k * b) (min ((k + 1) * b) seq.length),
    expected_batch := make_batch tgt (k * b) (min ((k + 1) * b) seq.length) }

/-- A concrete set of collaborators over the rationals, for the examples: the trainer adds the
samples of the input batch to `reconstruction_error`, adds one to `sparsity` and counts its calls
in the collaborators' state; the watcher and `init_weights` leave the model alone; the free
energy of a sample is the sample; the generator counts its draws. -/
def demo_env (t : rbm_traits) (watcher : Bool) (b : Nat) : Env ℚ Unit Nat Nat Nat :=
  { traits := t
    EnableWatcher := watcher
    get_batch_size := fun _ => b
    rbm_init_weights := fun r _ => r
    rbm_free_energy := fun _ v => (v : ℚ)
    make_trainer := fun r x => (r, x)
    train_batch := fun ib _ ctx r x =>
      ({ ctx with
          reconstruction_error := ctx.reconstruction_error + ((ib.sum : Nat) : ℚ)
          sparsity := ctx.sparsity + 1 }, r, x + 1)
    training_begin := fun r x => (r, x)
    epoch_end := fun _ _ r x => (r, x)
    training_end := fun r x => (r, x)
    draw := fun g i => (g % (i + 1), g + 1) }

/-- A model with momentum 0.7 before the call, initial momentum 0.5, final momentum 0.9 and the
switch at epoch `k`. -/
def demo_rbm (k : Nat) : RBM ℚ Unit :=
  { momentum := 7 / 10, initial_momentum := 1 / 2, final_momentum := 9 / 10,
    final_momentum_epoch := k, params := () }

/-- Capability flags with nothing but momentum. -/
def momentum_only : rbm_traits :=
  { init_weights := false, has_shuffle := false, has_momentum := true, free_energy := false }

/-- Capability flags with shuffling and momentum. -/
def shuffle_momentum : rbm_traits :=
  { init_weights := false, has_shuffle := true, has_momentum := true, free_energy := false }

/-- Capability flags with nothing. -/
def no_capability : rbm_traits :=
  { init_weights := false, has_shuffle := false, has_momentum := false, free_energy := false }

/-- The momentum state of the model: the momentum in effect, the initial and the final momentum
and the epoch of the switch. -/
def momentum_state (r : RBM W S) : W × W × W × Nat :=
  (r.momentum, r.initial_momentum, r.final_momentum, r.final_momentum_epoch)

/-- No collaborator writes the momentum state of the model. -/
structure MomentumFrame (c : Env W S X G α) : Prop where
  rbm_init_weights : ∀ r xs, momentum_state (c.rbm_init_weights r xs) = momentum_state r
  make_trainer : ∀ r x, momentum_state (c.make_trainer r x).1 = momentum_state r
  train_batch : ∀ ib eb ctx r x,
    momentum_state (c.train_batch ib eb ctx r x).2.1 = momentum_state r
  training_begin : ∀ r x, momentum_state (c.training_begin r x).1 = momentum_state r
  epoch_end : ∀ e ctx r x, momentum_state (c.epoch_end e ctx r x).1 = momentum_state r
  training_end : ∀ r x, momentum_state (c.training_end r x).1 = momentum_state r

/-- The momentum in effect at the start of epoch `e` of a call on the model `rbm`: the final
momentum when the model has the capability and an earlier epoch was the switch epoch, the
initial momentum otherwise. -/
def momentum_during (t : rbm_traits) (rbm : RBM W S) (e : Nat) : W :=
  if t.has_momentum && decide (rbm.final_momentum_epoch < e) then rbm.final_momentum
  else rbm.initial_momentum

/-- The momentum of the model a trace entry was made with. -/
def Event.momentum : Event W S α → Option W
  | Event.training_begin r => some r.momentum
  | Event.train_batch _ _ _ _ _ _ _ _ r => some r.momentum
  | Event.epoch_end _ _ r => some r.momentum
  | Event.training_end r => some r.momentum
  | _ => none

/-- The momentum an entry of a call of `max_epochs` epochs on the model `rbm` is made with when
no collaborator writes the momentum state. -/
def Shape.momentum (t : rbm_traits) (rbm : RBM W S) (max_epochs : Nat) : Shape α → Option W
  | Shape.training_begin => some rbm.initial_momentum
  | Shape.train_batch e _ _ _ _ _ _ => some (momentum_during t rbm e)
  | Shape.epoch_end e => some (momentum_during t rbm (e + 1))
  | Shape.training_end => some (momentum_during t rbm max_epochs)
  | _ => none

/-- An entry was made with the momentum of `Shape.momentum`. -/
def Event.momentum_ok (t : rbm_traits) (rbm : RBM W S) (max_epochs : Nat) (ev : Event W S α) :
    Prop :=
  ev.momentum = Shape.momentum t rbm max_epochs ev.shape

/-- The epoch and the momentum of the model of a call of the per-batch trainer. -/
def Event.batch_momentum : Event W S α → Option (Nat × W)
  | Event.train_batch e _ _ _ _ _ _ _ r => some (e, r.momentum)
  | _ => none

/-- The epochs and the momenta of the calls of the per-batch trainer, in the order of the
trace. -/
def batch_momenta (trace : List (Event W S α)) : List (Nat × W) :=
  trace.filterMap Event.batch_momentum

/-- The epoch and the momentum of the model of an `epoch_end` notification. -/
def Event.epoch_end_momentum : Event W S α → Option (Nat × W)
  | Event.epoch_end e _ r => some (e, r.momentum)
  | _ => none

/-- The epochs and the momenta the watcher is shown at its `epoch_end` notifications, in the
order of the trace. -/
def epoch_end_momenta (trace : List (Event W S α)) : List (Nat × W) :=
  trace.filterMap Event.epoch_end_momentum

/-- The epoch of a call of the per-batch trainer and the momentum it is made with when no
collaborator writes the momentum state. -/
def Shape.batch_momentum (t : rbm_traits) (rbm : RBM W S) : Shape α → Option (Nat × W)
  | Shape.train_batch e _ _ _ _ _ _ => some (e, momentum_during t rbm e)
  | _ => none

/-- The epoch of an `epoch_end` notification and the momentum it is made with when no
collaborator writes the momentum state. -/
def Shape.epoch_end_momentum (t : rbm_traits) (rbm : RBM W S) : Shape α → Option (Nat × W)
  | Shape.epoch_end e => some (e, momentum_during t rbm (e + 1))
  | _ => none

/-- The statistics of a trace entry: what had been accumulated when the averaging step was
reached, with the counters of the epoch, or what was reported to the watcher. -/
inductive Stat (W : Type) where
  | accumulated (epoch batches samples : Nat) (context : rbm_training_context W)
  | reported (epoch : Nat) (context : rbm_training_context W)
deriving DecidableEq

/-- The statistics of a trace entry, for the `average` and the `epoch_end` entries. -/
def Event.stat : Event W S α → Option (Stat W)
  | Event.average e b s acc => some (Stat.accumulated e b s acc)
  | Event.epoch_end e ctx _ => some (Stat.reported e ctx)
  | _ => none

/-- The statistics entries of an epoch that accumulated `acc` over `batches` batches and
`samples` samples: the accumulated context, then, with a watcher, the report of the
reconstruction error and the sparsity divided by the number of batches and the free energy
divided by the number of samples. -/
def epoch_stats [Div W] [NatCast W] (c : Env W S X G α) (e batches samples : Nat)
    (acc : rbm_training_context W) : List (Stat W) :=
  Stat.accumulated e batches samples acc ::
    (if c.EnableWatcher then
      [Stat.reported e
        { reconstruction_error := acc.reconstruction_error / (batches : W)
          sparsity := acc.sparsity / (batches : W)
          free_energy := acc.free_energy / (samples : W) }]
     else [])

/-- The epoch and the reconstruction error of an `epoch_end` notification. -/
def Event.reported_error : Event W S α → Option (Nat × W)
  | Event.epoch_end e ctx _ => some (e, ctx.reconstruction_error)
  | _ => none

/-- The reconstruction errors reported to the watcher, with their epochs, in the order of the
trace. -/
def reported_errors (trace : List (Event W S α)) : List (Nat × W) :=
  trace.filterMap Event.reported_error

/-- The epoch and the reconstruction error of a report among the statistics. -/
def Stat.reported_error : Stat W → Option (Nat × W)
  | Stat.reported e ctx => some (e, ctx.reconstruction_error)
  | _ => none

/-- A state whose input range is the caller's 950 samples `0, ..., 949`. -/
def demo_state : State ℚ Unit Nat Nat Nat :=
  { rbm := demo_rbm 3, ext := 0, gen := 0,
    mem := { caller_input := List.range 950, caller_expected := List.range 950,
             input_copy := [], expected_copy := [] },
    trace := [] }

/-- Capability flags with the free energy only. -/
def free_energy_only : rbm_traits :=
  { init_weights := false, has_shuffle := false, has_momentum := false, free_energy := true }

/-- A notification of the watcher. -/
inductive Notification where
  | training_begin
  | epoch_end (epoch : Nat)
  | training_end
deriving DecidableEq

/-- The notification an entry records, if it is one. -/
def Shape.notification : Shape α → Option Notification
  | Shape.training_begin => some Notification.training_begin
  | Shape.epoch_end e => some (Notification.epoch_end e)
  | Shape.training_end => some Notification.training_end
  | _ => none

/-- The notifications of the watcher, in the order of the trace. -/
def notifications (trace : List (Event W S α)) : List Notification :=
  (trace.map Event.shape).filterMap Shape.notification

/-- A notification of the watcher, or the averaging step of an epoch. -/
inductive Phase where
  | training_begin
  | averaged (epoch : Nat)
  | epoch_end (epoch : Nat)
  | training_end
deriving DecidableEq

/-- The notification or the averaging step an entry records, if it is one. -/
def Shape.phase : Shape α → Option Phase
  | Shape.training_begin => some Phase.training_begin
  | Shape.average e _ _ => some (Phase.averaged e)
  | Shape.epoch_end e => some (Phase.epoch_end e)
  | Shape.training_end => some Phase.training_end
  | _ => none

/-- The notifications and the averaging steps, in the order of the trace. -/
def lifecycle (trace : List (Event W S α)) : List Phase :=
  (trace.map Event.shape).filterMap Shape.phase

/-- A step of an epoch: a call of the per-batch trainer, with the offset its batch starts at;
the counters `batches` and `samples` when the batch loop is left; the notification of the end
of the epoch. -/
inductive Step where
  | train_batch (epoch istart : Nat)
  | counters (epoch batches samples : Nat)
  | epoch_end (epoch : Nat)
deriving DecidableEq

/-- The step an entry records, if it is one. -/
def Shape.step : Shape α → Option Step
  | Shape.train_batch e istart _ _ _ _ _ => some (Step.train_batch e istart)
  | Shape.average e b s => some (Step.counters e b s)
  | Shape.epoch_end e => some (Step.epoch_end e)
  | _ => none

/-- The steps of the epochs, in the order of the trace. -/
def progress (trace : List (Event W S α)) : List Step :=
  (trace.map Event.shape).filterMap Shape.step

/-- Whether a step is a call of the per-batch trainer. -/
def Step.is_train_batch : Step → Bool
  | Step.train_batch _ _ => true
  | _ => false

/-- The divisibility warning, or the end of the batch loop of an epoch with its counters. -/
inductive Course where
  | warning
  | epoch (epoch batches samples : Nat)
deriving DecidableEq

/-- The warning or the end of an epoch's batch loop an entry records, if it is one. -/
def Shape.course : Shape α → Option Course
  | Shape.warning => some Course.warning
  | Shape.average e b s => some (Course.epoch e b s)
  | _ => none

/-- The warnings and the epochs that were run, in the order of the trace. -/
def course (trace : List (Event W S α)) : List Course :=
  (trace.map Event.shape).filterMap Shape.course

/-- A call of the model's `init_weights`, with the samples it is given, or a call of the
per-batch trainer, with its epoch and the offset its batch starts at. -/
inductive Setup (α : Type) where
  | init_weights (samples : List α)
  | train_batch (epoch istart : Nat)
deriving DecidableEq

/-- The call of `init_weights` or of the per-batch trainer an entry records, if it is one. -/
def Shape.setup : Shape α → Option (Setup α)
  | Shape.init_weights xs => some (Setup.init_weights xs)
  | Shape.train_batch e istart _ _ _ _ _ => some (Setup.train_batch e istart)
  | _ => none

/-- The calls of `init_weights` and of the per-batch trainer, in the order of the trace. -/
def setup_calls (trace : List (Event W S α)) : List (Setup α) :=
  (trace.map Event.shape).filterMap Shape.setup

/-- The epoch and the context of a call of the per-batch trainer whose batch starts at the
start of the range: the first call of its epoch. -/
def Event.first_context : Event W S α → Option (Nat × rbm_training_context W)
  | Event.train_batch e istart _ _ _ _ _ ctx _ => if istart = 0 then some (e, ctx) else none
  | _ => none

/-- The contexts given to the first call of the per-batch trainer of each epoch, with the
epochs, in the order of the trace. -/
def first_contexts (trace : List (Event W S α)) : List (Nat × rbm_training_context W) :=
  trace.filterMap Event.first_context

/-- The epoch of a first call of the per-batch trainer, with a context of zeros. -/
def Shape.first_context [Zero W] : Shape α → Option (Nat × rbm_training_context W)
  | Shape.train_batch e istart _ _ _ _ _ =>
    if istart = 0 then
      some (e, { reconstruction_error := 0, sparsity := 0, free_energy := 0 })
    else none
  | _ => none

/-- The entries of the calls that `train` makes before it constructs the trainer at line 142:
`training_begin` and `init_weights`. -/
def Event.before_trainer : Event W S α → Bool
  | Event.training_begin _ => true
  | Event.init_weights _ => true
  | _ => false

/-- What the step recorded by a trace entry does to the model and to the collaborators' own
state: the call of the collaborator on the recorded arguments and, for `average`, the momentum
switch of lines 202-204 that follows the averaging. The warning and the free-energy query
change neither. -/
def Event.effect (c : Env W S X G α) : Event W S α → RBM W S × X → RBM W S × X
  | Event.training_begin _, p => c.training_begin p.1 p.2
  | Event.init_weights xs, p => (c.rbm_init_weights p.1 xs, p.2)
  | Event.warning, p => p
  | Event.train_batch _ _ _ _ _ ib eb ctx _, p => (c.train_batch ib eb ctx p.1 p.2).2
  | Event.free_energy _, p => p
  | Event.average e _ _ _, p => (update_momentum c.traits e p.1, p.2)
  | Event.epoch_end e ctx _, p => c.epoch_end e ctx p.1 p.2
  | Event.training_end _, p => c.training_end p.1 p.2

/-- The model and the collaborators' own state that the collaborators produce when the calls a
trace records are made on them one after the other, each on what the one before left: the
momentum is reset (line 117), the calls recorded before the construction of the trainer are
made, the trainer is constructed (line 142), and the other recorded calls are made. -/
def replay (c : Env W S X G α) (rbm : RBM W S) (ext : X) (trace : List (Event W S α)) :
    RBM W S × X :=
  let s1 := (trace.filter Event.before_trainer).foldl (fun p ev => ev.effect c p)
    ({ rbm with momentum := rbm.initial_momentum }, ext)
  (trace.filter (fun ev => !ev.before_trainer)).foldl (fun p ev => ev.effect c p)
    (c.make_trainer s1.1 s1.2)

/-- The record kept by the collaborators of `probe_env`: the notifications the watcher has
received, the input and expected batches the trainer has been given, and the number of
trainers constructed. -/
structure Probe where
  notified : List Notification
  trained : List (List Nat × List Nat)
  trainers : Nat
deriving DecidableEq

/-- Collaborators that keep their own record of the calls made on them: the watcher and the
trainer write into a `Probe`, and the model appends the samples given to `init_weights` to its
`params`. -/
def probe_env (t : rbm_traits) (watcher : Bool) (b : Nat) :
    Env ℚ (List (List Nat)) Probe Nat Nat :=
  { traits := t
    EnableWatcher := watcher
    get_batch_size := fun _ => b
    rbm_init_weights := fun r xs => { r with params := r.params ++ [xs] }
    rbm_free_energy := fun _ v => (v : ℚ)
    make_trainer := fun r x => (r, { x with trainers := x.trainers + 1 })
    train_batch := fun ib eb ctx r x => (ctx, r, { x with trained := x.trained ++ [(ib, eb)] })
    training_begin := fun r x =>
      (r, { x with notified := x.notified ++ [Notification.training_begin] })
    epoch_end := fun e _ r x =>
      (r, { x with notified := x.notified ++ [Notification.epoch_end e] })
    training_end := fun r x =>
      (r, { x with notified := x.notified ++ [Notification.training_end] })
    draw := fun g i => (g % (i + 1), g + 1) }

/-- A model that has not been given samples yet, for `probe_env`. -/
def probe_rbm : RBM ℚ (List (List Nat)) :=
  { momentum := 7 / 10, initial_momentum := 1 / 2, final_momentum := 9 / 10,
    final_momentum_epoch := 3, params := [] }

/-- The empty record. -/
def no_record : Probe :=
  { notified := [], trained := [], trainers := 0 }

end specification

end dll

/-! ## Loops -/

namespace dll

/-- Total correctness of a fuelled loop: an invariant kept by the body and a measure that the body
decreases give a result once the fuel exceeds the measure. -/
theorem while_loop_rule {σ : Type} (cond : σ → Bool) (body : σ → Option σ) (inv : σ → Prop)
    (μ : σ → Nat)
    (hstep : ∀ s, inv s → cond s = true → ∃ s', body s = some s' ∧ inv s' ∧ μ s' < μ s) :
    ∀ (fuel : Nat) (s : σ), inv s → μ s < fuel →
      ∃ s', while_loop cond body fuel s = some s' ∧ inv s' ∧ cond s' = false := by
  intro fuel
  induction fuel with
  | zero => intro s _ h; omega
  | succ fuel ih =>
    intro s hs hμ
    by_cases hc : cond s = true
    · obtain ⟨s', hb, hi, hlt⟩ := hstep s hs hc
      obtain ⟨s'', hw, hi', hc'⟩ := ih s' hi (by omega)
      exact ⟨s'', by simp [while_loop, hc, hb, hw], hi', hc'⟩
    · exact ⟨s, by simp [while_loop, hc], hs, by simpa using hc⟩

section loops

variable {W S X G α : Type}

/-- The inner loop (lines 176-181) advances both iterators, `samples` and `i` by the number of
samples that are left, at most `batch_size - i`. -/
theorem inner_loop_eq (end_ batch_size : Nat) :
    ∀ (fuel : Nat) (l : BatchLoop W S X G α), l.iit ≤ end_ →
      min (batch_size - l.i) (end_ - l.iit) < fuel →
      while_loop (inner_cond end_ batch_size) inner_body fuel l =
        some { l with
          iit := l.iit + min (batch_size - l.i) (end_ - l.iit)
          eit := l.eit + min (batch_size - l.i) (end_ - l.iit)
          samples := l.samples + min (batch_size - l.i) (end_ - l.iit)
          i := l.i + min (batch_size - l.i) (end_ - l.iit) } := by
  intro fuel
  induction fuel with
  | zero => intro l _ h; omega
  | succ fuel ih =>
    intro l hle hlt
    by_cases hc : l.iit ≠ end_ ∧ l.i < batch_size
    · have hcond : inner_cond end_ batch_size l = true := by
        simp [inner_cond, hc.1, hc.2]
      have hk : min (batch_size - l.i) (end_ - l.iit) =
          min (batch_size - (l.i + 1)) (end_ - (l.iit + 1)) + 1 := by omega
      simp only [while_loop, hcond, if_true, inner_body, Option.some_bind]
      rw [ih _ (by simp only; omega) (by simp only; omega)]
      simp only [hk, Option.some.injEq]
      congr 1 <;> omega
    · have hcond : inner_cond end_ batch_size l = false := by
        simp only [inner_cond, Bool.and_eq_false_iff, bne_eq_false_iff_eq, decide_eq_false_iff_not]
        by_cases h1 : l.iit = end_
        · exact Or.inl h1
        · exact Or.inr (fun h2 => hc ⟨h1, h2⟩)
      have hk : min (batch_size - l.i) (end_ - l.iit) = 0 := by omega
      simp [while_loop, hcond, hk]

variable [Add W]

theorem batch_body_eq (c : Env W S X G α) (fuel epoch : Nat) (ibuf ebuf : Buf)
    (end_ batch_size : Nat) (l : BatchLoop W S X G α) (hle : l.iit ≤ end_)
    (hfuel : min batch_size (end_ - l.iit) < fuel) :
    batch_body c fuel epoch ibuf ebuf end_ batch_size l =
      some (batch_step c epoch ibuf ebuf end_ batch_size l) := by
  unfold batch_body
  simp only
  rw [inner_loop_eq end_ batch_size fuel { l with i := 0 } hle (by simpa using hfuel)]
  simp [batch_step, batch_call, State.log]

/-- The free-energy loop of lines 190-192 only appends its calls to the trace and adds to the
`free_energy` accumulator. -/
theorem foldl_free_energy_step (c : Env W S X G α) (vs : List α) :
    ∀ l : BatchLoop W S X G α,
      (vs.foldl (free_energy_step c) l).iit = l.iit ∧
      (vs.foldl (free_energy_step c) l).eit = l.eit ∧
      (vs.foldl (free_energy_step c) l).batches = l.batches ∧
      (vs.foldl (free_energy_step c) l).samples = l.samples ∧
      (vs.foldl (free_energy_step c) l).st.rbm = l.st.rbm ∧
      (vs.foldl (free_energy_step c) l).st.ext = l.st.ext ∧
      (vs.foldl (free_energy_step c) l).st.mem = l.st.mem ∧
      (vs.foldl (free_energy_step c) l).st.gen = l.st.gen ∧
      (vs.foldl (free_energy_step c) l).st.trace = l.st.trace ++ vs.map Event.free_energy ∧
      (vs.foldl (free_energy_step c) l).context.reconstruction_error =
        l.context.reconstruction_error ∧
      (vs.foldl (free_energy_step c) l).context.sparsity = l.context.sparsity := by
  induction vs with
  | nil => intro l; simp
  | cons v vs ih =>
    intro l
    obtain ⟨h1, h2, h3, h4, h5, h6, h7, h8, h9, h10, h11⟩ := ih (free_energy_step c l v)
    simp only [List.foldl_cons]
    refine ⟨h1, h2, h3, h4, h5, h6, h7, h8, ?_, h10, h11⟩
    rw [h9]
    simp [free_energy_step, State.log]

/-- What one iteration of the batch loop does to the loop variables, the state and the trace. -/
theorem batch_step_spec (c : Env W S X G α) (epoch : Nat) (ibuf ebuf : Buf) (end_ batch_size : Nat)
    (l : BatchLoop W S X G α) :
    (batch_step c epoch ibuf ebuf end_ batch_size l).iit =
        l.iit + min batch_size (end_ - l.iit) ∧
    (batch_step c epoch ibuf ebuf end_ batch_size l).eit =
        l.eit + min batch_size (end_ - l.iit) ∧
    (batch_step c epoch ibuf ebuf end_ batch_size l).batches = l.batches + 1 ∧
    (batch_step c epoch ibuf ebuf end_ batch_size l).samples =
        l.samples + min batch_size (end_ - l.iit) ∧
    (batch_step c epoch ibuf ebuf end_ batch_size l).st.mem = l.st.mem ∧
    (batch_step c epoch ibuf ebuf end_ batch_size l).st.gen = l.st.gen ∧
    (batch_step c epoch ibuf ebuf end_ batch_size l).st.rbm =
        (c.train_batch
          (make_batch (l.st.mem.get ibuf) l.iit (l.iit + min batch_size (end_ - l.iit)))
          (make_batch (l.st.mem.get ebuf) l.eit (l.eit + min batch_size (end_ - l.iit)))
          l.context l.st.rbm l.st.ext).2.1 ∧
    (batch_step c epoch ibuf ebuf end_ batch_size l).st.trace =
        l.st.trace ++
          Event.train_batch epoch l.iit (l.iit + min batch_size (end_ - l.iit)) l.eit
            (l.eit + min batch_size (end_ - l.iit))
            (make_batch (l.st.mem.get ibuf) l.iit (l.iit + min batch_size (end_ - l.iit)))
            (make_batch (l.st.mem.get ebuf) l.eit (l.eit + min batch_size (end_ - l.iit)))
            l.context l.st.rbm ::
          (if c.EnableWatcher && c.traits.free_energy then
            (make_batch (l.st.mem.get ibuf) l.iit
              (l.iit + min batch_size (end_ - l.iit))).map Event.free_energy
           else []) := by
  unfold batch_step
  by_cases h : (c.EnableWatcher && c.traits.free_energy) = true
  · simp only [h, if_true]
    obtain ⟨h1, h2, h3, h4, h5, -, h7, h8, h9, -, -⟩ := foldl_free_energy_step c
      (make_batch (l.st.mem.get ibuf) l.iit (l.iit + min batch_size (end_ - l.iit)))
      (batch_call c epoch ibuf ebuf end_ batch_size l)
    rw [h1, h2, h3, h4, h5, h7, h8, h9]
    simp [batch_call]
  · simp [h, batch_call]

theorem ceil_div_of_core (n b k : Nat) (hb : 0 < b) (h1 : n = min (k * b) n)
    (h2 : k = 0 ∨ (k - 1) * b < n) : k = ceil_div n b := by
  unfold ceil_div
  symm
  apply Nat.div_eq_of_lt_le
  · rcases h2 with h2 | h2
    · subst h2; simp
    · rw [Nat.sub_mul] at h2; omega
  · rw [Nat.succ_mul]; omega

variable [Zero W]

/-- Total correctness of the batch loop of one epoch: with a positive batch size and more fuel
than samples the loop returns, and every property kept by one iteration holds at the end. -/
theorem run_batches_rule (c : Env W S X G α) (fuel epoch : Nat) (ibuf ebuf : Buf) (b : Nat)
    (s : State W S X G α) (hb : 0 < b) (hfuel : (s.mem.get ibuf).length < fuel)
    (inv : BatchLoop W S X G α → Prop) (h0 : inv (batch_init s))
    (hstep : ∀ l, Core (s.mem.get ibuf).length b s l → l.iit < (s.mem.get ibuf).length → inv l →
      inv (batch_step c epoch ibuf ebuf (s.mem.get ibuf).length b l)) :
    ∃ l, run_batches c fuel epoch ibuf ebuf b s = some l ∧
      Core (s.mem.get ibuf).length b s l ∧ l.iit = (s.mem.get ibuf).length ∧ inv l := by
  have key := while_loop_rule (fun l : BatchLoop W S X G α => l.iit != (s.mem.get ibuf).length)
    (batch_body c fuel epoch ibuf ebuf (s.mem.get ibuf).length b)
    (fun l => Core (s.mem.get ibuf).length b s l ∧ inv l)
    (fun l => (s.mem.get ibuf).length - l.iit)
    (by
      intro l ⟨hc, hi⟩ hcond
      have hne : l.iit ≠ (s.mem.get ibuf).length := by simpa using hcond
      obtain ⟨c1, c2, c3, c4, c5, c6⟩ := hc
      have hlt : l.iit < (s.mem.get ibuf).length := by omega
      have hiit : l.iit = l.batches * b := by omega
      obtain ⟨s1, s2, s3, s4, s5, s6, -, -⟩ :=
        batch_step_spec c epoch ibuf ebuf (s.mem.get ibuf).length b l
      refine ⟨_, batch_body_eq c fuel epoch ibuf ebuf _ b l (by omega) (by omega),
        ⟨⟨?_, ?_, ?_, ?_, ?_, ?_⟩, hstep l ⟨c1, c2, c3, c4, c5, c6⟩ hlt hi⟩, ?_⟩
      · rw [s1, s3, Nat.succ_mul]; omega
      · rw [s1, s2]; omega
      · rw [s1, s4]; omega
      · rw [s5, c4]
      · rw [s6, c5]
      · right; rw [s3, Nat.add_sub_cancel]; omega
      · show _ - _ < _ - _
        rw [s1]; omega)
    fuel (batch_init s)
    ⟨⟨by simp [batch_init], rfl, rfl, rfl, rfl, Or.inl rfl⟩, h0⟩
    (by simpa [batch_init] using hfuel)
  obtain ⟨l, h1, ⟨h2, h3⟩, h4⟩ := key
  exact ⟨l, h1, h2, by simpa using h4, h3⟩

end loops

end dll

/-! ## The entries of the trace -/

namespace dll

section shapes

variable {W S X G α : Type} [Add W] [Zero W]

/-- The batch loop of one epoch returns; its counters are `ceil(n / b)` and `n`, it leaves the
buffers and the generator alone, and the entries it writes are those of `batches_shape`. -/
theorem run_batches_shape (c : Env W S X G α) (fuel epoch : Nat) (ibuf ebuf : Buf) (b : Nat)
    (s : State W S X G α) (hb : 0 < b) (hfuel : (s.mem.get ibuf).length < fuel) :
    ∃ l, run_batches c fuel epoch ibuf ebuf b s = some l ∧
      l.batches = ceil_div (s.mem.get ibuf).length b ∧
      l.samples = (s.mem.get ibuf).length ∧ l.st.mem = s.mem ∧ l.st.gen = s.gen ∧
      l.st.trace.map Event.shape =
        s.trace.map Event.shape ++
          batches_shape c epoch (s.mem.get ibuf) (s.mem.get ebuf) b := by
  obtain ⟨l, h1, ⟨c1, c2, c3, c4, c5, c6⟩, h3, h4⟩ :=
    run_batches_rule c fuel epoch ibuf ebuf b s hb hfuel
      (fun l => l.st.trace.map Event.shape =
        s.trace.map Event.shape ++
          (List.range l.batches).flatMap
            (batch_shape c epoch (s.mem.get ibuf) (s.mem.get ebuf) b))
      (by simp [batch_init])
      (by
        intro l ⟨c1, c2, c3, c4, c5, c6⟩ hlt hi
        obtain ⟨s1, s2, s3, s4, s5, s6, -, s8⟩ :=
          batch_step_spec c epoch ibuf ebuf (s.mem.get ibuf).length b l
        have hiit : l.iit = l.batches * b := by omega
        have hhi : l.iit + min b ((s.mem.get ibuf).length - l.iit) =
            min ((l.batches + 1) * b) (s.mem.get ibuf).length := by
          rw [Nat.succ_mul]; omega
        rw [s8, s3, List.range_succ, List.flatMap_append, List.map_append, hi, c2, hhi, c4, hiit]
        simp only [List.append_assoc, List.append_cancel_left_eq, List.flatMap_cons,
          List.flatMap_nil, List.append_nil, batch_shape, List.map_cons, Event.shape]
        by_cases hfe : (c.EnableWatcher && c.traits.free_energy) = true
        · simp [hfe, Function.comp_def, Event.shape]
        · simp [hfe])
  have hk : l.batches = ceil_div (s.mem.get ibuf).length b :=
    ceil_div_of_core _ b l.batches hb (by omega) c6
  refine ⟨l, h1, hk, by omega, c4, c5, ?_⟩
  rw [h4, hk]
  rfl

end shapes

section buffers

variable {G α : Type}

theorem length_swap_at (xs : List α) (i j : Nat) : (swap_at xs i j).length = xs.length := by
  unfold swap_at
  split <;> simp

theorem parallel_shuffle_loop_length (draw : G → Nat → Nat × G) :
    ∀ (i : Nat) (g : G) (xs ys : List α),
      (parallel_shuffle_loop draw i g xs ys).1.length = xs.length ∧
      (parallel_shuffle_loop draw i g xs ys).2.1.length = ys.length := by
  intro i
  induction i with
  | zero => intro g xs ys; simp [parallel_shuffle_loop]
  | succ i ih =>
    intro g xs ys
    simp only [parallel_shuffle_loop]
    obtain ⟨h1, h2⟩ := ih (draw g (i + 1)).2 (swap_at xs (i + 1) (draw g (i + 1)).1)
      (swap_at ys (i + 1) (draw g (i + 1)).1)
    rw [h1, h2, length_swap_at, length_swap_at]
    exact ⟨rfl, rfl⟩

theorem std_shuffle_loop_length (draw : G → Nat → Nat × G) :
    ∀ (i : Nat) (g : G) (xs : List α), (std_shuffle_loop draw i g xs).1.length = xs.length := by
  intro i
  induction i with
  | zero => intro g xs; simp [std_shuffle_loop]
  | succ i ih =>
    intro g xs
    simp only [std_shuffle_loop]
    rw [ih, length_swap_at]

theorem Mem.get_set_same (m : Mem α) (b : Buf) (xs : List α) : (m.set b xs).get b = xs := by
  cases b <;> rfl

theorem Mem.get_set_other (m : Mem α) (b b' : Buf) (xs : List α) (h : b' ≠ b) :
    (m.set b xs).get b' = m.get b' := by
  cases b <;> cases b' <;> first | rfl | exact absurd rfl h

/-- A shuffle keeps the length of the input range. -/
theorem shuffle_length (t : rbm_traits) (draw : G → Nat → Nat × G) (Denoising : Bool)
    (ibuf ebuf : Buf) (g : G) (m : Mem α) :
    ((shuffle t draw Denoising ibuf ebuf g m).1.get ibuf).length = (m.get ibuf).length := by
  unfold shuffle
  by_cases hs : t.has_shuffle = true
  · by_cases hd : Denoising = true
    · simp only [hs, hd, if_true]
      obtain ⟨h1, h2⟩ := parallel_shuffle_loop_length draw ((m.get ibuf).length - 1) g
        (m.get ibuf) (m.get ebuf)
      by_cases hbuf : ibuf = ebuf
      · subst hbuf
        rw [Mem.get_set_same]
        exact h2
      · rw [Mem.get_set_other _ _ _ _ hbuf, Mem.get_set_same]
        exact h1
    · simp only [hs, hd, if_true, Bool.false_eq_true, if_false]
      rw [Mem.get_set_same]
      exact std_shuffle_loop_length draw _ g _
  · simp [hs]

end buffers

section epoch_rule

variable {W S X G α : Type}

/-- The epoch loop returns when every iteration does, and keeps what every iteration keeps. -/
theorem epoch_loop_rule (body : Nat → State W S X G α → Option (State W S X G α × W))
    (inv : Nat → State W S X G α × W → Prop)
    (hstep : ∀ e r, inv e r → ∃ r', body e r.1 = some r' ∧ inv (e + 1) r') :
    ∀ (k e : Nat) (r : State W S X G α × W), inv e r →
      ∃ r', epoch_loop body k e r = some r' ∧ inv (e + k) r' := by
  intro k
  induction k with
  | zero => intro e r h; exact ⟨r, rfl, h⟩
  | succ k ih =>
    intro e r h
    obtain ⟨r1, hb, hi⟩ := hstep e r h
    obtain ⟨r2, hl, hi2⟩ := ih (e + 1) r1 hi
    refine ⟨r2, by simp [epoch_loop, hb, hl], ?_⟩
    have : e + (k + 1) = e + 1 + k := by omega
    rw [this]
    exact hi2

end epoch_rule

section epochs

variable {W S X G α : Type} [Div W] [NatCast W]

/-- What the end of an epoch (lines 196-212) does to the buffers, the generator and the entries
of the trace. -/
theorem finish_epoch_shape (c : Env W S X G α) (epoch : Nat) (l : BatchLoop W S X G α) :
    (finish_epoch c epoch l).1.mem = l.st.mem ∧ (finish_epoch c epoch l).1.gen = l.st.gen ∧
    (finish_epoch c epoch l).1.trace.map Event.shape =
      l.st.trace.map Event.shape ++
        Shape.average epoch l.batches l.samples ::
        (if c.EnableWatcher then [Shape.epoch_end epoch] else []) := by
  unfold finish_epoch notify_epoch_end
  by_cases hw : c.EnableWatcher = true
  · simp [hw, State.log, Event.shape]
  · simp [hw, State.log, Event.shape]

variable [Zero W] [Add W]

/-- One epoch returns; it shuffles once and writes the entries of `epoch_shape`. -/
theorem epoch_body_shape (c : Env W S X G α) (Denoising : Bool) (fuel : Nat) (ibuf ebuf : Buf)
    (b epoch : Nat) (s : State W S X G α) (hb : 0 < b) (hfuel : (s.mem.get ibuf).length < fuel) :
    ∃ r, epoch_body c Denoising fuel ibuf ebuf b epoch s = some r ∧
      (r.1.mem, r.1.gen) = shuffle_step c Denoising ibuf ebuf (s.mem, s.gen) ∧
      r.1.trace.map Event.shape =
        s.trace.map Event.shape ++
          epoch_shape c epoch ((shuffle_step c Denoising ibuf ebuf (s.mem, s.gen)).1.get ibuf)
            ((shuffle_step c Denoising ibuf ebuf (s.mem, s.gen)).1.get ebuf) b := by
  obtain ⟨l, h1, h2, h3, h4, h5, h6⟩ := run_batches_shape c fuel epoch ibuf ebuf b
    { s with mem := (shuffle c.traits c.draw Denoising ibuf ebuf s.gen s.mem).1,
             gen := (shuffle c.traits c.draw Denoising ibuf ebuf s.gen s.mem).2 } hb
    (by simpa [shuffle_length] using hfuel)
  obtain ⟨f1, f2, f3⟩ := finish_epoch_shape c epoch l
  refine ⟨finish_epoch c epoch l, by simp [epoch_body, h1], ?_, ?_⟩
  · rw [f1, f2, h4, h5]; rfl
  · rw [f3, h6, h2, h3]
    simp [epoch_shape, shuffle_step]

end epochs

section whole

variable {W S X G α : Type}

theorem shuffled_succ (c : Env W S X G α) (Denoising : Bool) (ibuf ebuf : Buf) (e : Nat)
    (p : Mem α × G) :
    shuffled c Denoising ibuf ebuf (e + 1) p =
      shuffle_step c Denoising ibuf ebuf (shuffled c Denoising ibuf ebuf e p) := by
  unfold shuffled
  exact Function.iterate_succ_apply' _ _ _

/-- The shuffles keep the length of the input range. -/
theorem shuffled_length (c : Env W S X G α) (Denoising : Bool) (ibuf ebuf : Buf) (e : Nat)
    (p : Mem α × G) :
    ((shuffled c Denoising ibuf ebuf e p).1.get ibuf).length = (p.1.get ibuf).length := by
  induction e with
  | zero => rfl
  | succ e ih =>
    rw [shuffled_succ, shuffle_step, shuffle_length, ih]

/-- The input iterators of `train` span the caller's input, copied or not. -/
theorem prepared_input (c : Env W S X G α) (Denoising : Bool) (input expected : List α) :
    (prepared c Denoising input expected).1.get (prepared c Denoising input expected).2.1 =
      input := by
  unfold prepared prepare_it
  by_cases hs : c.traits.has_shuffle = true
  · by_cases hd : Denoising = true
    · simp [hs, hd, Mem.get]
    · simp [hs, hd, Mem.get]
  · simp [hs, Mem.get]

/-- What the part of `train` before the epoch loop leaves: the buffers of `prepare_it`, the
generator, the batch size and the first entries of the trace. -/
theorem setup_result_shape (c : Env W S X G α) (Denoising : Bool) (rbm : RBM W S) (ext : X)
    (g : G) (input expected : List α) :
    (setup_result c Denoising rbm ext g input expected).1.mem =
        (prepared c Denoising input expected).1 ∧
    (setup_result c Denoising rbm ext g input expected).1.gen = g ∧
    (setup_result c Denoising rbm ext g input expected).2.1 =
        (prepared c Denoising input expected).2.1 ∧
    (setup_result c Denoising rbm ext g input expected).2.2.1 =
        (prepared c Denoising input expected).2.2 ∧
    (setup_result c Denoising rbm ext g input expected).1.trace.map Event.shape =
      (if c.EnableWatcher then [Shape.training_begin] else []) ++
      (if c.traits.init_weights then [Shape.init_weights input] else []) ++
      (if input.length %
          (setup_result c Denoising rbm ext g input expected).2.2.2 != 0 then [Shape.warning]
        else []) := by
  have hp := prepared_input c Denoising input expected
  unfold prepared at hp
  unfold setup_result prepared notify_training_begin init_weights
  by_cases hw : c.EnableWatcher = true <;> by_cases hi : c.traits.init_weights = true <;>
    simp only [hw, hi, if_true, Bool.false_eq_true, if_false, State.log, hp] <;>
    split <;> simp [Event.shape, *]

/-- With a batch size that is not zero the divisibility test of line 149 is defined, and the part
of `train` before the epoch loop has the result `setup_result`. -/
theorem train_setup_eq (c : Env W S X G α) (Denoising : Bool) (rbm : RBM W S) (ext : X)
    (g : G) (input expected : List α)
    (h : (setup_result c Denoising rbm ext g input expected).2.2.2 ≠ 0) :
    train_setup c Denoising rbm ext g input expected =
      some (setup_result c Denoising rbm ext g input expected) := by
  unfold setup_result at h
  unfold train_setup setup_result
  simp only [] at h ⊢
  rw [if_neg h]

/-- With a batch size of zero the divisibility test of line 149 divides by zero: the part of
`train` before the epoch loop has no result. -/
theorem train_setup_zero (c : Env W S X G α) (Denoising : Bool) (rbm : RBM W S) (ext : X)
    (g : G) (input expected : List α) (hsize : ∀ r, c.get_batch_size r = 0) :
    train_setup c Denoising rbm ext g input expected = none := by
  unfold train_setup
  simp only [hsize, if_true]

variable [Zero W] [Add W] [Div W] [NatCast W]

/-- With a positive batch size `train` is the epoch loop started on `setup_result`, followed by
the last notification. -/
theorem train_eq (c : Env W S X G α) (Denoising : Bool) (fuel : Nat) (rbm : RBM W S)
    (ext : X) (g : G) (input expected : List α) (max_epochs b : Nat)
    (hsize : ∀ r, c.get_batch_size r = b) (hb : 0 < b) :
    train c Denoising fuel rbm ext g input expected max_epochs =
      (epoch_loop
        (epoch_body c Denoising fuel (setup_result c Denoising rbm ext g input expected).2.1
          (setup_result c Denoising rbm ext g input expected).2.2.1 b)
        max_epochs 0 ((setup_result c Denoising rbm ext g input expected).1, 0)).map
        fun r => (notify_training_end c r.1, r.2) := by
  have hbs : (setup_result c Denoising rbm ext g input expected).2.2.2 = b := hsize _
  unfold train
  rw [train_setup_eq c Denoising rbm ext g input expected (by rw [hbs]; omega)]
  simp only [Option.some_bind, hbs]

/-- The epoch loop returns; after `k` epochs the buffers have been shuffled `k` times and the
trace has the entries of the `k` epochs. -/
theorem epoch_loop_shape (c : Env W S X G α) (Denoising : Bool) (fuel : Nat) (ibuf ebuf : Buf)
    (b : Nat) (hb : 0 < b) (s : State W S X G α) (w : W)
    (hfuel : (s.mem.get ibuf).length < fuel) (k : Nat) :
    ∃ r, epoch_loop (epoch_body c Denoising fuel ibuf ebuf b) k 0 (s, w) = some r ∧
      (r.1.mem, r.1.gen) = shuffled c Denoising ibuf ebuf k (s.mem, s.gen) ∧
      r.1.trace.map Event.shape =
        s.trace.map Event.shape ++
          (List.range k).flatMap (fun e =>
            epoch_shape c e ((shuffled c Denoising ibuf ebuf (e + 1) (s.mem, s.gen)).1.get ibuf)
              ((shuffled c Denoising ibuf ebuf (e + 1) (s.mem, s.gen)).1.get ebuf) b) := by
  have key := epoch_loop_rule (epoch_body c Denoising fuel ibuf ebuf b)
    (fun e r =>
      (r.1.mem, r.1.gen) = shuffled c Denoising ibuf ebuf e (s.mem, s.gen) ∧
      r.1.trace.map Event.shape =
        s.trace.map Event.shape ++
          (List.range e).flatMap (fun e =>
            epoch_shape c e ((shuffled c Denoising ibuf ebuf (e + 1) (s.mem, s.gen)).1.get ibuf)
              ((shuffled c Denoising ibuf ebuf (e + 1) (s.mem, s.gen)).1.get ebuf) b))
    (by
      intro e r ⟨h1, h2⟩
      have hlen : (r.1.mem.get ibuf).length < fuel := by
        have := shuffled_length c Denoising ibuf ebuf e (s.mem, s.gen)
        rw [← h1] at this
        simpa [this] using hfuel
      obtain ⟨r', e1, e2, e3⟩ := epoch_body_shape c Denoising fuel ibuf ebuf b e r.1 hb hlen
      refine ⟨r', e1, ?_, ?_⟩
      · rw [e2, h1, shuffled_succ]
      · rw [e3, h2, h1, ← shuffled_succ, List.range_succ, List.flatMap_append]
        simp)
    k 0 (s, w) ⟨rfl, by simp⟩
  simpa using key

/-- The trace of a whole call: with a positive batch size `b` and more fuel than samples,
`train` returns and the entries of its trace are those of `train_shape`. -/
theorem train_trace_shape (c : Env W S X G α) (Denoising : Bool) (fuel : Nat) (rbm : RBM W S)
    (ext : X) (g : G) (input expected : List α) (max_epochs b : Nat)
    (hsize : ∀ r, c.get_batch_size r = b) (hb : 0 < b) (hfuel : input.length < fuel) :
    ∃ r, train c Denoising fuel rbm ext g input expected max_epochs = some r ∧
      r.1.trace.map Event.shape = train_shape c Denoising g input expected b max_epochs := by
  obtain ⟨t1, t2, t3, t4, t5⟩ := setup_result_shape c Denoising rbm ext g input expected
  have hbs : (setup_result c Denoising rbm ext g input expected).2.2.2 = b := hsize _
  have hp := prepared_input c Denoising input expected
  obtain ⟨r, h1, h2, h3⟩ := epoch_loop_shape c Denoising fuel
    (setup_result c Denoising rbm ext g input expected).2.1
    (setup_result c Denoising rbm ext g input expected).2.2.1 b hb
    (setup_result c Denoising rbm ext g input expected).1 (0 : W)
    (by rw [t1, t3, hp]; exact hfuel) max_epochs
  refine ⟨(notify_training_end c r.1, r.2), by
    rw [train_eq c Denoising fuel rbm ext g input expected max_epochs b hsize hb, h1]; rfl, ?_⟩
  have hend : (notify_training_end c r.1).trace.map Event.shape =
      r.1.trace.map Event.shape ++ (if c.EnableWatcher then [Shape.training_end] else []) := by
    unfold notify_training_end
    by_cases hw : c.EnableWatcher = true
    · simp [hw, State.log, Event.shape]
    · simp [hw]
  simp only [hend, h3, t5, hbs, t1, t2, t3, t4]
  rfl

end whole

section slices

variable {α : Type}

theorem ceil_div_mul_ge (n b : Nat) (hb : 0 < b) : n ≤ ceil_div n b * b := by
  unfold ceil_div
  have h1 := Nat.div_add_mod (n + b - 1) b
  have h2 := Nat.mod_lt (n + b - 1) hb
  rw [Nat.mul_comm] at h1
  omega

theorem lt_of_succ_lt_ceil_div (n b k : Nat) (hb : 0 < b) (h : k + 1 < ceil_div n b) :
    (k + 1) * b < n := by
  unfold ceil_div at h
  have h1 : (k + 2) * b ≤ n + b - 1 := (Nat.le_div_iff_mul_le hb).1 h
  have h2 : (k + 2) * b = (k + 1) * b + b := by rw [Nat.succ_mul]
  omega

theorem ceil_div_of_mod_ne (n b : Nat) (hb : 0 < b) (h : n % b ≠ 0) :
    ceil_div n b = n / b + 1 := by
  unfold ceil_div
  apply Nat.div_eq_of_lt_le
  · have h1 := Nat.div_add_mod n b
    have h2 : (n / b + 1) * b = b * (n / b) + b := by rw [Nat.succ_mul, Nat.mul_comm]
    omega
  · have h1 := Nat.div_add_mod n b
    have h2 := Nat.mod_lt n hb
    have h3 : (n / b + 1 + 1) * b = b * (n / b) + b + b := by
      rw [Nat.succ_mul, Nat.succ_mul, Nat.mul_comm]
    omega

theorem ceil_div_of_mod_eq (n b : Nat) (hb : 0 < b) (h : n % b = 0) :
    ceil_div n b * b = n := by
  have h1 := Nat.div_add_mod n b
  have h2 : ceil_div n b = n / b := by
    unfold ceil_div
    rcases Nat.eq_zero_or_pos (n / b) with h0 | h0
    · have : n = 0 := by rw [h0, h, Nat.mul_zero] at h1; omega
      subst this
      simp only [Nat.zero_add, Nat.zero_div]
      exact Nat.div_eq_of_lt (by omega)
    · apply Nat.div_eq_of_lt_le
      · rw [Nat.mul_comm]; omega
      · rw [Nat.succ_mul, Nat.mul_comm]; omega
  rw [h2, Nat.mul_comm]; omega

theorem length_make_batch (xs : List α) (lo hi : Nat) (h : hi ≤ xs.length) :
    (make_batch xs lo hi).length = hi - lo := by
  simp only [make_batch, List.length_take, List.length_drop]
  omega

/-- The first `m` slices of a sequence, put end to end, are its first `min (m * b) n` samples. -/
theorem flatten_slices (seq : List α) (b : Nat) (m : Nat) :
    ((List.range m).map (fun k =>
        make_batch seq (k * b) (min ((k + 1) * b) seq.length))).flatten =
      seq.take (min (m * b) seq.length) := by
  induction m with
  | zero => simp
  | succ m ih =>
    rw [List.range_succ, List.map_append, List.flatten_append, ih]
    simp only [List.map_cons, List.map_nil, List.flatten_cons, List.flatten_nil,
      List.append_nil, make_batch]
    have hmul : (m + 1) * b = m * b + b := Nat.succ_mul m b
    by_cases hle : m * b ≤ seq.length
    · have e1 : min (m * b) seq.length = m * b := by omega
      have e2 : min ((m + 1) * b) seq.length =
          m * b + (min ((m + 1) * b) seq.length - m * b) := by omega
      rw [e1]
      conv_rhs => rw [e2, List.take_add]
    · have e1 : min (m * b) seq.length = seq.length := by omega
      have e2 : min ((m + 1) * b) seq.length = seq.length := by omega
      rw [e1, e2, List.drop_eq_nil_of_le (by omega)]
      simp

/-- All the slices of a sequence, put end to end, are the sequence. -/
theorem flatten_all_slices (seq : List α) (b : Nat) (hb : 0 < b) :
    ((List.range (ceil_div seq.length b)).map (fun k =>
        make_batch seq (k * b) (min ((k + 1) * b) seq.length))).flatten = seq := by
  rw [flatten_slices]
  have := ceil_div_mul_ge seq.length b hb
  rw [List.take_of_length_le (by omega)]

end slices

section projections

variable {β : Type}

theorem flatMap_singleton_map {γ : Type} (l : List γ) (f : γ → β) :
    l.flatMap (fun k => [f k]) = l.map f := by
  induction l with
  | nil => rfl
  | cons a l ih => simp [List.flatMap_cons, ih]

theorem flatMap_nil_fun {γ : Type} (l : List γ) : l.flatMap (fun _ => ([] : List β)) = [] := by
  induction l with
  | nil => rfl
  | cons a l ih => simp [List.flatMap_cons]

/-- Of a list made epoch by epoch, only epoch `e` is left when the others give nothing. -/
theorem flatMap_range_single (N e : Nat) (L : Nat → List β) (h : e < N) :
    (List.range N).flatMap (fun e' => if e' = e then L e' else []) = L e := by
  induction N with
  | zero => omega
  | succ N ih =>
    rw [List.range_succ, List.flatMap_append]
    by_cases he : e = N
    · subst he
      have : (List.range e).flatMap (fun e' => if e' = e then L e' else []) = [] := by
        rw [← flatMap_nil_fun (List.range e)]
        apply List.flatMap_congr
        intro a ha
        have := List.mem_range.1 ha
        simp [show a ≠ e by omega]
      rw [this]
      simp
    · rw [ih (by omega)]
      simp [show N ≠ e from fun h => he h.symm]

end projections

section calls

variable {W S X G α : Type}

theorem batch_of_batch_shape (c : Env W S X G α) (e e' : Nat) (inp tgt : List α) (b k : Nat) :
    (batch_shape c e' inp tgt b k).filterMap (Shape.batch_of e) =
      if e' = e then [slice_call inp tgt b k] else [] := by
  have hfe : ∀ vs : List α, (vs.map Shape.free_energy).filterMap (Shape.batch_of e) = [] := by
    intro vs
    induction vs with
    | nil => rfl
    | cons v vs ih => simp [List.filterMap_cons, Shape.batch_of, ih]
  unfold batch_shape
  rw [List.filterMap_cons]
  simp only [Shape.batch_of]
  by_cases he : e' = e
  · simp only [he, if_true]
    split <;> simp [hfe, slice_call]
  · simp only [he, if_false]
    split <;> simp [hfe]

theorem batch_of_epoch_shape (c : Env W S X G α) (e e' : Nat) (inp tgt : List α) (b : Nat) :
    (epoch_shape c e' inp tgt b).filterMap (Shape.batch_of e) =
      if e' = e then (List.range (ceil_div inp.length b)).map (slice_call inp tgt b)
      else [] := by
  unfold epoch_shape batches_shape
  rw [List.filterMap_append, List.filterMap_flatMap]
  have h2 : (Shape.average e' (ceil_div inp.length b) inp.length ::
      (if c.EnableWatcher then [Shape.epoch_end e'] else [])).filterMap (Shape.batch_of e) =
      ([] : List (BatchCall α)) := by
    split <;> simp [List.filterMap_cons, Shape.batch_of]
  rw [h2, List.append_nil]
  simp only [batch_of_batch_shape]
  by_cases he : e' = e
  · simp only [he, if_true]
    exact flatMap_singleton_map _ _
  · simp only [he, if_false]
    exact flatMap_nil_fun _

/-- The calls of the per-batch trainer in epoch `e` of a whole call of `train`. -/
theorem batch_of_train_shape (c : Env W S X G α) (Denoising : Bool) (g : G)
    (input expected : List α) (b N e : Nat) (he : e < N) :
    (train_shape c Denoising g input expected b N).filterMap (Shape.batch_of e) =
      (List.range (ceil_div (epoch_input c Denoising g input expected e).length b)).map
        (slice_call (epoch_input c Denoising g input expected e)
          (epoch_expected c Denoising g input expected e) b) := by
  unfold train_shape
  simp only [List.filterMap_append, List.filterMap_flatMap, batch_of_epoch_shape]
  rw [flatMap_range_single N e _ he]
  have h1 : (if c.EnableWatcher then [Shape.training_begin] else []).filterMap
      (Shape.batch_of e) = ([] : List (BatchCall α)) := by
    split <;> simp [List.filterMap_cons, Shape.batch_of]
  have h2 : (if c.traits.init_weights then [Shape.init_weights input] else []).filterMap
      (Shape.batch_of e) = ([] : List (BatchCall α)) := by
    split <;> simp [List.filterMap_cons, Shape.batch_of]
  have h3 : (if input.length % b != 0 then [Shape.warning] else []).filterMap
      (Shape.batch_of e) = ([] : List (BatchCall α)) := by
    split <;> simp [List.filterMap_cons, Shape.batch_of]
  have h4 : (if c.EnableWatcher then [Shape.training_end] else []).filterMap
      (Shape.batch_of e) = ([] : List (BatchCall α)) := by
    split <;> simp [List.filterMap_cons, Shape.batch_of]
  rw [h1, h2, h3, h4]
  simp

/-- The sequence presented in an epoch has as many samples as the caller's input. -/
theorem epoch_input_length (c : Env W S X G α) (Denoising : Bool) (g : G)
    (input expected : List α) (e : Nat) :
    (epoch_input c Denoising g input expected e).length = input.length := by
  unfold epoch_input
  simp only
  rw [shuffled_length]
  simp only
  rw [prepared_input]

end calls

section partition

variable {α : Type}

/-- The slices of a sequence of `n` samples cut into pieces of `b`: they are consecutive, they
cover the sequence, all but the last have `b` samples and the last has `n % b` samples when
that is not zero. -/
theorem slices_spec (seq tgt : List α) (b : Nat) (hb : 0 < b) :
    (((List.range (ceil_div seq.length b)).map (slice_call seq tgt b)).map
        BatchCall.input_batch).flatten = seq ∧
    (∀ call ∈ (List.range (ceil_div seq.length b)).map (slice_call seq tgt b),
      call.estart = call.istart ∧ call.eit = call.iit ∧ call.iit ≤ seq.length ∧
      call.input_batch = make_batch seq call.istart call.iit ∧
      call.expected_batch = make_batch tgt call.istart call.iit) ∧
    (∀ k c1 c2, ((List.range (ceil_div seq.length b)).map (slice_call seq tgt b))[k]? = some c1 →
      ((List.range (ceil_div seq.length b)).map (slice_call seq tgt b))[k + 1]? = some c2 →
      c1.istart = k * b ∧ c2.istart = c1.iit ∧ c1.input_batch.length = b) ∧
    (seq.length % b ≠ 0 →
      ∃ call, ((List.range (ceil_div seq.length b)).map (slice_call seq tgt b)).getLast? =
          some call ∧ call.iit = seq.length ∧
        call.input_batch.length = seq.length % b) ∧
    (seq.length % b = 0 →
      ∀ call ∈ (List.range (ceil_div seq.length b)).map (slice_call seq tgt b),
        call.input_batch.length = b) := by
  refine ⟨?_, ?_, ?_, ?_, ?_⟩
  · rw [List.map_map]
    exact flatten_all_slices seq b hb
  · intro call hcall
    obtain ⟨k, -, rfl⟩ := List.mem_map.1 hcall
    exact ⟨rfl, rfl, Nat.min_le_right _ _, rfl, rfl⟩
  · intro k c1 c2 h1 h2
    rw [List.getElem?_map] at h1 h2
    have hk1 : k + 1 < ceil_div seq.length b := by
      by_contra hge
      rw [List.getElem?_eq_none (by simp only [List.length_range]; omega)] at h2
      simp at h2
    rw [List.getElem?_range (by omega)] at h1
    rw [List.getElem?_range hk1] at h2
    simp only [Option.map_some', Option.some.injEq] at h1 h2
    subst h1 h2
    have hlt := lt_of_succ_lt_ceil_div seq.length b k hb hk1
    have hmul : (k + 1) * b = k * b + b := Nat.succ_mul k b
    refine ⟨rfl, ?_, ?_⟩
    · simp only [slice_call]; omega
    · simp only [slice_call]
      rw [length_make_batch _ _ _ (Nat.min_le_right _ _)]
      omega
  · intro hmod
    have hm := ceil_div_of_mod_ne seq.length b hb hmod
    have hdm := Nat.div_add_mod seq.length b
    have hlt := Nat.mod_lt seq.length hb
    have hmul : (seq.length / b + 1) * b = b * (seq.length / b) + b := by
      rw [Nat.succ_mul, Nat.mul_comm]
    have hmul2 : seq.length / b * b = b * (seq.length / b) := Nat.mul_comm _ _
    refine ⟨slice_call seq tgt b (seq.length / b), ?_, ?_, ?_⟩
    · rw [List.getLast?_map, List.getLast?_range, hm]
      simp
    · simp only [slice_call]; omega
    · simp only [slice_call]
      rw [length_make_batch _ _ _ (Nat.min_le_right _ _)]
      omega
  · intro hmod call hcall
    obtain ⟨k, hk, rfl⟩ := List.mem_map.1 hcall
    have hk' := List.mem_range.1 hk
    have hn := ceil_div_of_mod_eq seq.length b hb hmod
    have hle : (k + 1) * b ≤ ceil_div seq.length b * b := Nat.mul_le_mul_right b hk'
    have hmul : (k + 1) * b = k * b + b := Nat.succ_mul k b
    simp only [slice_call]
    rw [length_make_batch _ _ _ (Nat.min_le_right _ _)]
    omega

end partition

/-! ## The calls are made on the collaborators -/

section replaying

variable {W S X G α : Type}

/-- Entries written after the construction of the trainer extend the replay of a trace by
their own effects. -/
theorem replay_append (c : Env W S X G α) (rbm : RBM W S) (ext : X)
    (trace new : List (Event W S α)) (h : ∀ ev ∈ new, ev.before_trainer = false) :
    replay c rbm ext (trace ++ new) =
      new.foldl (fun p ev => ev.effect c p) (replay c rbm ext trace) := by
  have h1 : new.filter Event.before_trainer = [] := by
    rw [List.filter_eq_nil_iff]
    intro ev hev
    simp [h ev hev]
  have h2 : new.filter (fun ev => !ev.before_trainer) = new := by
    rw [List.filter_eq_self]
    intro ev hev
    simp [h ev hev]
  unfold replay
  simp only [List.filter_append, h1, h2, List.append_nil, List.foldl_append]

/-- When the epoch loop starts, the model and the collaborators' own state are those of the
calls recorded so far. -/
theorem setup_result_replay (c : Env W S X G α) (Denoising : Bool) (rbm : RBM W S) (ext : X)
    (g : G) (input expected : List α) :
    ((setup_result c Denoising rbm ext g input expected).1.rbm,
      (setup_result c Denoising rbm ext g input expected).1.ext) =
      replay c rbm ext (setup_result c Denoising rbm ext g input expected).1.trace := by
  unfold setup_result notify_training_begin init_weights replay
  by_cases hw : c.EnableWatcher = true <;> by_cases hi : c.traits.init_weights = true <;>
    simp only [hw, hi, if_true, Bool.false_eq_true, if_false, State.log] <;>
    split <;> simp [Event.before_trainer, Event.effect]

/-- The free-energy queries change neither the model nor the collaborators' own state. -/
theorem foldl_effect_free_energy (c : Env W S X G α) (vs : List α) (p : RBM W S × X) :
    (vs.map (Event.free_energy : α → Event W S α)).foldl (fun p ev => ev.effect c p) p = p := by
  induction vs with
  | nil => rfl
  | cons v vs ih => simpa [Event.effect] using ih

/-- The last notification keeps the model and the collaborators' own state equal to the replay
of the trace: with a watcher, its `training_end` is called. -/
theorem notify_training_end_replay (c : Env W S X G α) (rbm : RBM W S) (ext : X)
    (s : State W S X G α) (h : (s.rbm, s.ext) = replay c rbm ext s.trace) :
    ((notify_training_end c s).rbm, (notify_training_end c s).ext) =
      replay c rbm ext (notify_training_end c s).trace := by
  unfold notify_training_end
  by_cases hw : c.EnableWatcher = true
  · simp only [hw, if_true, State.log]
    rw [replay_append c rbm ext _ _ (by intro ev hev; rw [List.mem_singleton.1 hev]; rfl), ← h]
    rfl
  · simp only [hw, Bool.false_eq_true, if_false]
    exact h

variable [Add W]

/-- One iteration of the batch loop leaves the model and the collaborators' own state that the
call of the trainer on the batch returns. -/
theorem batch_step_ext (c : Env W S X G α) (epoch : Nat) (ibuf ebuf : Buf) (end_ batch_size : Nat)
    (l : BatchLoop W S X G α) :
    ((batch_step c epoch ibuf ebuf end_ batch_size l).st.rbm,
      (batch_step c epoch ibuf ebuf end_ batch_size l).st.ext) =
        (c.train_batch
          (make_batch (l.st.mem.get ibuf) l.iit (l.iit + min batch_size (end_ - l.iit)))
          (make_batch (l.st.mem.get ebuf) l.eit (l.eit + min batch_size (end_ - l.iit)))
          l.context l.st.rbm l.st.ext).2 := by
  unfold batch_step
  by_cases h : (c.EnableWatcher && c.traits.free_energy) = true
  · simp only [h, if_true]
    obtain ⟨-, -, -, -, h5, h6, -, -, -, -, -⟩ := foldl_free_energy_step c
      (make_batch (l.st.mem.get ibuf) l.iit (l.iit + min batch_size (end_ - l.iit)))
      (batch_call c epoch ibuf ebuf end_ batch_size l)
    rw [h5, h6]
    simp [batch_call]
  · simp [h, batch_call]

/-- One iteration of the batch loop keeps the model and the collaborators' own state equal to
the replay of the trace. -/
theorem batch_step_replay (c : Env W S X G α) (rbm : RBM W S) (ext : X) (epoch : Nat)
    (ibuf ebuf : Buf) (end_ batch_size : Nat) (l : BatchLoop W S X G α)
    (h : (l.st.rbm, l.st.ext) = replay c rbm ext l.st.trace) :
    ((batch_step c epoch ibuf ebuf end_ batch_size l).st.rbm,
      (batch_step c epoch ibuf ebuf end_ batch_size l).st.ext) =
      replay c rbm ext (batch_step c epoch ibuf ebuf end_ batch_size l).st.trace := by
  obtain ⟨-, -, -, -, -, -, -, s8⟩ := batch_step_spec c epoch ibuf ebuf end_ batch_size l
  rw [batch_step_ext, s8, replay_append, ← h]
  · rw [List.foldl_cons]
    split
    · rw [foldl_effect_free_energy]
      rfl
    · rfl
  · intro ev hev
    rcases List.mem_cons.1 hev with h | h
    · subst h; rfl
    · split at h
      · obtain ⟨v, -, rfl⟩ := List.mem_map.1 h
        rfl
      · cases h

end replaying

section replaying_whole

variable {W S X G α : Type} [Div W] [NatCast W]

/-- The entries written at the end of an epoch. -/
theorem finish_epoch_trace (c : Env W S X G α) (epoch : Nat) (l : BatchLoop W S X G α) :
    (finish_epoch c epoch l).1.trace =
      l.st.trace ++
        Event.average epoch l.batches l.samples l.context ::
        (if c.EnableWatcher then
          [Event.epoch_end epoch (average l) (update_momentum c.traits epoch l.st.rbm)]
         else []) := by
  unfold finish_epoch notify_epoch_end
  by_cases hw : c.EnableWatcher = true
  · simp [hw, State.log]
  · simp [hw, State.log]

/-- The end of an epoch keeps the model and the collaborators' own state equal to the replay of
the trace: the momentum switch is made and, with a watcher, its `epoch_end` is called. -/
theorem finish_epoch_replay (c : Env W S X G α) (rbm : RBM W S) (ext : X) (epoch : Nat)
    (l : BatchLoop W S X G α) (h : (l.st.rbm, l.st.ext) = replay c rbm ext l.st.trace) :
    ((finish_epoch c epoch l).1.rbm, (finish_epoch c epoch l).1.ext) =
      replay c rbm ext (finish_epoch c epoch l).1.trace := by
  have hnew : ∀ ev ∈ (Event.average epoch l.batches l.samples l.context ::
      (if c.EnableWatcher then
        [Event.epoch_end epoch (average l) (update_momentum c.traits epoch l.st.rbm)]
       else []) : List (Event W S α)), ev.before_trainer = false := by
    intro ev hev
    rcases List.mem_cons.1 hev with h | h
    · subst h; rfl
    · split at h
      · rw [List.mem_singleton.1 h]; rfl
      · cases h
  rw [finish_epoch_trace, replay_append c rbm ext _ _ hnew, ← h]
  unfold finish_epoch notify_epoch_end
  by_cases hw : c.EnableWatcher = true
  · simp [hw, State.log, Event.effect]
  · simp [hw, State.log, Event.effect]

variable [Zero W] [Add W]

/-- The calls are made, not only recorded: with a positive batch size `b` and more fuel than
samples, `train` returns, and the model and the collaborators' own state it leaves are those
the collaborators produce when the recorded calls are made one after the other. -/
theorem train_replay (c : Env W S X G α) (Denoising : Bool) (fuel : Nat) (rbm : RBM W S)
    (ext : X) (g : G) (input expected : List α) (N b : Nat)
    (hsize : ∀ r, c.get_batch_size r = b) (hb : 0 < b) (hfuel : input.length < fuel) :
    ∃ r, train c Denoising fuel rbm ext g input expected N = some r ∧
      (r.1.rbm, r.1.ext) = replay c rbm ext r.1.trace := by
  obtain ⟨t1, -, t3, -, -⟩ := setup_result_shape c Denoising rbm ext g input expected
  have hp := prepared_input c Denoising input expected
  obtain ⟨r, h1, -, h3⟩ := epoch_loop_rule
    (epoch_body c Denoising fuel (setup_result c Denoising rbm ext g input expected).2.1
      (setup_result c Denoising rbm ext g input expected).2.2.1 b)
    (fun _ r =>
      (r.1.mem.get (setup_result c Denoising rbm ext g input expected).2.1).length =
        input.length ∧
      (r.1.rbm, r.1.ext) = replay c rbm ext r.1.trace)
    (by
      intro e r ⟨i1, i2⟩
      obtain ⟨l, l1, ⟨-, -, -, c4, -, -⟩, -, l3⟩ := run_batches_rule c fuel e
        (setup_result c Denoising rbm ext g input expected).2.1
        (setup_result c Denoising rbm ext g input expected).2.2.1 b
        { r.1 with
          mem := (shuffle c.traits c.draw Denoising
            (setup_result c Denoising rbm ext g input expected).2.1
            (setup_result c Denoising rbm ext g input expected).2.2.1 r.1.gen r.1.mem).1,
          gen := (shuffle c.traits c.draw Denoising
            (setup_result c Denoising rbm ext g input expected).2.1
            (setup_result c Denoising rbm ext g input expected).2.2.1 r.1.gen r.1.mem).2 } hb
        (by simp only [shuffle_length]; rw [i1]; exact hfuel)
        (fun l => (l.st.rbm, l.st.ext) = replay c rbm ext l.st.trace)
        i2
        (fun l _ _ hi => batch_step_replay c rbm ext e _ _ _ b l hi)
      obtain ⟨f1, -, -⟩ := finish_epoch_shape c e l
      refine ⟨finish_epoch c e l, by simp [epoch_body, l1], ?_, ?_⟩
      · rw [f1, c4]
        simp only [shuffle_length]
        exact i1
      · exact finish_epoch_replay c rbm ext e l l3)
    N 0 ((setup_result c Denoising rbm ext g input expected).1, (0 : W))
    ⟨by rw [t1, t3, hp], setup_result_replay c Denoising rbm ext g input expected⟩
  exact ⟨(notify_training_end c r.1, r.2), by
    rw [train_eq c Denoising fuel rbm ext g input expected N b hsize hb, h1]; rfl,
    notify_training_end_replay c rbm ext r.1 h3⟩

end replaying_whole

section demo_counter

variable {W S α : Type}

/-- The calls made before the construction of the trainer are no step of an epoch. -/
theorem progress_filter_before (trace : List (Event W S α)) :
    progress (trace.filter Event.before_trainer) = [] := by
  unfold progress
  rw [List.filterMap_map, List.filterMap_filter, List.filterMap_eq_nil_iff]
  intro ev _
  cases ev <;> rfl

/-- The steps of the epochs are among the entries written after the construction of the
trainer. -/
theorem progress_filter_after (trace : List (Event W S α)) :
    progress (trace.filter (fun ev => !ev.before_trainer)) = progress trace := by
  unfold progress
  rw [List.filterMap_map, List.filterMap_map, List.filterMap_filter]
  congr 1
  funext ev
  cases ev <;> rfl

/-- The trainer of `demo_env` counts its calls: the effects of a list of entries add to the
counter the number of calls of the per-batch trainer among them. -/
theorem demo_effect_counter (t : rbm_traits) (w : Bool) (b : Nat)
    (l : List (Event ℚ Unit Nat)) :
    ∀ p : RBM ℚ Unit × Nat,
      (l.foldl (fun p ev => ev.effect (demo_env t w b) p) p).2 =
        p.2 + (progress l).countP Step.is_train_batch := by
  induction l with
  | nil => intro p; rfl
  | cons ev l ih =>
    intro p
    rw [List.foldl_cons, ih]
    unfold progress
    cases ev <;>
      simp [Event.effect, demo_env, Shape.step, Event.shape, Step.is_train_batch,
        List.countP_cons]
    omega

/-- The counter of the trainer of `demo_env` after a replay is the counter before the call plus
the number of calls of the per-batch trainer in the trace. -/
theorem demo_replay_counter (t : rbm_traits) (w : Bool) (b : Nat) (rbm : RBM ℚ Unit)
    (ext : Nat) (trace : List (Event ℚ Unit Nat)) :
    (replay (demo_env t w b) rbm ext trace).2 =
      ext + (progress trace).countP Step.is_train_batch := by
  unfold replay
  simp only [demo_effect_counter, progress_filter_before, progress_filter_after]
  simp [demo_env]

end demo_counter

/-! ## The batches of an epoch -/

section batches_claim

variable {W S X G α : Type} [Zero W] [Add W] [Div W] [NatCast W]

/-- C1. For a call of `train` on `n` samples with batch size `b > 0` (and enough fuel), `train`
returns, and in every epoch `e` the calls of the per-batch trainer are exactly the slices
`[k * b, min ((k + 1) * b) n)`, `k = 0, ..., ceil(n / b) - 1`, of the sequence of that epoch
(the input as shuffled so far). Hence the input batches put end to end in call order are the
whole sequence; each call starts where the previous one stopped; every batch but the last has
`b` samples; the last one stops at `n` and has `n % b` samples when `n % b ≠ 0`, and all have
`b` samples otherwise; and the expected batch of a call spans the same offsets as its input
batch. The batches are handed to the trainer, not only recorded: the model and the
collaborators' own state after `train` are those the collaborators produce when the recorded
calls are made in the order of the trace, each on what the one before left. -/
theorem batches_partition_epoch (c : Env W S X G α) (Denoising : Bool) (fuel : Nat)
    (rbm : RBM W S) (ext : X) (g : G) (input expected : List α) (N b e : Nat)
    (hsize : ∀ r, c.get_batch_size r = b) (hb : 0 < b) (hfuel : input.length < fuel)
    (he : e < N) :
    ∃ r, train c Denoising fuel rbm ext g input expected N = some r ∧
      (epoch_input c Denoising g input expected e).length = input.length ∧
      batch_calls e r.1.trace =
        (List.range (ceil_div input.length b)).map
          (slice_call (epoch_input c Denoising g input expected e)
            (epoch_expected c Denoising g input expected e) b) ∧
      ((batch_calls e r.1.trace).map BatchCall.input_batch).flatten =
        epoch_input c Denoising g input expected e ∧
      (∀ call ∈ batch_calls e r.1.trace,
        call.estart = call.istart ∧ call.eit = call.iit ∧ call.iit ≤ input.length ∧
        call.input_batch =
          make_batch (epoch_input c Denoising g input expected e) call.istart call.iit ∧
        call.expected_batch =
          make_batch (epoch_expected c Denoising g input expected e) call.istart call.iit) ∧
      (∀ k c1 c2, (batch_calls e r.1.trace)[k]? = some c1 →
        (batch_calls e r.1.trace)[k + 1]? = some c2 →
        c1.istart = k * b ∧ c2.istart = c1.iit ∧ c1.input_batch.length = b) ∧
      (input.length % b ≠ 0 →
        ∃ call, (batch_calls e r.1.trace).getLast? = some call ∧ call.iit = input.length ∧
          call.input_batch.length = input.length % b) ∧
      (input.length % b = 0 →
        ∀ call ∈ batch_calls e r.1.trace, call.input_batch.length = b) ∧
      (r.1.rbm, r.1.ext) = replay c rbm ext r.1.trace := by
  obtain ⟨r, h1, h2⟩ :=
    train_trace_shape c Denoising fuel rbm ext g input expected N b hsize hb hfuel
  obtain ⟨r', h1', hrep⟩ :=
    train_replay c Denoising fuel rbm ext g input expected N b hsize hb hfuel
  obtain rfl : r = r' := Option.some.inj (h1.symm.trans h1')
  have hlen := epoch_input_length c Denoising g input expected e
  have hcalls : batch_calls e r.1.trace =
      (List.range (ceil_div input.length b)).map
        (slice_call (epoch_input c Denoising g input expected e)
          (epoch_expected c Denoising g input expected e) b) := by
    unfold batch_calls
    rw [h2, batch_of_train_shape c Denoising g input expected b N e he, hlen]
  obtain ⟨p1, p2, p3, p4, p5⟩ := slices_spec (epoch_input c Denoising g input expected e)
    (epoch_expected c Denoising g input expected e) b hb
  rw [hlen] at p1 p2 p3 p4 p5
  rw [← hcalls] at p1 p2 p3 p4 p5
  exact ⟨r, h1, hlen, hcalls, p1, p2, p3, p4, p5, hrep⟩

/-- With 950 samples and batch size 100 an epoch has 10 batches and the last has 50 samples.
With the samples 5, 6, 7 in batches of two and a trainer that keeps a record of what it is
given, the record after one epoch is the batch `[5, 6]` followed by the batch `[7]`, and one
trainer has been constructed. -/
theorem batches_partition_epoch_witness :
    (∃ r, train (demo_env shuffle_momentum true 100) false 951 (demo_rbm 3) 0 0
        (List.range 950) (List.range 950) 1 = some r ∧
      (batch_calls 0 r.1.trace).length = 10 ∧
      ∃ call, (batch_calls 0 r.1.trace).getLast? = some call ∧
        call.input_batch.length = 50) ∧
    (∃ r, train (probe_env no_capability true 2) false 4 probe_rbm no_record 0 [5, 6, 7]
        [5, 6, 7] 1 = some r ∧
      (r.1.rbm, r.1.ext) = replay (probe_env no_capability true 2) probe_rbm no_record
        r.1.trace ∧
      r.1.ext.trained = [([5, 6], [5, 6]), ([7], [7])] ∧ r.1.ext.trainers = 1) := by
  constructor
  · obtain ⟨r, h1, -, h3, -, -, -, h7, -, -⟩ :=
      batches_partition_epoch (demo_env shuffle_momentum true 100) false 951 (demo_rbm 3) 0 0
        (List.range 950) (List.range 950) 1 100 0 (fun _ => rfl) (by decide)
        (by simp) (by decide)
    obtain ⟨call, c1, -, c3⟩ := h7 (by simp)
    refine ⟨r, h1, ?_, call, c1, ?_⟩
    · rw [h3]
      simp [ceil_div]
    · rw [c3]
      simp
  · obtain ⟨r, h1, -, -, -, -, -, -, -, h9⟩ :=
      batches_partition_epoch (probe_env no_capability true 2) false 4 probe_rbm no_record 0
        [5, 6, 7] [5, 6, 7] 1 2 0 (fun _ => rfl) (by decide) (by decide) (by decide)
    have hv : (train (probe_env no_capability true 2) false 4 probe_rbm no_record 0 [5, 6, 7]
        [5, 6, 7] 1).map (fun r => (r.1.ext.trained, r.1.ext.trainers)) =
        some ([([5, 6], [5, 6]), ([7], [7])], 1) := by decide
    rw [h1] at hv
    have hv' := Option.some.inj hv
    exact ⟨r, h1, h9, congrArg Prod.fst hv', congrArg Prod.snd hv'⟩

end batches_claim

/-! ## Ranges of different lengths -/

section mismatch

variable {W S X G α : Type}

/-- Without the shuffle capability nothing is copied and nothing is shuffled: every epoch is
presented the caller's two ranges. -/
theorem epoch_ranges_no_shuffle (c : Env W S X G α) (Denoising : Bool) (g : G)
    (input expected : List α) (e : Nat) (hns : c.traits.has_shuffle = false) :
    epoch_input c Denoising g input expected e = input ∧
    epoch_expected c Denoising g input expected e = expected := by
  have hp : prepared c Denoising input expected =
      ({ caller_input := input, caller_expected := expected, input_copy := [],
         expected_copy := [] }, Buf.caller_input, Buf.caller_expected) := by
    simp [prepared, prepare_it, hns]
  have hstep : ∀ (i j : Buf) (p : Mem α × G), shuffle_step c Denoising i j p = p := by
    intro i j p
    simp [shuffle_step, shuffle, hns]
  have hsh : ∀ (k : Nat) (i j : Buf) (p : Mem α × G), shuffled c Denoising i j k p = p := by
    intro k i j p
    induction k with
    | zero => rfl
    | succ k ih => rw [shuffled_succ, ih, hstep]
  unfold epoch_input epoch_expected
  simp only [hsh, hp]
  exact ⟨rfl, rfl⟩

variable [Zero W] [Add W] [Div W] [NatCast W]

/-- C2, as amended. `train` compares no lengths and has no error result. For a model without
the shuffle capability and a target range longer than the input range, with batch size `b > 0`
(and enough fuel), `train` returns after all its epochs; in each epoch the per-batch trainer is
called `ceil(n / b)` times, `n` being the length of the input range, on the slices of the
caller's input and the slices of the caller's targets at the same offsets, which have the same
number of samples: the targets past the first `n` are never presented. -/
theorem length_mismatch_trains (c : Env W S X G α) (Denoising : Bool) (fuel : Nat)
    (rbm : RBM W S) (ext : X) (g : G) (input expected : List α) (N b : Nat)
    (hsize : ∀ r, c.get_batch_size r = b) (hb : 0 < b) (hfuel : input.length < fuel)
    (hns : c.traits.has_shuffle = false) (hlen : input.length < expected.length) :
    ∃ r, train c Denoising fuel rbm ext g input expected N = some r ∧
      ∀ e, e < N →
        batch_calls e r.1.trace =
          (List.range (ceil_div input.length b)).map (slice_call input expected b) ∧
        ∀ call ∈ batch_calls e r.1.trace,
          call.expected_batch.length = call.input_batch.length ∧
          call.expected_batch = make_batch (expected.take input.length) call.istart call.iit := by
  obtain ⟨r, h1, h2⟩ :=
    train_trace_shape c Denoising fuel rbm ext g input expected N b hsize hb hfuel
  refine ⟨r, h1, ?_⟩
  intro e he
  obtain ⟨hi, hx⟩ := epoch_ranges_no_shuffle c Denoising g input expected e hns
  have hcalls : batch_calls e r.1.trace =
      (List.range (ceil_div input.length b)).map (slice_call input expected b) := by
    unfold batch_calls
    rw [h2, batch_of_train_shape c Denoising g input expected b N e he, hi, hx]
  refine ⟨hcalls, ?_⟩
  intro call hcall
  rw [hcalls] at hcall
  obtain ⟨k, -, rfl⟩ := List.mem_map.1 hcall
  have hle : min ((k + 1) * b) input.length ≤ input.length := Nat.min_le_right _ _
  refine ⟨?_, ?_⟩
  · simp only [slice_call]
    rw [length_make_batch _ _ _ hle, length_make_batch _ _ _ (by omega)]
  · simp only [slice_call, make_batch]
    rw [List.drop_take, List.take_take]
    congr 1
    omega

/-- A call with one sample and two targets returns, after one call of the per-batch trainer
with the sample and the first target. -/
theorem length_mismatch_trains_witness :
    ∃ r, train (demo_env no_capability true 1) true 2 (demo_rbm 0) 0 0 [5] [6, 7] 1 = some r ∧
      ∀ e, e < 1 →
        batch_calls e r.1.trace =
          (List.range (ceil_div [5].length 1)).map (slice_call [5] [6, 7] 1) ∧
        ∀ call ∈ batch_calls e r.1.trace,
          call.expected_batch.length = call.input_batch.length ∧
          call.expected_batch = make_batch ([6, 7].take [5].length) call.istart call.iit :=
  length_mismatch_trains (demo_env no_capability true 1) true 2 (demo_rbm 0) 0 0 [5] [6, 7] 1 1
    (fun _ => rfl) (by decide) (by decide) rfl (by decide)

/-- C2 fails on the code: called with one input sample and two targets, `train` does not stop
before the first epoch; it calls the per-batch trainer on the sample and the first target,
notifies the watcher of the end of epoch 0 and returns. -/
theorem length_mismatch_not_rejected :
    [5].length ≠ [6, 7].length ∧
    (train (demo_env no_capability true 1) true 2 (demo_rbm 0) 0 0 [5] [6, 7] 1).map
        (fun r => r.1.trace.map Event.shape) =
      some [Shape.training_begin, Shape.train_batch 0 0 1 0 1 [5] [6],
        Shape.average 0 1 1, Shape.epoch_end 0, Shape.training_end] := by
  decide

end mismatch

/-! ## The momentum schedule -/

section momentum

variable {W S X G α : Type}

theorem momentum_ok_append (t : rbm_traits) (rbm : RBM W S) (N : Nat)
    (xs ys : List (Event W S α)) (hx : ∀ ev ∈ xs, ev.momentum_ok t rbm N)
    (hy : ∀ ev ∈ ys, ev.momentum_ok t rbm N) : ∀ ev ∈ xs ++ ys, ev.momentum_ok t rbm N := by
  intro ev hev
  rcases List.mem_append.1 hev with h | h
  · exact hx ev h
  · exact hy ev h

/-- The switch of lines 202-204 takes the momentum of epoch `e` to that of epoch `e + 1`. -/
theorem update_momentum_state (t : rbm_traits) (rbm0 r : RBM W S) (e : Nat)
    (h : momentum_state r = (momentum_during t rbm0 e, rbm0.initial_momentum,
      rbm0.final_momentum, rbm0.final_momentum_epoch)) :
    momentum_state (update_momentum t e r) = (momentum_during t rbm0 (e + 1),
      rbm0.initial_momentum, rbm0.final_momentum, rbm0.final_momentum_epoch) := by
  simp only [momentum_state, Prod.mk.injEq] at h
  obtain ⟨h1, h2, h3, h4⟩ := h
  unfold update_momentum
  by_cases hc : (t.has_momentum && e == r.final_momentum_epoch) = true
  · rw [if_pos hc]
    simp only [Bool.and_eq_true, beq_iff_eq] at hc
    obtain ⟨hm, he⟩ := hc
    have hlt : rbm0.final_momentum_epoch < e + 1 := by omega
    simp [momentum_state, momentum_during, hm, hlt, h2, h3, h4]
  · rw [if_neg hc]
    have hd : momentum_during t rbm0 (e + 1) = momentum_during t rbm0 e := by
      unfold momentum_during
      by_cases hm : t.has_momentum = true
      · have he : e ≠ r.final_momentum_epoch := by
          intro he
          exact hc (by simp [hm, he])
        have hiff : rbm0.final_momentum_epoch < e + 1 ↔ rbm0.final_momentum_epoch < e := by
          omega
        simp [hm, hiff]
      · simp [hm]
    simp [momentum_state, hd, h1, h2, h3, h4]

variable [Add W] [Zero W]

/-- The batch loop of one epoch leaves the momentum state alone and makes every call of the
per-batch trainer with the momentum of that epoch. -/
theorem run_batches_momentum (c : Env W S X G α) (hfr : MomentumFrame c) (rbm0 : RBM W S)
    (N fuel epoch : Nat) (ibuf ebuf : Buf) (b : Nat) (s : State W S X G α) (hb : 0 < b)
    (hfuel : (s.mem.get ibuf).length < fuel)
    (hs : momentum_state s.rbm = (momentum_during c.traits rbm0 epoch, rbm0.initial_momentum,
      rbm0.final_momentum, rbm0.final_momentum_epoch))
    (hok : ∀ ev ∈ s.trace, ev.momentum_ok c.traits rbm0 N) :
    ∃ l, run_batches c fuel epoch ibuf ebuf b s = some l ∧ l.st.mem = s.mem ∧
      momentum_state l.st.rbm = momentum_state s.rbm ∧
      ∀ ev ∈ l.st.trace, ev.momentum_ok c.traits rbm0 N := by
  obtain ⟨l, h1, ⟨-, -, -, c4, -, -⟩, -, h3, h4⟩ :=
    run_batches_rule c fuel epoch ibuf ebuf b s hb hfuel
      (fun l => momentum_state l.st.rbm = momentum_state s.rbm ∧
        ∀ ev ∈ l.st.trace, ev.momentum_ok c.traits rbm0 N)
      ⟨rfl, hok⟩
      (by
        intro l _ _ ⟨i1, i2⟩
        obtain ⟨-, -, -, -, -, -, s7, s8⟩ :=
          batch_step_spec c epoch ibuf ebuf (s.mem.get ibuf).length b l
        refine ⟨by rw [s7, hfr.train_batch, i1], ?_⟩
        rw [s8]
        apply momentum_ok_append _ _ _ _ _ i2
        intro ev hev
        rcases List.mem_cons.1 hev with h | h
        · subst h
          have hm : l.st.rbm.momentum = momentum_during c.traits rbm0 epoch := by
            have := i1.trans hs
            simp only [momentum_state, Prod.mk.injEq] at this
            exact this.1
          simp [Event.momentum_ok, Event.momentum, Event.shape, Shape.momentum, hm]
        · split at h
          · obtain ⟨v, -, rfl⟩ := List.mem_map.1 h
            rfl
          · simp at h)
  exact ⟨l, h1, c4, h3, h4⟩

end momentum

section momentum_whole

variable {W S X G α : Type} [Div W] [NatCast W]

/-- The end of an epoch takes the momentum of epoch `e` to that of epoch `e + 1` and notifies
the watcher with the new momentum. -/
theorem finish_epoch_momentum (c : Env W S X G α) (hfr : MomentumFrame c) (rbm0 : RBM W S)
    (N epoch : Nat) (l : BatchLoop W S X G α)
    (hs : momentum_state l.st.rbm = (momentum_during c.traits rbm0 epoch,
      rbm0.initial_momentum, rbm0.final_momentum, rbm0.final_momentum_epoch))
    (hok : ∀ ev ∈ l.st.trace, ev.momentum_ok c.traits rbm0 N) :
    momentum_state (finish_epoch c epoch l).1.rbm = (momentum_during c.traits rbm0 (epoch + 1),
      rbm0.initial_momentum, rbm0.final_momentum, rbm0.final_momentum_epoch) ∧
    ∀ ev ∈ (finish_epoch c epoch l).1.trace, ev.momentum_ok c.traits rbm0 N := by
  have hu := update_momentum_state c.traits rbm0 l.st.rbm epoch hs
  have hm : (update_momentum c.traits epoch l.st.rbm).momentum =
      momentum_during c.traits rbm0 (epoch + 1) := by
    simp only [momentum_state, Prod.mk.injEq] at hu
    exact hu.1
  unfold finish_epoch notify_epoch_end
  by_cases hw : c.EnableWatcher = true
  · simp only [hw, if_true, State.log]
    refine ⟨by rw [hfr.epoch_end]; exact hu, ?_⟩
    apply momentum_ok_append
    · apply momentum_ok_append _ _ _ _ _ hok
      intro ev hev
      rw [List.mem_singleton.1 hev]
      rfl
    · intro ev hev
      rw [List.mem_singleton.1 hev]
      simp [Event.momentum_ok, Event.momentum, Event.shape, Shape.momentum, hm]
  · simp only [hw, Bool.false_eq_true, if_false, State.log]
    refine ⟨hu, ?_⟩
    apply momentum_ok_append _ _ _ _ _ hok
    intro ev hev
    rw [List.mem_singleton.1 hev]
    rfl

variable [Zero W] [Add W]

/-- One epoch, for the momentum: the calls of the epoch are made with the momentum of the
epoch, the notification with the momentum of the next epoch. -/
theorem epoch_body_momentum (c : Env W S X G α) (hfr : MomentumFrame c) (rbm0 : RBM W S)
    (Denoising : Bool) (N fuel : Nat) (ibuf ebuf : Buf) (b epoch : Nat) (s : State W S X G α)
    (hb : 0 < b) (hfuel : (s.mem.get ibuf).length < fuel)
    (hs : momentum_state s.rbm = (momentum_during c.traits rbm0 epoch, rbm0.initial_momentum,
      rbm0.final_momentum, rbm0.final_momentum_epoch))
    (hok : ∀ ev ∈ s.trace, ev.momentum_ok c.traits rbm0 N) :
    ∃ r, epoch_body c Denoising fuel ibuf ebuf b epoch s = some r ∧
      (r.1.mem.get ibuf).length = (s.mem.get ibuf).length ∧
      momentum_state r.1.rbm = (momentum_during c.traits rbm0 (epoch + 1),
        rbm0.initial_momentum, rbm0.final_momentum, rbm0.final_momentum_epoch) ∧
      ∀ ev ∈ r.1.trace, ev.momentum_ok c.traits rbm0 N := by
  obtain ⟨l, h1, h2, h3, h4⟩ := run_batches_momentum c hfr rbm0 N fuel epoch ibuf ebuf b
    { s with mem := (shuffle c.traits c.draw Denoising ibuf ebuf s.gen s.mem).1,
             gen := (shuffle c.traits c.draw Denoising ibuf ebuf s.gen s.mem).2 } hb
    (by simpa [shuffle_length] using hfuel) hs hok
  obtain ⟨f1, f2⟩ := finish_epoch_momentum c hfr rbm0 N epoch l (h3.trans hs) h4
  obtain ⟨g1, -, -⟩ := finish_epoch_shape c epoch l
  refine ⟨finish_epoch c epoch l, by simp [epoch_body, h1], ?_, f1, f2⟩
  rw [g1, h2]
  exact shuffle_length _ _ _ _ _ _ _

/-- The momentum of a whole call: when no collaborator writes the momentum state, `train`
returns, every entry of its trace is made with the momentum of `Shape.momentum`, and the
momentum state at the end is that of the epoch after the last. -/
theorem train_momentum (c : Env W S X G α) (hfr : MomentumFrame c) (Denoising : Bool)
    (fuel : Nat) (rbm : RBM W S) (ext : X) (g : G) (input expected : List α) (N b : Nat)
    (hsize : ∀ r, c.get_batch_size r = b) (hb : 0 < b) (hfuel : input.length < fuel) :
    ∃ r, train c Denoising fuel rbm ext g input expected N = some r ∧
      momentum_state r.1.rbm = (momentum_during c.traits rbm N, rbm.initial_momentum,
        rbm.final_momentum, rbm.final_momentum_epoch) ∧
      ∀ ev ∈ r.1.trace, ev.momentum_ok c.traits rbm N := by
  obtain ⟨t1, -, t3, -, -⟩ := setup_result_shape c Denoising rbm ext g input expected
  have hbs : (setup_result c Denoising rbm ext g input expected).2.2.2 = b := hsize _
  have hp := prepared_input c Denoising input expected
  have hsetup :
      momentum_state (setup_result c Denoising rbm ext g input expected).1.rbm =
        (momentum_during c.traits rbm 0, rbm.initial_momentum, rbm.final_momentum,
          rbm.final_momentum_epoch) ∧
      ∀ ev ∈ (setup_result c Denoising rbm ext g input expected).1.trace,
        ev.momentum_ok c.traits rbm N := by
    have hd : momentum_during c.traits rbm 0 = rbm.initial_momentum := by
      simp [momentum_during]
    rw [hd]
    unfold setup_result notify_training_begin init_weights
    by_cases hw : c.EnableWatcher = true <;> by_cases hi : c.traits.init_weights = true <;>
      simp only [hw, hi, if_true, Bool.false_eq_true, if_false, State.log] <;>
      split <;>
      simp only [hfr.make_trainer, hfr.rbm_init_weights, hfr.training_begin] <;>
      simp [momentum_state, Event.momentum_ok, Event.momentum, Event.shape, Shape.momentum]
  obtain ⟨r, h1, -, h3, h4⟩ := epoch_loop_rule
    (epoch_body c Denoising fuel (setup_result c Denoising rbm ext g input expected).2.1
      (setup_result c Denoising rbm ext g input expected).2.2.1 b)
    (fun e r =>
      (r.1.mem.get (setup_result c Denoising rbm ext g input expected).2.1).length =
        input.length ∧
      momentum_state r.1.rbm = (momentum_during c.traits rbm e, rbm.initial_momentum,
        rbm.final_momentum, rbm.final_momentum_epoch) ∧
      ∀ ev ∈ r.1.trace, ev.momentum_ok c.traits rbm N)
    (by
      intro e r ⟨i1, i2, i3⟩
      obtain ⟨r', e1, e2, e3, e4⟩ := epoch_body_momentum c hfr rbm Denoising N fuel _ _ b e r.1
        hb (by rw [i1]; exact hfuel) i2 i3
      exact ⟨r', e1, by rw [e2, i1], e3, e4⟩)
    N 0 ((setup_result c Denoising rbm ext g input expected).1, (0 : W))
    ⟨by rw [t1, t3, hp], hsetup.1, hsetup.2⟩
  rw [Nat.zero_add] at h3
  have hm : r.1.rbm.momentum = momentum_during c.traits rbm N := by
    simp only [momentum_state, Prod.mk.injEq] at h3
    exact h3.1
  refine ⟨(notify_training_end c r.1, r.2), by
    rw [train_eq c Denoising fuel rbm ext g input expected N b hsize hb, h1]; rfl, ?_, ?_⟩
  · unfold notify_training_end
    by_cases hw : c.EnableWatcher = true
    · simp only [hw, if_true]
      rw [hfr.training_end]
      exact h3
    · simp only [hw, Bool.false_eq_true, if_false]
      exact h3
  · unfold notify_training_end
    by_cases hw : c.EnableWatcher = true
    · simp only [hw, if_true, State.log]
      apply momentum_ok_append _ _ _ _ _ h4
      intro ev hev
      rw [List.mem_singleton.1 hev]
      simp [Event.momentum_ok, Event.momentum, Event.shape, Shape.momentum, hm]
    · simp only [hw, Bool.false_eq_true, if_false]
      exact h4

end momentum_whole

section projections_whole

variable {W S X G α β : Type}

/-- A projection of the entries of one epoch. -/
theorem filterMap_epoch_shape (c : Env W S X G α) (f : Shape α → Option β) (e : Nat)
    (inp tgt : List α) (b : Nat) :
    (epoch_shape c e inp tgt b).filterMap f =
      (List.range (ceil_div inp.length b)).flatMap
          (fun k => (batch_shape c e inp tgt b k).filterMap f) ++
        (f (Shape.average e (ceil_div inp.length b) inp.length)).toList ++
        (if c.EnableWatcher then (f (Shape.epoch_end e)).toList else []) := by
  unfold epoch_shape batches_shape
  rw [List.filterMap_append, List.filterMap_flatMap, List.filterMap_cons]
  cases hf : f (Shape.average e (ceil_div inp.length b) inp.length) <;>
    by_cases hw : c.EnableWatcher = true <;>
    cases hg : f (Shape.epoch_end e) <;>
    simp [hw, hg, List.filterMap_cons]

/-- A projection of the entries of a whole call. -/
theorem filterMap_train_shape (c : Env W S X G α) (f : Shape α → Option β) (Denoising : Bool)
    (g : G) (input expected : List α) (b N : Nat) :
    (train_shape c Denoising g input expected b N).filterMap f =
      (if c.EnableWatcher then (f Shape.training_begin).toList else []) ++
      (if c.traits.init_weights then (f (Shape.init_weights input)).toList else []) ++
      (if input.length % b != 0 then (f Shape.warning).toList else []) ++
      (List.range N).flatMap (fun e =>
        (epoch_shape c e (epoch_input c Denoising g input expected e)
          (epoch_expected c Denoising g input expected e) b).filterMap f) ++
      (if c.EnableWatcher then (f Shape.training_end).toList else []) := by
  unfold train_shape
  simp only [List.filterMap_append, List.filterMap_flatMap]
  have h : ∀ (p : Prop) [Decidable p] (sh : Shape α),
      (if p then [sh] else []).filterMap f = if p then (f sh).toList else [] := by
    intro p _ sh
    by_cases hp : p
    · cases hf : f sh <;> simp [hp, hf, List.filterMap_cons]
    · simp [hp]
  rw [h, h, h, h]

theorem flatMap_const_singleton (n : Nat) (x : β) :
    (List.range n).flatMap (fun _ => [x]) = List.replicate n x := by
  induction n with
  | zero => rfl
  | succ n ih =>
    rw [List.range_succ, List.flatMap_append, ih, List.replicate_succ']
    simp

end projections_whole

section momentum_claims

variable {W S X G α : Type}

/-- A projection that drops the free-energy calls keeps, of a batch, the call of the trainer. -/
theorem filterMap_batch_shape {β : Type} (c : Env W S X G α) (f : Shape α → Option β)
    (hf : ∀ v, f (Shape.free_energy v) = none) (e : Nat) (inp tgt : List α) (b k : Nat) :
    (batch_shape c e inp tgt b k).filterMap f =
      (f (Shape.train_batch e (k * b) (min ((k + 1) * b) inp.length) (k * b)
        (min ((k + 1) * b) inp.length)
        (make_batch inp (k * b) (min ((k + 1) * b) inp.length))
        (make_batch tgt (k * b) (min ((k + 1) * b) inp.length)))).toList := by
  have hfe : ∀ vs : List α, (vs.map Shape.free_energy).filterMap f = [] := by
    intro vs
    induction vs with
    | nil => rfl
    | cons v vs ih => simp [List.filterMap_cons, hf, ih]
  unfold batch_shape
  rw [List.filterMap_cons]
  split <;> split <;> simp_all

theorem batch_momentum_of_ok (t : rbm_traits) (rbm : RBM W S) (N : Nat) (ev : Event W S α)
    (h : ev.momentum_ok t rbm N) : ev.batch_momentum = Shape.batch_momentum t rbm ev.shape := by
  cases ev <;> simp_all [Event.momentum_ok, Event.batch_momentum, Shape.batch_momentum,
    Event.shape, Event.momentum, Shape.momentum]

theorem epoch_end_momentum_of_ok (t : rbm_traits) (rbm : RBM W S) (N : Nat) (ev : Event W S α)
    (h : ev.momentum_ok t rbm N) :
    ev.epoch_end_momentum = Shape.epoch_end_momentum t rbm ev.shape := by
  cases ev <;> simp_all [Event.momentum_ok, Event.epoch_end_momentum, Shape.epoch_end_momentum,
    Event.shape, Event.momentum, Shape.momentum]

/-- A projection of the trace that is decided by the entries' shapes can be taken on the
shapes. -/
theorem filterMap_via_shape {β : Type} (trace : List (Event W S α))
    (f : Event W S α → Option β) (f' : Shape α → Option β)
    (h : ∀ ev ∈ trace, f ev = f' ev.shape) :
    trace.filterMap f = (trace.map Event.shape).filterMap f' := by
  rw [List.filterMap_map]
  exact List.filterMap_congr h

theorem batch_momentum_train_shape (c : Env W S X G α) (rbm : RBM W S) (Denoising : Bool)
    (g : G) (input expected : List α) (b N : Nat) :
    (train_shape c Denoising g input expected b N).filterMap
        (Shape.batch_momentum c.traits rbm) =
      (List.range N).flatMap (fun e =>
        List.replicate (ceil_div input.length b) (e, momentum_during c.traits rbm e)) := by
  rw [filterMap_train_shape]
  simp only [Shape.batch_momentum, Option.toList, ite_self, List.nil_append, List.append_nil]
  apply List.flatMap_congr
  intro e _
  rw [filterMap_epoch_shape]
  simp only [Shape.batch_momentum, Option.toList, ite_self, List.append_nil,
    filterMap_batch_shape c (Shape.batch_momentum c.traits rbm) (fun _ => rfl),
    epoch_input_length]
  exact flatMap_const_singleton _ _

theorem epoch_end_momentum_train_shape (c : Env W S X G α) (rbm : RBM W S) (Denoising : Bool)
    (g : G) (input expected : List α) (b N : Nat) (hw : c.EnableWatcher = true) :
    (train_shape c Denoising g input expected b N).filterMap
        (Shape.epoch_end_momentum c.traits rbm) =
      (List.range N).map (fun e => (e, momentum_during c.traits rbm (e + 1))) := by
  rw [filterMap_train_shape]
  simp only [Shape.epoch_end_momentum, Option.toList, ite_self, List.nil_append,
    List.append_nil]
  rw [← flatMap_singleton_map]
  apply List.flatMap_congr
  intro e _
  rw [filterMap_epoch_shape]
  simp only [Shape.epoch_end_momentum, Option.toList, hw, if_true, List.append_nil,
    filterMap_batch_shape c (Shape.epoch_end_momentum c.traits rbm) (fun _ => rfl)]
  rw [flatMap_nil_fun]
  rfl

end momentum_claims

section schedule

variable {W S X G α : Type}

theorem momentum_during_of_capability (t : rbm_traits) (rbm : RBM W S) (e : Nat)
    (hm : t.has_momentum = true) :
    momentum_during t rbm e =
      if e ≤ rbm.final_momentum_epoch then rbm.initial_momentum else rbm.final_momentum := by
  unfold momentum_during
  by_cases h : e ≤ rbm.final_momentum_epoch
  · simp [hm, h]
  · simp [hm, h]

theorem momentum_during_of_no_capability (t : rbm_traits) (rbm : RBM W S) (e : Nat)
    (hm : t.has_momentum = false) : momentum_during t rbm e = rbm.initial_momentum := by
  simp [momentum_during, hm]

/-- The collaborators of the examples do not write the momentum state. -/
theorem demo_env_frame (t : rbm_traits) (watcher : Bool) (b : Nat) :
    MomentumFrame (demo_env t watcher b) :=
  ⟨fun _ _ => rfl, fun _ _ => rfl, fun _ _ _ _ _ => rfl, fun _ _ => rfl, fun _ _ _ _ => rfl,
    fun _ _ => rfl⟩

variable [Zero W] [Add W] [Div W] [NatCast W]

/-- C3, as amended. For a model with the momentum capability, when no collaborator writes the
momentum state, with batch size `b > 0` (and enough fuel) `train` returns and the per-batch
trainer is called `ceil(n / b)` times in each epoch `e < max_epochs`, every time on a model
whose momentum is `initial_momentum` if `e ≤ final_momentum_epoch` and `final_momentum` if
`e > final_momentum_epoch`: the switch is made after the batches of the switch epoch. -/
theorem momentum_during_batches (c : Env W S X G α) (hfr : MomentumFrame c) (Denoising : Bool)
    (fuel : Nat) (rbm : RBM W S) (ext : X) (g : G) (input expected : List α) (N b : Nat)
    (hsize : ∀ r, c.get_batch_size r = b) (hb : 0 < b) (hfuel : input.length < fuel)
    (hm : c.traits.has_momentum = true) :
    ∃ r, train c Denoising fuel rbm ext g input expected N = some r ∧
      batch_momenta r.1.trace =
        (List.range N).flatMap (fun e =>
          List.replicate (ceil_div input.length b)
            (e, if e ≤ rbm.final_momentum_epoch then rbm.initial_momentum
                else rbm.final_momentum)) := by
  obtain ⟨r, h1, -, hok⟩ :=
    train_momentum c hfr Denoising fuel rbm ext g input expected N b hsize hb hfuel
  obtain ⟨r', h1', hshape⟩ :=
    train_trace_shape c Denoising fuel rbm ext g input expected N b hsize hb hfuel
  have hr : r' = r := Option.some.inj (h1'.symm.trans h1)
  subst hr
  refine ⟨r', h1, ?_⟩
  unfold batch_momenta
  rw [filterMap_via_shape r'.1.trace Event.batch_momentum (Shape.batch_momentum c.traits rbm)
    (fun ev hev => batch_momentum_of_ok c.traits rbm N ev (hok ev hev)), hshape,
    batch_momentum_train_shape]
  simp only [momentum_during_of_capability c.traits rbm _ hm]

/-- With initial momentum 0.5, final momentum 0.9 and the switch at epoch 3, the one batch of
each of five epochs is trained with momentum 0.5, 0.5, 0.5, 0.5, 0.9. -/
theorem momentum_during_batches_witness :
    ∃ r, train (demo_env momentum_only true 1) false 2 (demo_rbm 3) 0 0 [5] [5] 5 = some r ∧
      batch_momenta r.1.trace =
        [(0, 1 / 2), (1, 1 / 2), (2, 1 / 2), (3, 1 / 2), (4, 9 / 10)] := by
  obtain ⟨r, h1, h2⟩ := momentum_during_batches (demo_env momentum_only true 1)
    (demo_env_frame momentum_only true 1) false 2 (demo_rbm 3) 0 0 [5] [5] 5 1
    (fun _ => rfl) (by decide) (by decide) rfl
  exact ⟨r, h1, h2.trans rfl⟩

/-- C3 fails on the code at the switch epoch: with initial momentum 0.5, final momentum 0.9
and the switch at epoch 3, the batch of epoch 3 is trained with momentum 0.5, not 0.9. -/
theorem momentum_at_switch_epoch_is_initial :
    (demo_env momentum_only true 1).traits.has_momentum = true ∧
    (demo_rbm 3).final_momentum_epoch ≤ 3 ∧
    (train (demo_env momentum_only true 1) false 2 (demo_rbm 3) 0 0 [5] [5] 5).map
        (fun r => (batch_momenta r.1.trace)[3]?) = some (some (3, (demo_rbm 3).initial_momentum)) ∧
    (demo_rbm 3).initial_momentum ≠ (demo_rbm 3).final_momentum := by
  refine ⟨rfl, by decide, rfl, ?_⟩
  norm_num [demo_rbm]

/-- C4. For a model with the momentum capability and an enabled watcher, when no collaborator
writes the momentum state, with batch size `b > 0` (and enough fuel) `train` returns and the
`epoch_end` notifications are those of the epochs `0, ..., max_epochs - 1` in this order, the
one of epoch `e` showing a model whose momentum is `initial_momentum` if
`e < final_momentum_epoch` and `final_momentum` if `e ≥ final_momentum_epoch`. -/
theorem momentum_at_epoch_end (c : Env W S X G α) (hfr : MomentumFrame c) (Denoising : Bool)
    (fuel : Nat) (rbm : RBM W S) (ext : X) (g : G) (input expected : List α) (N b : Nat)
    (hsize : ∀ r, c.get_batch_size r = b) (hb : 0 < b) (hfuel : input.length < fuel)
    (hm : c.traits.has_momentum = true) (hw : c.EnableWatcher = true) :
    ∃ r, train c Denoising fuel rbm ext g input expected N = some r ∧
      epoch_end_momenta r.1.trace =
        (List.range N).map (fun e =>
          (e, if e < rbm.final_momentum_epoch then rbm.initial_momentum
              else rbm.final_momentum)) := by
  obtain ⟨r, h1, -, hok⟩ :=
    train_momentum c hfr Denoising fuel rbm ext g input expected N b hsize hb hfuel
  obtain ⟨r', h1', hshape⟩ :=
    train_trace_shape c Denoising fuel rbm ext g input expected N b hsize hb hfuel
  have hr : r' = r := Option.some.inj (h1'.symm.trans h1)
  subst hr
  refine ⟨r', h1, ?_⟩
  unfold epoch_end_momenta
  rw [filterMap_via_shape r'.1.trace Event.epoch_end_momentum
    (Shape.epoch_end_momentum c.traits rbm)
    (fun ev hev => epoch_end_momentum_of_ok c.traits rbm N ev (hok ev hev)), hshape,
    epoch_end_momentum_train_shape c rbm Denoising g input expected b N hw]
  apply List.map_congr_left
  intro e _
  rw [momentum_during_of_capability c.traits rbm _ hm]
  by_cases h : e < rbm.final_momentum_epoch
  · rw [if_pos h, if_pos (by omega)]
  · rw [if_neg h, if_neg (by omega)]

/-- With initial momentum 0.5, final momentum 0.9, the switch at epoch 3 and five epochs, the
momenta shown at the five `epoch_end` notifications are 0.5, 0.5, 0.5, 0.9, 0.9. -/
theorem momentum_at_epoch_end_witness :
    ∃ r, train (demo_env momentum_only true 1) false 2 (demo_rbm 3) 0 0 [5] [5] 5 = some r ∧
      epoch_end_momenta r.1.trace =
        [(0, 1 / 2), (1, 1 / 2), (2, 1 / 2), (3, 9 / 10), (4, 9 / 10)] := by
  obtain ⟨r, h1, h2⟩ := momentum_at_epoch_end (demo_env momentum_only true 1)
    (demo_env_frame momentum_only true 1) false 2 (demo_rbm 3) 0 0 [5] [5] 5 1
    (fun _ => rfl) (by decide) (by decide) rfl rfl
  exact ⟨r, h1, h2.trans rfl⟩

/-- C5, as amended. For a model without the momentum capability, when no collaborator writes
the momentum state, with batch size `b > 0` (and enough fuel) `train` returns; it has set the
momentum to `initial_momentum` (line 117 does so for every model) and has never set it to
`final_momentum`: every notification and every call of the per-batch trainer is made on a model
whose momentum is `initial_momentum`, and after the call the momentum is `initial_momentum`
and the three other fields of the momentum state are as before. -/
theorem momentum_without_capability (c : Env W S X G α) (hfr : MomentumFrame c)
    (Denoising : Bool) (fuel : Nat) (rbm : RBM W S) (ext : X) (g : G) (input expected : List α)
    (N b : Nat) (hsize : ∀ r, c.get_batch_size r = b) (hb : 0 < b)
    (hfuel : input.length < fuel) (hm : c.traits.has_momentum = false) :
    ∃ r, train c Denoising fuel rbm ext g input expected N = some r ∧
      momentum_state r.1.rbm = (rbm.initial_momentum, rbm.initial_momentum, rbm.final_momentum,
        rbm.final_momentum_epoch) ∧
      ∀ ev ∈ r.1.trace, ∀ m, ev.momentum = some m → m = rbm.initial_momentum := by
  obtain ⟨r, h1, h2, hok⟩ :=
    train_momentum c hfr Denoising fuel rbm ext g input expected N b hsize hb hfuel
  refine ⟨r, h1, ?_, ?_⟩
  · rw [h2, momentum_during_of_no_capability c.traits rbm N hm]
  · intro ev hev m hmo
    have h := hok ev hev
    unfold Event.momentum_ok at h
    rw [hmo] at h
    cases hs : ev.shape <;> rw [hs] at h <;>
      simp [Shape.momentum, momentum_during_of_no_capability c.traits rbm _ hm] at h <;>
      exact h

/-- A model without the momentum capability, with momentum 0.7 and initial momentum 0.5, is
left with momentum 0.5, and the watcher and the trainer see momentum 0.5. -/
theorem momentum_without_capability_witness :
    ∃ r, train (demo_env no_capability true 1) false 2 (demo_rbm 0) 0 0 [5] [5] 2 = some r ∧
      momentum_state r.1.rbm = ((demo_rbm 0).initial_momentum, (demo_rbm 0).initial_momentum,
        (demo_rbm 0).final_momentum, (demo_rbm 0).final_momentum_epoch) ∧
      ∀ ev ∈ r.1.trace, ∀ m, ev.momentum = some m → m = (demo_rbm 0).initial_momentum :=
  momentum_without_capability (demo_env no_capability true 1)
    (demo_env_frame no_capability true 1) false 2 (demo_rbm 0) 0 0 [5] [5] 2 1
    (fun _ => rfl) (by decide) (by decide) rfl

/-- C5 fails on the code: a model without the momentum capability that has momentum 0.7 and
initial momentum 0.5 before the call has momentum 0.5 after it, even with no epoch. -/
theorem momentum_reset_without_capability :
    (demo_env no_capability false 1).traits.has_momentum = false ∧
    (train (demo_env no_capability false 1) false 1 (demo_rbm 0) 0 0 [] [] 0).map
        (fun r => r.1.rbm.momentum) = some (demo_rbm 0).initial_momentum ∧
    (demo_rbm 0).initial_momentum ≠ (demo_rbm 0).momentum := by
  refine ⟨rfl, rfl, ?_⟩
  norm_num [demo_rbm]

end schedule

/-! ## The statistics of an epoch -/

section statistics

variable {W S X G α : Type} [Add W] [Zero W]

/-- The batch loop writes no statistics entry. -/
theorem run_batches_stat (c : Env W S X G α) (fuel epoch : Nat) (ibuf ebuf : Buf) (b : Nat)
    (s : State W S X G α) (hb : 0 < b) (hfuel : (s.mem.get ibuf).length < fuel) :
    ∃ l, run_batches c fuel epoch ibuf ebuf b s = some l ∧
      l.batches = ceil_div (s.mem.get ibuf).length b ∧
      l.samples = (s.mem.get ibuf).length ∧ l.st.mem = s.mem ∧
      l.st.trace.filterMap Event.stat = s.trace.filterMap Event.stat := by
  obtain ⟨l, h1, h2, h3, h4, -, -⟩ := run_batches_shape c fuel epoch ibuf ebuf b s hb hfuel
  obtain ⟨l', h1', -, -, h5⟩ :=
    run_batches_rule c fuel epoch ibuf ebuf b s hb hfuel
      (fun l => l.st.trace.filterMap Event.stat = s.trace.filterMap Event.stat) rfl
      (by
        intro l _ _ hi
        obtain ⟨-, -, -, -, -, -, -, s8⟩ :=
          batch_step_spec c epoch ibuf ebuf (s.mem.get ibuf).length b l
        have hfe : ∀ vs : List α,
            (vs.map (Event.free_energy : α → Event W S α)).filterMap Event.stat = [] := by
          intro vs
          induction vs with
          | nil => rfl
          | cons v vs ih => simp [List.filterMap_cons, Event.stat, ih]
        rw [s8, List.filterMap_append, hi]
        by_cases hflag : (c.EnableWatcher && c.traits.free_energy) = true
        · rw [if_pos hflag, List.filterMap_cons]
          simp only [Event.stat, hfe, List.append_nil]
        · rw [if_neg hflag]
          simp [List.filterMap_cons, Event.stat])
  have hl : l' = l := Option.some.inj (h1'.symm.trans h1)
  subst hl
  exact ⟨l', h1, h2, h3, h4, h5⟩

variable [Div W] [NatCast W]

/-- The statistics entries of one epoch, and the value it leaves in `last_error`. -/
theorem epoch_body_stat (c : Env W S X G α) (Denoising : Bool) (fuel : Nat) (ibuf ebuf : Buf)
    (b epoch : Nat) (s : State W S X G α) (hb : 0 < b) (hfuel : (s.mem.get ibuf).length < fuel) :
    ∃ r acc, epoch_body c Denoising fuel ibuf ebuf b epoch s = some r ∧
      (r.1.mem.get ibuf).length = (s.mem.get ibuf).length ∧
      r.1.trace.filterMap Event.stat =
        s.trace.filterMap Event.stat ++
          epoch_stats c epoch (ceil_div (s.mem.get ibuf).length b) (s.mem.get ibuf).length acc ∧
      r.2 = acc.reconstruction_error / ((ceil_div (s.mem.get ibuf).length b : Nat) : W) := by
  obtain ⟨l, h1, h2, h3, h4, h5⟩ := run_batches_stat c fuel epoch ibuf ebuf b
    { s with mem := (shuffle c.traits c.draw Denoising ibuf ebuf s.gen s.mem).1,
             gen := (shuffle c.traits c.draw Denoising ibuf ebuf s.gen s.mem).2 } hb
    (by simpa [shuffle_length] using hfuel)
  simp only [shuffle_length] at h2 h3
  obtain ⟨g1, -, -⟩ := finish_epoch_shape c epoch l
  refine ⟨finish_epoch c epoch l, l.context, by simp [epoch_body, h1], ?_, ?_, ?_⟩
  · rw [g1, h4]
    exact shuffle_length _ _ _ _ _ _ _
  · unfold finish_epoch notify_epoch_end epoch_stats average
    by_cases hw : c.EnableWatcher = true
    · simp [hw, State.log, List.filterMap_append, h5, Event.stat, h2, h3]
    · simp [hw, State.log, List.filterMap_append, h5, Event.stat, h2, h3]
  · simp [finish_epoch, average, h2]

/-- The statistics of a whole call: with a positive batch size `b` and more fuel than samples,
`train` returns; each epoch writes its accumulated context with the counters `ceil(n / b)` and
`n` and, with a watcher, reports the averages; the returned value is the averaged reconstruction
error of the last epoch, or zero when there is no epoch. -/
theorem train_stat (c : Env W S X G α) (Denoising : Bool) (fuel : Nat) (rbm : RBM W S)
    (ext : X) (g : G) (input expected : List α) (N b : Nat)
    (hsize : ∀ r, c.get_batch_size r = b) (hb : 0 < b) (hfuel : input.length < fuel) :
    ∃ r, ∃ acc : Nat → rbm_training_context W,
      train c Denoising fuel rbm ext g input expected N = some r ∧
      r.1.trace.filterMap Event.stat =
        (List.range N).flatMap (fun e =>
          epoch_stats c e (ceil_div input.length b) input.length (acc e)) ∧
      r.2 = if N = 0 then 0
        else (acc (N - 1)).reconstruction_error / ((ceil_div input.length b : Nat) : W) := by
  obtain ⟨t1, -, t3, -, t5⟩ := setup_result_shape c Denoising rbm ext g input expected
  have hbs : (setup_result c Denoising rbm ext g input expected).2.2.2 = b := hsize _
  have hp := prepared_input c Denoising input expected
  have hsetup : (setup_result c Denoising rbm ext g input expected).1.trace.filterMap
      Event.stat = [] := by
    unfold setup_result notify_training_begin init_weights
    by_cases hw : c.EnableWatcher = true <;> by_cases hi : c.traits.init_weights = true <;>
      simp only [hw, hi, if_true, Bool.false_eq_true, if_false, State.log] <;>
      split <;> simp [Event.stat]
  obtain ⟨r, h1, h2, acc, h3, h4⟩ := epoch_loop_rule
    (epoch_body c Denoising fuel (setup_result c Denoising rbm ext g input expected).2.1
      (setup_result c Denoising rbm ext g input expected).2.2.1 b)
    (fun e r =>
      (r.1.mem.get (setup_result c Denoising rbm ext g input expected).2.1).length =
        input.length ∧
      ∃ acc : Nat → rbm_training_context W,
        r.1.trace.filterMap Event.stat =
          (List.range e).flatMap (fun e =>
            epoch_stats c e (ceil_div input.length b) input.length (acc e)) ∧
        r.2 = if e = 0 then 0
          else (acc (e - 1)).reconstruction_error / ((ceil_div input.length b : Nat) : W))
    (by
      intro e r ⟨i1, acc, i2, _⟩
      obtain ⟨r', a, e1, e2, e3, e4⟩ := epoch_body_stat c Denoising fuel _ _ b e r.1 hb
        (by rw [i1]; exact hfuel)
      rw [i1] at e2 e3 e4
      refine ⟨r', e1, e2, fun j => if j = e then a else acc j, ?_, ?_⟩
      · rw [e3, i2, List.range_succ, List.flatMap_append]
        simp only [List.flatMap_cons, List.flatMap_nil, List.append_nil, if_true]
        congr 1
        apply List.flatMap_congr
        intro j hj
        have := List.mem_range.1 hj
        rw [if_neg (by omega)]
      · simp [e4])
    N 0 ((setup_result c Denoising rbm ext g input expected).1, (0 : W))
    ⟨by rw [t1, t3, hp], fun _ => ⟨0, 0, 0⟩, by simp [hsetup], by simp⟩
  rw [Nat.zero_add] at h3 h4
  refine ⟨(notify_training_end c r.1, r.2), acc, by
    rw [train_eq c Denoising fuel rbm ext g input expected N b hsize hb, h1]; rfl, ?_, h4⟩
  rw [← h3]
  unfold notify_training_end
  by_cases hw : c.EnableWatcher = true
  · simp [hw, State.log, List.filterMap_append, Event.stat]
  · simp [hw]

end statistics

section counters

variable {W S X G α : Type}

/-- The natural-number `ceil_div` is the ceiling of the quotient. -/
theorem ceil_div_eq_ceil (n b : Nat) (hb : 0 < b) : ceil_div n b = ⌈(n : ℚ) / (b : ℚ)⌉₊ := by
  have hbq : (0 : ℚ) < (b : ℚ) := by exact_mod_cast hb
  apply le_antisymm
  · rcases Nat.eq_zero_or_pos (ceil_div n b) with h0 | h0
    · omega
    · have hlt : (ceil_div n b - 1) * b < n := by
        have h1 : ceil_div n b * b ≤ n + b - 1 := by
          unfold ceil_div
          exact Nat.div_mul_le_self _ _
        have h2 : ceil_div n b * b = (ceil_div n b - 1) * b + b := by
          rw [Nat.sub_mul, Nat.one_mul]
          have : b ≤ ceil_div n b * b := Nat.le_mul_of_pos_left b h0
          omega
        omega
      have hq : ((ceil_div n b - 1 : Nat) : ℚ) < (n : ℚ) / (b : ℚ) := by
        rw [lt_div_iff₀ hbq]
        exact_mod_cast hlt
      have := Nat.lt_ceil.2 hq
      omega
  · apply Nat.ceil_le.2
    rw [div_le_iff₀ hbq]
    exact_mod_cast ceil_div_mul_ge n b hb

variable [Add W] [Zero W]

/-- C6. For every epoch over `n` samples with batch size `b > 0` (and enough fuel), whatever
the state the epoch starts in, the batch loop returns and the counter `batches` at its end is
`ceil(n / b)`. -/
theorem batch_counter_is_ceil (c : Env W S X G α) (fuel epoch : Nat) (ibuf ebuf : Buf) (b : Nat)
    (s : State W S X G α) (hb : 0 < b) (hfuel : (s.mem.get ibuf).length < fuel) :
    ∃ l, run_batches c fuel epoch ibuf ebuf b s = some l ∧
      l.batches = ⌈((s.mem.get ibuf).length : ℚ) / (b : ℚ)⌉₊ := by
  obtain ⟨l, h1, h2, -, -, -, -⟩ := run_batches_shape c fuel epoch ibuf ebuf b s hb hfuel
  exact ⟨l, h1, by rw [h2, ceil_div_eq_ceil _ _ hb]⟩

/-- An epoch over 950 samples with batch size 100 ends with the batch counter at 10. -/
theorem batch_counter_is_ceil_witness :
    ∃ l, run_batches (demo_env momentum_only true 100) 951 0 Buf.caller_input
        Buf.caller_expected 100 demo_state = some l ∧ l.batches = 10 := by
  obtain ⟨l, h1, h2⟩ := batch_counter_is_ceil (demo_env momentum_only true 100) 951 0
    Buf.caller_input Buf.caller_expected 100 demo_state (by decide)
    (by simp [demo_state, Mem.get])
  refine ⟨l, h1, ?_⟩
  rw [h2, ← ceil_div_eq_ceil _ _ (by decide)]
  simp [demo_state, Mem.get, ceil_div]

end counters

section statistics_claims

variable {W S X G α : Type} [Zero W] [Add W] [Div W] [NatCast W]

/-- C7. With batch size `b > 0` (and enough fuel) and an enabled watcher, `train` returns and
the statistics entries of its trace are, epoch by epoch, the context accumulated by the batch
loop of that epoch, with the counters `batches = ceil(n / b)` and `samples = n`, followed by the
`epoch_end` report, whose `reconstruction_error` and `sparsity` are the accumulated ones divided
by `batches` and whose `free_energy` is the accumulated one divided by `samples`. -/
theorem epoch_end_statistics (c : Env W S X G α) (Denoising : Bool) (fuel : Nat)
    (rbm : RBM W S) (ext : X) (g : G) (input expected : List α) (N b : Nat)
    (hsize : ∀ r, c.get_batch_size r = b) (hb : 0 < b) (hfuel : input.length < fuel)
    (hw : c.EnableWatcher = true) :
    ∃ r, ∃ acc : Nat → rbm_training_context W,
      train c Denoising fuel rbm ext g input expected N = some r ∧
      r.1.trace.filterMap Event.stat =
        (List.range N).flatMap (fun e =>
          [Stat.accumulated e (ceil_div input.length b) input.length (acc e),
           Stat.reported e
            { reconstruction_error :=
                (acc e).reconstruction_error / ((ceil_div input.length b : Nat) : W)
              sparsity := (acc e).sparsity / ((ceil_div input.length b : Nat) : W)
              free_energy := (acc e).free_energy / ((input.length : Nat) : W) }]) := by
  obtain ⟨r, acc, h1, h2, -⟩ :=
    train_stat c Denoising fuel rbm ext g input expected N b hsize hb hfuel
  refine ⟨r, acc, h1, ?_⟩
  rw [h2]
  simp [epoch_stats, hw]

/-- Three samples 1, 2, 3 in batches of two: the trainer of the examples accumulates a
reconstruction error of 6 and a sparsity of 2 over 2 batches, the free energies add up to 6
over 3 samples; the watcher is told 3, 1 and 2. -/
theorem epoch_end_statistics_witness :
    (∃ r, ∃ acc : Nat → rbm_training_context ℚ,
      train (demo_env free_energy_only true 2) false 4 (demo_rbm 3) 0 0 [1, 2, 3] [1, 2, 3] 1 =
        some r ∧
      r.1.trace.filterMap Event.stat =
        (List.range 1).flatMap (fun e =>
          [Stat.accumulated e (ceil_div [1, 2, 3].length 2) [1, 2, 3].length (acc e),
           Stat.reported e
            { reconstruction_error :=
                (acc e).reconstruction_error / ((ceil_div [1, 2, 3].length 2 : Nat) : ℚ)
              sparsity := (acc e).sparsity / ((ceil_div [1, 2, 3].length 2 : Nat) : ℚ)
              free_energy := (acc e).free_energy / (([1, 2, 3].length : Nat) : ℚ) }])) ∧
    (train (demo_env free_energy_only true 2) false 4 (demo_rbm 3) 0 0 [1, 2, 3] [1, 2, 3]
        1).map (fun r => r.1.trace.filterMap Event.stat) =
      some [Stat.accumulated 0 2 3 ⟨6, 2, 6⟩, Stat.reported 0 ⟨3, 1, 2⟩] := by
  refine ⟨epoch_end_statistics (demo_env free_energy_only true 2) false 4 (demo_rbm 3) 0 0
    [1, 2, 3] [1, 2, 3] 1 2 (fun _ => rfl) (by decide) (by decide) rfl, ?_⟩
  simp [train, train_setup, epoch_loop, epoch_body, run_batches, while_loop, batch_body,
    batch_init, finish_epoch, demo_env, demo_rbm, free_energy_only, notify_training_begin,
    notify_training_end, notify_epoch_end, prepare_it, init_weights, shuffle, State.log, Mem.get,
    inner_cond, inner_body, average, make_batch, update_momentum, free_energy_step, Event.stat]
  norm_num

end statistics_claims

section returned_value

variable {W S X G α : Type}

/-- The reconstruction errors reported to the watcher are those of the reports among the
statistics. -/
theorem reported_errors_eq (trace : List (Event W S α)) :
    reported_errors trace = (trace.filterMap Event.stat).filterMap Stat.reported_error := by
  unfold reported_errors
  rw [List.filterMap_filterMap]
  apply List.filterMap_congr
  intro ev _
  cases ev <;> rfl

variable [Div W] [NatCast W]

theorem reported_error_epoch_stats (c : Env W S X G α) (hw : c.EnableWatcher = true)
    (N B n : Nat) (acc : Nat → rbm_training_context W) :
    ((List.range N).flatMap (fun e => epoch_stats c e B n (acc e))).filterMap
        Stat.reported_error =
      (List.range N).map (fun e => (e, (acc e).reconstruction_error / (B : W))) := by
  rw [List.filterMap_flatMap, ← flatMap_singleton_map]
  apply List.flatMap_congr
  intro e _
  simp [epoch_stats, hw, List.filterMap_cons, Stat.reported_error]

variable [Zero W] [Add W]

/-- C8. With batch size `b > 0` (and enough fuel) and `max_epochs ≥ 1`, `train` returns the
reconstruction error accumulated in the last epoch, `max_epochs - 1`, divided by the number of
batches; with a watcher, it is the value of `reconstruction_error` in the last `epoch_end`
notification, which is that of epoch `max_epochs - 1`. The value of `last_error` before the
epoch loop has no part in it: the epoch loop gives the same result from any other value. -/
theorem returned_error_is_last_epoch (c : Env W S X G α) (Denoising : Bool) (fuel : Nat)
    (rbm : RBM W S) (ext : X) (g : G) (input expected : List α) (N b : Nat)
    (hsize : ∀ r, c.get_batch_size r = b) (hb : 0 < b) (hfuel : input.length < fuel)
    (hN : 1 ≤ N) :
    ∃ r, ∃ acc : Nat → rbm_training_context W,
      train c Denoising fuel rbm ext g input expected N = some r ∧
      r.1.trace.filterMap Event.stat =
        (List.range N).flatMap (fun e =>
          epoch_stats c e (ceil_div input.length b) input.length (acc e)) ∧
      r.2 = (acc (N - 1)).reconstruction_error / ((ceil_div input.length b : Nat) : W) ∧
      (c.EnableWatcher = true → (reported_errors r.1.trace).getLast? = some (N - 1, r.2)) ∧
      ∀ (ibuf ebuf : Buf) (e : Nat) (s : State W S X G α) (w w' : W),
        epoch_loop (epoch_body c Denoising fuel ibuf ebuf b) N e (s, w) =
          epoch_loop (epoch_body c Denoising fuel ibuf ebuf b) N e (s, w') := by
  obtain ⟨r, acc, h1, h2, h3⟩ :=
    train_stat c Denoising fuel rbm ext g input expected N b hsize hb hfuel
  rw [if_neg (by omega)] at h3
  refine ⟨r, acc, h1, h2, h3, ?_, ?_⟩
  · intro hw
    rw [reported_errors_eq, h2, reported_error_epoch_stats c hw, List.getLast?_map,
      List.getLast?_range, if_neg (by omega), h3]
    rfl
  · intro ibuf ebuf e s w w'
    obtain ⟨k, rfl⟩ : ∃ k, N = k + 1 := ⟨N - 1, by omega⟩
    rfl

/-- Two epochs over the samples 1, 2, 3 in batches of two: the call returns 3, the
reconstruction error reported at the end of epoch 1. -/
theorem returned_error_is_last_epoch_witness :
    (∃ r, ∃ acc : Nat → rbm_training_context ℚ,
      train (demo_env momentum_only true 2) false 4 (demo_rbm 3) 0 0 [1, 2, 3] [1, 2, 3] 2 =
        some r ∧
      r.2 = (acc (2 - 1)).reconstruction_error / ((ceil_div [1, 2, 3].length 2 : Nat) : ℚ) ∧
      (reported_errors r.1.trace).getLast? = some (2 - 1, r.2)) ∧
    (train (demo_env momentum_only true 2) false 4 (demo_rbm 3) 0 0 [1, 2, 3] [1, 2, 3] 2).map
        (fun r => (r.2, reported_errors r.1.trace)) = some (3, [(0, 3), (1, 3)]) := by
  constructor
  · obtain ⟨r, acc, h1, -, h3, h4, -⟩ := returned_error_is_last_epoch
      (demo_env momentum_only true 2) false 4 (demo_rbm 3) 0 0 [1, 2, 3] [1, 2, 3] 2 2
      (fun _ => rfl) (by decide) (by decide) (by decide)
    exact ⟨r, acc, h1, h3, h4 rfl⟩
  · simp [train, train_setup, epoch_loop, epoch_body, run_batches, while_loop, batch_body,
      batch_init, finish_epoch, demo_env, demo_rbm, momentum_only, notify_training_begin,
      notify_training_end, notify_epoch_end, prepare_it, init_weights, shuffle, State.log,
      Mem.get, inner_cond, inner_body, average, make_batch, update_momentum, reported_errors,
      Event.reported_error]
    norm_num

end returned_value

/-! ## The order of the calls -/

section order

variable {W S X G α : Type}

theorem notification_train_shape (c : Env W S X G α) (Denoising : Bool) (g : G)
    (input expected : List α) (b N : Nat) :
    (train_shape c Denoising g input expected b N).filterMap Shape.notification =
      if c.EnableWatcher then
        Notification.training_begin :: (List.range N).map Notification.epoch_end ++
          [Notification.training_end]
      else [] := by
  rw [filterMap_train_shape]
  have hep : ∀ e, (epoch_shape c e (epoch_input c Denoising g input expected e)
      (epoch_expected c Denoising g input expected e) b).filterMap Shape.notification =
      if c.EnableWatcher then [Notification.epoch_end e] else [] := by
    intro e
    rw [filterMap_epoch_shape]
    simp only [filterMap_batch_shape c Shape.notification (fun _ => rfl), Shape.notification,
      Option.toList, List.append_nil]
    rw [flatMap_nil_fun]
    rfl
  simp only [hep, Shape.notification, Option.toList, ite_self, List.append_nil]
  by_cases hw : c.EnableWatcher = true
  · simp only [hw, if_true]
    rw [flatMap_singleton_map]
    rfl
  · simp only [hw, Bool.false_eq_true, if_false]
    rw [flatMap_nil_fun]
    rfl

theorem phase_train_shape (c : Env W S X G α) (Denoising : Bool) (g : G)
    (input expected : List α) (b N : Nat) :
    (train_shape c Denoising g input expected b N).filterMap Shape.phase =
      if c.EnableWatcher then
        Phase.training_begin ::
          (List.range N).flatMap (fun e => [Phase.averaged e, Phase.epoch_end e]) ++
          [Phase.training_end]
      else (List.range N).map Phase.averaged := by
  rw [filterMap_train_shape]
  have hep : ∀ e, (epoch_shape c e (epoch_input c Denoising g input expected e)
      (epoch_expected c Denoising g input expected e) b).filterMap Shape.phase =
      Phase.averaged e :: if c.EnableWatcher then [Phase.epoch_end e] else [] := by
    intro e
    rw [filterMap_epoch_shape]
    simp only [filterMap_batch_shape c Shape.phase (fun _ => rfl), Shape.phase,
      Option.toList, List.append_nil]
    rw [flatMap_nil_fun]
    rfl
  simp only [hep, Shape.phase, Option.toList, ite_self, List.append_nil]
  by_cases hw : c.EnableWatcher = true
  · simp only [hw, if_true]
    rfl
  · simp only [hw, Bool.false_eq_true, if_false]
    rw [flatMap_singleton_map]
    simp

variable [Zero W] [Add W] [Div W] [NatCast W]

/-- C9. With batch size `b > 0` (and enough fuel) `train` returns. When the watcher is
enabled its notifications are, in this order, `training_begin`, `epoch_end` for the epochs
`0, 1, ..., max_epochs - 1`, `training_end`, each once, and every `epoch_end` comes right
after the averaging step of its epoch. When the watcher is disabled there is no notification:
the averaging steps are all that is left. The notifications reach the watcher: the model and
the collaborators' own state after `train` are those the collaborators produce when the
recorded calls are made in the order of the trace, each on what the one before left. -/
theorem watcher_lifecycle (c : Env W S X G α) (Denoising : Bool) (fuel : Nat) (rbm : RBM W S)
    (ext : X) (g : G) (input expected : List α) (N b : Nat)
    (hsize : ∀ r, c.get_batch_size r = b) (hb : 0 < b) (hfuel : input.length < fuel) :
    ∃ r, train c Denoising fuel rbm ext g input expected N = some r ∧
      notifications r.1.trace =
        (if c.EnableWatcher then
          Notification.training_begin :: (List.range N).map Notification.epoch_end ++
            [Notification.training_end]
        else []) ∧
      lifecycle r.1.trace =
        (if c.EnableWatcher then
          Phase.training_begin ::
            (List.range N).flatMap (fun e => [Phase.averaged e, Phase.epoch_end e]) ++
            [Phase.training_end]
        else (List.range N).map Phase.averaged) ∧
      (r.1.rbm, r.1.ext) = replay c rbm ext r.1.trace := by
  obtain ⟨r, h1, h2⟩ :=
    train_trace_shape c Denoising fuel rbm ext g input expected N b hsize hb hfuel
  obtain ⟨r', h1', hrep⟩ :=
    train_replay c Denoising fuel rbm ext g input expected N b hsize hb hfuel
  obtain rfl : r = r' := Option.some.inj (h1.symm.trans h1')
  refine ⟨r, h1, ?_, ?_, hrep⟩
  · unfold notifications
    rw [h2, notification_train_shape]
  · unfold lifecycle
    rw [h2, phase_train_shape]

/-- Three epochs with a watcher that keeps a record of what it is told: the trace and the
watcher's own record both hold `training_begin`, three `epoch_end`, `training_end`; the same
call without a watcher: no notification in the trace and none in the record. -/
theorem watcher_lifecycle_witness :
    (∃ r, train (probe_env shuffle_momentum true 2) false 4 probe_rbm no_record 0 [1, 2, 3]
        [1, 2, 3] 3 = some r ∧
      notifications r.1.trace =
        [Notification.training_begin, Notification.epoch_end 0, Notification.epoch_end 1,
          Notification.epoch_end 2, Notification.training_end] ∧
      (r.1.rbm, r.1.ext) = replay (probe_env shuffle_momentum true 2) probe_rbm no_record
        r.1.trace ∧
      r.1.ext.notified =
        [Notification.training_begin, Notification.epoch_end 0, Notification.epoch_end 1,
          Notification.epoch_end 2, Notification.training_end]) ∧
    (∃ r, train (probe_env shuffle_momentum false 2) false 4 probe_rbm no_record 0 [1, 2, 3]
        [1, 2, 3] 3 = some r ∧
      notifications r.1.trace = [] ∧ r.1.ext.notified = []) := by
  constructor
  · obtain ⟨r, h1, h2, -, h4⟩ := watcher_lifecycle (probe_env shuffle_momentum true 2) false 4
      probe_rbm no_record 0 [1, 2, 3] [1, 2, 3] 3 2 (fun _ => rfl) (by decide) (by decide)
    have hv : (train (probe_env shuffle_momentum true 2) false 4 probe_rbm no_record 0
        [1, 2, 3] [1, 2, 3] 3).map (fun r => r.1.ext.notified) =
        some [Notification.training_begin, Notification.epoch_end 0, Notification.epoch_end 1,
          Notification.epoch_end 2, Notification.training_end] := by decide
    rw [h1] at hv
    exact ⟨r, h1, h2.trans rfl, h4, Option.some.inj hv⟩
  · obtain ⟨r, h1, h2, -, -⟩ := watcher_lifecycle (probe_env shuffle_momentum false 2) false 4
      probe_rbm no_record 0 [1, 2, 3] [1, 2, 3] 3 2 (fun _ => rfl) (by decide) (by decide)
    have hv : (train (probe_env shuffle_momentum false 2) false 4 probe_rbm no_record 0
        [1, 2, 3] [1, 2, 3] 3).map (fun r => r.1.ext.notified) = some [] := by decide
    rw [h1] at hv
    exact ⟨r, h1, h2.trans rfl, Option.some.inj hv⟩

end order

section calls_per_epoch

variable {W S X G α : Type}

theorem step_train_shape (c : Env W S X G α) (Denoising : Bool) (g : G)
    (input expected : List α) (b N : Nat) :
    (train_shape c Denoising g input expected b N).filterMap Shape.step =
      (List.range N).flatMap (fun e =>
        (List.range (ceil_div input.length b)).map (fun k => Step.train_batch e (k * b)) ++
          Step.counters e (ceil_div input.length b) input.length ::
          (if c.EnableWatcher then [Step.epoch_end e] else [])) := by
  rw [filterMap_train_shape]
  simp only [Shape.step, Option.toList, ite_self, List.nil_append, List.append_nil]
  apply List.flatMap_congr
  intro e _
  rw [filterMap_epoch_shape]
  simp only [filterMap_batch_shape c Shape.step (fun _ => rfl), Shape.step, Option.toList,
    epoch_input_length, flatMap_singleton_map, List.append_assoc]
  rfl

/-- The number of calls of the per-batch trainer among the steps of `N` epochs of `B`
batches. -/
theorem countP_steps (watcher : Bool) (N B n b : Nat) :
    ((List.range N).flatMap (fun e =>
        (List.range B).map (fun k => Step.train_batch e (k * b)) ++
          Step.counters e B n :: (if watcher then [Step.epoch_end e] else []))).countP
        Step.is_train_batch = N * B := by
  induction N with
  | zero => simp
  | succ N ih =>
    rw [List.range_succ, List.flatMap_append, List.countP_append, ih]
    have h1 : ((List.range B).map (fun k => Step.train_batch N (k * b))).countP
        Step.is_train_batch = B := by
      rw [List.countP_eq_length.2]
      · simp
      · intro st hst
        obtain ⟨k, -, rfl⟩ := List.mem_map.1 hst
        rfl
    have h2 : (Step.counters N B n :: (if watcher then [Step.epoch_end N] else [])).countP
        Step.is_train_batch = 0 := by
      cases watcher <;> simp [List.countP_cons, Step.is_train_batch]
    simp only [List.flatMap_cons, List.flatMap_nil, List.append_nil, List.countP_append, h1, h2]
    rw [Nat.succ_mul]
    omega

variable [Zero W] [Add W] [Div W] [NatCast W]

/-- C10. With `n` samples, batch size `b > 0` (and enough fuel) and `max_epochs = N`, `train`
returns, and the steps of its trace are, for the epochs `0, ..., N - 1` in this order: the
`ceil(n / b)` calls of the per-batch trainer, on the batches that start at the offsets
`0, b, 2 b, ...` in this order; the end of the batch loop with the counters
`batches = ceil(n / b)` and `samples = n`; and, with a watcher, the `epoch_end` notification.
The calls of the per-batch trainer are `N * ceil(n / b)` in all. The calls are made, not only
recorded: the model and the collaborators' own state after `train` are those the collaborators
produce when the recorded calls are made in the order of the trace, each on what the one before
left. -/
theorem calls_per_epoch (c : Env W S X G α) (Denoising : Bool) (fuel : Nat) (rbm : RBM W S)
    (ext : X) (g : G) (input expected : List α) (N b : Nat)
    (hsize : ∀ r, c.get_batch_size r = b) (hb : 0 < b) (hfuel : input.length < fuel) :
    ∃ r, train c Denoising fuel rbm ext g input expected N = some r ∧
      progress r.1.trace =
        (List.range N).flatMap (fun e =>
          (List.range (ceil_div input.length b)).map (fun k => Step.train_batch e (k * b)) ++
            Step.counters e (ceil_div input.length b) input.length ::
            (if c.EnableWatcher then [Step.epoch_end e] else [])) ∧
      (progress r.1.trace).countP Step.is_train_batch = N * ceil_div input.length b ∧
      ceil_div input.length b = ⌈(input.length : ℚ) / (b : ℚ)⌉₊ ∧
      (r.1.rbm, r.1.ext) = replay c rbm ext r.1.trace := by
  obtain ⟨r, h1, h2⟩ :=
    train_trace_shape c Denoising fuel rbm ext g input expected N b hsize hb hfuel
  obtain ⟨r', h1', hrep⟩ :=
    train_replay c Denoising fuel rbm ext g input expected N b hsize hb hfuel
  obtain rfl : r = r' := Option.some.inj (h1.symm.trans h1')
  have hp : progress r.1.trace =
      (List.range N).flatMap (fun e =>
        (List.range (ceil_div input.length b)).map (fun k => Step.train_batch e (k * b)) ++
          Step.counters e (ceil_div input.length b) input.length ::
          (if c.EnableWatcher then [Step.epoch_end e] else [])) := by
    unfold progress
    rw [h2, step_train_shape]
  refine ⟨r, h1, hp, ?_, ceil_div_eq_ceil _ _ hb, hrep⟩
  rw [hp]
  exact countP_steps c.EnableWatcher N _ _ b

/-- With 1000 samples, batch size 100, 5 epochs, shuffling and a watcher: 50 calls of the
per-batch trainer, and in each epoch 10 calls, the counters 10 and 1000, the notification; the
trainer's own counter of its calls, 0 before `train`, is 50 after it. With the samples 1, 2, 3
in batches of two, two epochs and a trainer that keeps a record of what it is given, the record
holds the batches `[1, 2]`, `[3]`, `[1, 2]`, `[3]` in this order and the watcher has been told
the end of the epochs 0 and 1. -/
theorem calls_per_epoch_witness :
    (∃ r, train (demo_env shuffle_momentum true 100) false 1001 (demo_rbm 3) 0 0
        (List.range 1000) (List.range 1000) 5 = some r ∧
      progress r.1.trace =
        (List.range 5).flatMap (fun e =>
          (List.range 10).map (fun k => Step.train_batch e (k * 100)) ++
            [Step.counters e 10 1000, Step.epoch_end e]) ∧
      (progress r.1.trace).countP Step.is_train_batch = 50 ∧
      r.1.ext = 50) ∧
    (∃ r, train (probe_env no_capability true 2) false 4 probe_rbm no_record 0 [1, 2, 3]
        [1, 2, 3] 2 = some r ∧
      (progress r.1.trace).countP Step.is_train_batch = 4 ∧
      r.1.ext.trained = [([1, 2], [1, 2]), ([3], [3]), ([1, 2], [1, 2]), ([3], [3])] ∧
      r.1.ext.notified =
        [Notification.training_begin, Notification.epoch_end 0, Notification.epoch_end 1,
          Notification.training_end]) := by
  constructor
  · obtain ⟨r, h1, h2, h3, -, h5⟩ := calls_per_epoch (demo_env shuffle_momentum true 100) false
      1001 (demo_rbm 3) 0 0 (List.range 1000) (List.range 1000) 5 100 (fun _ => rfl)
      (by decide) (by simp)
    have hc : ceil_div (List.range 1000).length 100 = 10 := by simp [ceil_div]
    have hl : (List.range 1000).length = 1000 := by simp
    rw [hc] at h2 h3
    rw [hl] at h2
    have hx : r.1.ext = 0 + (progress r.1.trace).countP Step.is_train_batch := by
      rw [← demo_replay_counter shuffle_momentum true 100 (demo_rbm 3) 0 r.1.trace, ← h5]
    rw [h3] at hx
    exact ⟨r, h1, h2, h3, hx⟩
  · obtain ⟨r, h1, -, h3, -, -⟩ := calls_per_epoch (probe_env no_capability true 2) false 4
      probe_rbm no_record 0 [1, 2, 3] [1, 2, 3] 2 2 (fun _ => rfl) (by decide) (by decide)
    have hv : (train (probe_env no_capability true 2) false 4 probe_rbm no_record 0 [1, 2, 3]
        [1, 2, 3] 2).map (fun r => (r.1.ext.trained, r.1.ext.notified)) =
        some ([([1, 2], [1, 2]), ([3], [3]), ([1, 2], [1, 2]), ([3], [3])],
          [Notification.training_begin, Notification.epoch_end 0, Notification.epoch_end 1,
            Notification.training_end]) := by decide
    rw [h1] at hv
    have hv' := Option.some.inj hv
    exact ⟨r, h1, h3.trans (by decide), congrArg Prod.fst hv', congrArg Prod.snd hv'⟩

end calls_per_epoch

/-! ## The divisibility warning -/

section warning

variable {W S X G α : Type}

theorem course_train_shape (c : Env W S X G α) (Denoising : Bool) (g : G)
    (input expected : List α) (b N : Nat) :
    (train_shape c Denoising g input expected b N).filterMap Shape.course =
      (if input.length % b != 0 then [Course.warning] else []) ++
        (List.range N).map (fun e => Course.epoch e (ceil_div input.length b) input.length) := by
  rw [filterMap_train_shape]
  have hep : ∀ e, (epoch_shape c e (epoch_input c Denoising g input expected e)
      (epoch_expected c Denoising g input expected e) b).filterMap Shape.course =
      [Course.epoch e (ceil_div input.length b) input.length] := by
    intro e
    rw [filterMap_epoch_shape]
    simp only [filterMap_batch_shape c Shape.course (fun _ => rfl), Shape.course,
      Option.toList, List.append_nil, ite_self, epoch_input_length]
    rw [flatMap_nil_fun]
    rfl
  simp only [hep, Shape.course, Option.toList, ite_self, List.append_nil, List.nil_append]
  rw [flatMap_singleton_map]

variable [Zero W] [Add W] [Div W] [NatCast W]

/-- C11. With `n` samples and batch size `b > 0` (and enough fuel) `train` returns. Its trace
has the divisibility warning once, before the first epoch, when `n % b ≠ 0`, and not at all
when `n % b = 0`; in both cases it has after that the batch loops of all the epochs
`0, ..., max_epochs - 1`, each left with `ceil(n / b)` batches and `n` samples counted. -/
theorem warning_once (c : Env W S X G α) (Denoising : Bool) (fuel : Nat) (rbm : RBM W S)
    (ext : X) (g : G) (input expected : List α) (N b : Nat)
    (hsize : ∀ r, c.get_batch_size r = b) (hb : 0 < b) (hfuel : input.length < fuel) :
    ∃ r, train c Denoising fuel rbm ext g input expected N = some r ∧
      course r.1.trace =
        (if input.length % b ≠ 0 then [Course.warning] else []) ++
          (List.range N).map (fun e => Course.epoch e (ceil_div input.length b) input.length) ∧
      (course r.1.trace).count Course.warning = (if input.length % b ≠ 0 then 1 else 0) := by
  obtain ⟨r, h1, h2⟩ :=
    train_trace_shape c Denoising fuel rbm ext g input expected N b hsize hb hfuel
  have hc : course r.1.trace =
      (if input.length % b ≠ 0 then [Course.warning] else []) ++
        (List.range N).map (fun e => Course.epoch e (ceil_div input.length b) input.length) := by
    unfold course
    rw [h2, course_train_shape]
    by_cases h : input.length % b = 0 <;> simp [h]
  refine ⟨r, h1, hc, ?_⟩
  rw [hc, List.count_append]
  have h0 : ((List.range N).map
      (fun e => Course.epoch e (ceil_div input.length b) input.length)).count Course.warning =
      0 := by
    apply List.count_eq_zero.2
    intro hmem
    obtain ⟨e, -, he⟩ := List.mem_map.1 hmem
    cases he
  rw [h0]
  by_cases h : input.length % b = 0 <;> simp [h]

/-- With 950 samples, batch size 100 and three epochs: one warning, then three epochs of 10
batches each. -/
theorem warning_once_witness :
    ∃ r, train (demo_env shuffle_momentum true 100) false 951 (demo_rbm 3) 0 0
        (List.range 950) (List.range 950) 3 = some r ∧
      course r.1.trace =
        [Course.warning, Course.epoch 0 10 950, Course.epoch 1 10 950, Course.epoch 2 10 950] := by
  obtain ⟨r, h1, h2, -⟩ := warning_once (demo_env shuffle_momentum true 100) false 951
    (demo_rbm 3) 0 0 (List.range 950) (List.range 950) 3 100 (fun _ => rfl) (by decide)
    (by simp)
  have hl : (List.range 950).length = 950 := List.length_range 950
  rw [hl] at h2
  exact ⟨r, h1, h2.trans (by decide)⟩

end warning

/-! ## Training without shuffling -/

section no_shuffle

variable {W S X G α : Type}

variable [Zero W] [Add W] [Div W] [NatCast W]

end no_shuffle

/-! ## The initialisation of the weights -/

section weights

variable {W S X G α : Type}

theorem setup_train_shape (c : Env W S X G α) (Denoising : Bool) (g : G)
    (input expected : List α) (b N : Nat) :
    (train_shape c Denoising g input expected b N).filterMap Shape.setup =
      (if c.traits.init_weights then [Setup.init_weights input] else []) ++
        (List.range N).flatMap (fun e =>
          (List.range (ceil_div input.length b)).map (fun k => Setup.train_batch e (k * b))) := by
  rw [filterMap_train_shape]
  have hep : ∀ e, (epoch_shape c e (epoch_input c Denoising g input expected e)
      (epoch_expected c Denoising g input expected e) b).filterMap Shape.setup =
      (List.range (ceil_div input.length b)).map (fun k => Setup.train_batch e (k * b)) := by
    intro e
    rw [filterMap_epoch_shape]
    simp only [filterMap_batch_shape c Shape.setup (fun _ => rfl), Shape.setup,
      Option.toList, List.append_nil, ite_self, epoch_input_length, flatMap_singleton_map]
  simp only [hep, Shape.setup, Option.toList, ite_self, List.append_nil, List.nil_append]

variable [Zero W] [Add W] [Div W] [NatCast W]

/-- C17. With batch size `b > 0` (and enough fuel) `train` returns. If the model has the
`init_weights` capability, the model's `init_weights` is called once, on the caller's whole
input in the caller's order, and the call comes before every call of the per-batch trainer; if
the model does not have the capability, `init_weights` is not called. The call is made on the
model, not only recorded: the model and the collaborators' own state after `train` are those
the collaborators produce when the recorded calls are made in the order of the trace, each on
what the one before left, `init_weights` before the trainer is constructed. -/
theorem init_weights_once (c : Env W S X G α) (Denoising : Bool) (fuel : Nat) (rbm : RBM W S)
    (ext : X) (g : G) (input expected : List α) (N b : Nat)
    (hsize : ∀ r, c.get_batch_size r = b) (hb : 0 < b) (hfuel : input.length < fuel) :
    ∃ r, train c Denoising fuel rbm ext g input expected N = some r ∧
      setup_calls r.1.trace =
        (if c.traits.init_weights then [Setup.init_weights input] else []) ++
          (List.range N).flatMap (fun e =>
            (List.range (ceil_div input.length b)).map
              (fun k => Setup.train_batch e (k * b))) ∧
      (r.1.rbm, r.1.ext) = replay c rbm ext r.1.trace := by
  obtain ⟨r, h1, h2⟩ :=
    train_trace_shape c Denoising fuel rbm ext g input expected N b hsize hb hfuel
  obtain ⟨r', h1', hrep⟩ :=
    train_replay c Denoising fuel rbm ext g input expected N b hsize hb hfuel
  obtain rfl : r = r' := Option.some.inj (h1.symm.trans h1')
  refine ⟨r, h1, ?_, hrep⟩
  unfold setup_calls
  rw [h2, setup_train_shape]

/-- With the capability and shuffling, on the samples 1, 2, 3 in batches of two, with a model
that keeps the samples it is given: `init_weights` is given `[1, 2, 3]`, then come the four
calls of the trainer of two epochs, and the model holds `[1, 2, 3]` once after the call; without
the capability there are only the four calls of the trainer and the model holds nothing. -/
theorem init_weights_once_witness :
    (∃ r, train (probe_env ⟨true, true, true, false⟩ true 2) false 4 probe_rbm no_record 0
        [1, 2, 3] [1, 2, 3] 2 = some r ∧
      setup_calls r.1.trace =
        [Setup.init_weights [1, 2, 3], Setup.train_batch 0 0, Setup.train_batch 0 2,
          Setup.train_batch 1 0, Setup.train_batch 1 2] ∧
      (r.1.rbm, r.1.ext) = replay (probe_env ⟨true, true, true, false⟩ true 2) probe_rbm
        no_record r.1.trace ∧
      r.1.rbm.params = [[1, 2, 3]]) ∧
    (∃ r, train (probe_env shuffle_momentum true 2) false 4 probe_rbm no_record 0 [1, 2, 3]
        [1, 2, 3] 2 = some r ∧
      setup_calls r.1.trace =
        [Setup.train_batch 0 0, Setup.train_batch 0 2, Setup.train_batch 1 0,
          Setup.train_batch 1 2] ∧
      r.1.rbm.params = []) := by
  constructor
  · obtain ⟨r, h1, h2, h3⟩ := init_weights_once (probe_env ⟨true, true, true, false⟩ true 2)
      false 4 probe_rbm no_record 0 [1, 2, 3] [1, 2, 3] 2 2 (fun _ => rfl) (by decide)
      (by decide)
    have hv : (train (probe_env ⟨true, true, true, false⟩ true 2) false 4 probe_rbm no_record 0
        [1, 2, 3] [1, 2, 3] 2).map (fun r => r.1.rbm.params) = some [[1, 2, 3]] := by decide
    rw [h1] at hv
    exact ⟨r, h1, h2.trans (by decide), h3, Option.some.inj hv⟩
  · obtain ⟨r, h1, h2, -⟩ := init_weights_once (probe_env shuffle_momentum true 2) false 4
      probe_rbm no_record 0 [1, 2, 3] [1, 2, 3] 2 2 (fun _ => rfl) (by decide) (by decide)
    have hv : (train (probe_env shuffle_momentum true 2) false 4 probe_rbm no_record 0
        [1, 2, 3] [1, 2, 3] 2).map (fun r => r.1.rbm.params) = some [] := by decide
    rw [h1] at hv
    exact ⟨r, h1, h2.trans (by decide), Option.some.inj hv⟩

end weights

/-! ## Training on a single range -/

section single_range

variable {W S X G α : Type}

/-- When `train` is not denoising and is given the same range twice, the targets of every
epoch are its inputs: with the shuffle capability the expected iterators point into the copy
of the input, without it both pairs of iterators span the caller's range. -/
theorem epoch_expected_single (c : Env W S X G α) (g : G) (input : List α) (e : Nat) :
    epoch_expected c false g input input e = epoch_input c false g input input e := by
  by_cases hs : c.traits.has_shuffle = true
  · have hp : (prepared c false input input).2.2 = (prepared c false input input).2.1 := by
      simp [prepared, prepare_it, hs]
    unfold epoch_expected epoch_input
    simp only [hp]
  · have hns : c.traits.has_shuffle = false := by simpa using hs
    obtain ⟨hi, hx⟩ := epoch_ranges_no_shuffle c false g input input e hns
    rw [hi, hx]

variable [Zero W] [Add W] [Div W] [NatCast W]

/-- C18. For the entry point `train(rbm, first, last, max_epochs)`, with batch size `b > 0`
(and enough fuel), the call returns and in every epoch each of the `ceil(n / b)` calls of the
per-batch trainer is given an expected batch equal to its input batch, with or without the
shuffle capability. -/
theorem single_range_targets (c : Env W S X G α) (fuel : Nat) (rbm : RBM W S) (ext : X)
    (g : G) (input : List α) (N b : Nat) (hsize : ∀ r, c.get_batch_size r = b) (hb : 0 < b)
    (hfuel : input.length < fuel) :
    ∃ r, train_single c fuel rbm ext g input N = some r ∧
      ∀ e, e < N →
        (batch_calls e r.1.trace).length = ceil_div input.length b ∧
        ∀ call ∈ batch_calls e r.1.trace,
          call.expected_batch = call.input_batch ∧
          call.input_batch =
            make_batch (epoch_input c false g input input e) call.istart call.iit := by
  obtain ⟨r, h1, h2⟩ :=
    train_trace_shape c false fuel rbm ext g input input N b hsize hb hfuel
  refine ⟨r, h1, ?_⟩
  intro e he
  have hcalls : batch_calls e r.1.trace =
      (List.range (ceil_div input.length b)).map
        (slice_call (epoch_input c false g input input e)
          (epoch_input c false g input input e) b) := by
    unfold batch_calls
    rw [h2, batch_of_train_shape c false g input input b N e he, epoch_expected_single,
      epoch_input_length]
  rw [hcalls]
  refine ⟨by simp, ?_⟩
  intro call hcall
  obtain ⟨k, -, rfl⟩ := List.mem_map.1 hcall
  exact ⟨rfl, rfl⟩

/-- The samples 1, 2, 3 in batches of two, with shuffling: in epoch 0 the samples come as
3, 2, 1 and the trainer is called twice, each time with the same batch as input and as
target. -/
theorem single_range_targets_witness :
    ∃ r, train_single (demo_env shuffle_momentum true 2) 4 (demo_rbm 3) 0 0 [1, 2, 3] 1 =
        some r ∧
      batch_calls 0 r.1.trace = [⟨0, 2, 0, 2, [3, 2], [3, 2]⟩, ⟨2, 3, 2, 3, [1], [1]⟩] ∧
      ∀ call ∈ batch_calls 0 r.1.trace, call.expected_batch = call.input_batch := by
  obtain ⟨r, h1, h2⟩ := single_range_targets (demo_env shuffle_momentum true 2) 4 (demo_rbm 3)
    0 0 [1, 2, 3] 1 2 (fun _ => rfl) (by decide) (by decide)
  have hv : (train_single (demo_env shuffle_momentum true 2) 4 (demo_rbm 3) 0 0 [1, 2, 3]
      1).map (fun r => batch_calls 0 r.1.trace) =
      some [⟨0, 2, 0, 2, [3, 2], [3, 2]⟩, ⟨2, 3, 2, 3, [1], [1]⟩] := by decide
  rw [h1] at hv
  exact ⟨r, h1, Option.some.inj hv, fun call hcall => ((h2 0 (by decide)).2 call hcall).1⟩

end single_range

/-! ## A call with no epoch -/

section no_epoch

variable {W S X G α : Type}

/-- The part of `train` before the epoch loop sets the momentum to the initial momentum: the
`training_begin` notification is made with it, and it is still there when the epoch loop starts
if no collaborator writes the momentum state. -/
theorem setup_result_momentum (c : Env W S X G α) (Denoising : Bool) (rbm : RBM W S) (ext : X)
    (g : G) (input expected : List α) :
    (∀ ev ∈ (setup_result c Denoising rbm ext g input expected).1.trace, ∀ m,
      ev = Event.training_begin m → m.momentum = rbm.initial_momentum) ∧
    (MomentumFrame c →
      momentum_state (setup_result c Denoising rbm ext g input expected).1.rbm =
        (rbm.initial_momentum, rbm.initial_momentum, rbm.final_momentum,
          rbm.final_momentum_epoch)) := by
  constructor
  · unfold setup_result notify_training_begin init_weights
    by_cases hw : c.EnableWatcher = true <;> by_cases hi : c.traits.init_weights = true <;>
      simp only [hw, hi, if_true, Bool.false_eq_true, if_false, State.log] <;>
      split <;> intro ev hev m hm <;> subst hm <;> simp at hev <;> simp [hev]
  · intro hfr
    unfold setup_result notify_training_begin init_weights
    by_cases hw : c.EnableWatcher = true <;> by_cases hi : c.traits.init_weights = true <;>
      simp only [hw, hi, if_true, Bool.false_eq_true, if_false, State.log] <;>
      split <;>
      simp only [hfr.make_trainer, hfr.rbm_init_weights, hfr.training_begin] <;>
      simp [momentum_state]

variable [Zero W] [Add W] [Div W] [NatCast W]

/-- C20. With `max_epochs = 0` and a batch size `b > 0`, whatever the fuel, `train` returns 0.
Its trace has no call of the per-batch trainer and no `epoch_end`: it is, in this order,
`training_begin` (with a watcher), `init_weights` on the caller's input (with the capability),
the warning (when `n % b ≠ 0`) and `training_end` (with a watcher). The `training_begin`
notification is made on a model whose momentum is the initial momentum, and the momentum is
the initial momentum after the call if no collaborator writes the momentum state. The calls
are made, not only recorded: the model and the collaborators' own state after `train` are
those the collaborators produce when the momentum is reset, the recorded `training_begin` and
`init_weights` are made, the trainer is constructed and the recorded `training_end` is made. -/
theorem zero_epochs (c : Env W S X G α) (Denoising : Bool) (fuel : Nat) (rbm : RBM W S)
    (ext : X) (g : G) (input expected : List α) (b : Nat)
    (hsize : ∀ r, c.get_batch_size r = b) (hb : 0 < b) :
    ∃ r, train c Denoising fuel rbm ext g input expected 0 = some r ∧ r.2 = 0 ∧
      r.1.trace.map Event.shape =
        (if c.EnableWatcher then [Shape.training_begin] else []) ++
        (if c.traits.init_weights then [Shape.init_weights input] else []) ++
        (if input.length % b != 0 then [Shape.warning] else []) ++
        (if c.EnableWatcher then [Shape.training_end] else []) ∧
      (∀ ev ∈ r.1.trace, ∀ m, ev = Event.training_begin m →
        m.momentum = rbm.initial_momentum) ∧
      (MomentumFrame c → r.1.rbm.momentum = rbm.initial_momentum) ∧
      (r.1.rbm, r.1.ext) = replay c rbm ext r.1.trace := by
  obtain ⟨-, -, -, -, t5⟩ := setup_result_shape c Denoising rbm ext g input expected
  obtain ⟨m1, m2⟩ := setup_result_momentum c Denoising rbm ext g input expected
  have hbs : (setup_result c Denoising rbm ext g input expected).2.2.2 = b := hsize _
  rw [hbs] at t5
  refine ⟨(notify_training_end c (setup_result c Denoising rbm ext g input expected).1, 0),
    by rw [train_eq c Denoising fuel rbm ext g input expected 0 b hsize hb]; rfl, rfl,
    ?_, ?_, ?_,
    notify_training_end_replay c rbm ext _
      (setup_result_replay c Denoising rbm ext g input expected)⟩
  · unfold notify_training_end
    by_cases hw : c.EnableWatcher = true
    · simp only [hw, if_true, State.log, List.map_append, t5]
      simp [Event.shape]
    · simp only [hw, Bool.false_eq_true, if_false, t5]
      simp
  · unfold notify_training_end
    by_cases hw : c.EnableWatcher = true
    · simp only [hw, if_true, State.log]
      intro ev hev m hm
      rcases List.mem_append.1 hev with h | h
      · exact m1 ev h m hm
      · subst hm
        simp at h
    · simp only [hw, Bool.false_eq_true, if_false]
      exact m1
  · intro hfr
    have h := m2 hfr
    unfold notify_training_end
    by_cases hw : c.EnableWatcher = true
    · simp only [hw, if_true]
      have h' := (hfr.training_end (setup_result c Denoising rbm ext g input expected).1.rbm
        (setup_result c Denoising rbm ext g input expected).1.ext).trans h
      simp only [momentum_state, Prod.mk.injEq] at h'
      exact h'.1
    · simp only [hw, Bool.false_eq_true, if_false]
      simp only [momentum_state, Prod.mk.injEq] at h
      exact h.1

/-- No epoch, no fuel, a watcher and the `init_weights` capability, on a model with momentum
0.7 and initial momentum 0.5: the call returns 0 after `training_begin`, `init_weights` on
`[1, 2, 3]`, the warning and `training_end`, and leaves the momentum at 0.5. With
collaborators that keep their own record, the watcher has been told `training_begin` and
`training_end`, the model holds `[1, 2, 3]`, one trainer has been constructed and it has been
given no batch. -/
theorem zero_epochs_witness :
    (∃ r, train (demo_env ⟨true, true, true, false⟩ true 2) false 0 (demo_rbm 3) 0 0 [1, 2, 3]
        [1, 2, 3] 0 = some r ∧ r.2 = 0 ∧
      r.1.trace.map Event.shape =
        [Shape.training_begin, Shape.init_weights [1, 2, 3], Shape.warning,
          Shape.training_end] ∧
      r.1.rbm.momentum = 1 / 2) ∧
    (∃ r, train (probe_env ⟨true, true, true, false⟩ true 2) false 0 probe_rbm no_record 0
        [1, 2, 3] [1, 2, 3] 0 = some r ∧
      (r.1.rbm, r.1.ext) = replay (probe_env ⟨true, true, true, false⟩ true 2) probe_rbm
        no_record r.1.trace ∧
      r.1.rbm.params = [[1, 2, 3]] ∧
      r.1.ext = ⟨[Notification.training_begin, Notification.training_end], [], 1⟩) := by
  constructor
  · obtain ⟨r, h1, h2, h3, -, h5, -⟩ := zero_epochs (demo_env ⟨true, true, true, false⟩ true 2)
      false 0 (demo_rbm 3) 0 0 [1, 2, 3] [1, 2, 3] 2 (fun _ => rfl) (by decide)
    exact ⟨r, h1, h2, h3.trans (by decide), h5 (demo_env_frame _ _ _)⟩
  · obtain ⟨r, h1, -, -, -, -, h6⟩ := zero_epochs (probe_env ⟨true, true, true, false⟩ true 2)
      false 0 probe_rbm no_record 0 [1, 2, 3] [1, 2, 3] 2 (fun _ => rfl) (by decide)
    have hv : (train (probe_env ⟨true, true, true, false⟩ true 2) false 0 probe_rbm no_record 0
        [1, 2, 3] [1, 2, 3] 0).map (fun r => (r.1.rbm.params, r.1.ext)) =
        some ([[1, 2, 3]],
          ⟨[Notification.training_begin, Notification.training_end], [], 1⟩) := by decide
    rw [h1] at hv
    have hv' := Option.some.inj hv
    exact ⟨r, h1, h6, congrArg Prod.fst hv', congrArg Prod.snd hv'⟩

end no_epoch

/-! ## The paired shuffle -/

section paired

variable {G α : Type}

/-- An exchange of two samples reads the range through a permutation of the offsets that
depends on the length of the range and on the two offsets only. -/
theorem swap_at_lookup (xs : List α) (i j : Nat) :
    ∃ τ : Equiv.Perm ℕ, (∀ ys : List α, ys.length = xs.length →
      ∀ k, (swap_at ys i j)[k]? = ys[τ k]?) := by
  by_cases h : i < xs.length ∧ j < xs.length
  · refine ⟨Equiv.swap i j, ?_⟩
    intro ys hlen k
    have hi : i < ys.length := by omega
    have hj : j < ys.length := by omega
    unfold swap_at
    rw [List.getElem?_eq_getElem hi, List.getElem?_eq_getElem hj]
    simp only
    rw [List.getElem?_set, List.getElem?_set]
    by_cases hkj : j = k
    · subst hkj
      simp [hj, hi]
    · by_cases hki : i = k
      · subst hki
        simp [hkj, hi, hj, Equiv.swap_apply_left]
      · have : Equiv.swap i j k = k :=
          Equiv.swap_apply_of_ne_of_ne (fun h => hki h.symm) (fun h => hkj h.symm)
        simp [hkj, hki, this]
  · refine ⟨Equiv.refl ℕ, ?_⟩
    intro ys hlen k
    have : swap_at ys i j = ys := by
      unfold swap_at
      rcases Nat.lt_or_ge i ys.length with hi | hi
      · have hj : ys.length ≤ j := by
          by_contra hj
          exact h ⟨by omega, by omega⟩
        rw [List.getElem?_eq_none hj]
        split <;> simp_all
      · rw [List.getElem?_eq_none hi]
    rw [this]
    rfl

/-- The paired shuffle reads both ranges through one permutation of the offsets. -/
theorem parallel_shuffle_loop_perm (draw : G → Nat → Nat × G) :
    ∀ (i : Nat) (g : G) (xs ys : List α), xs.length = ys.length →
      ∃ σ : Equiv.Perm ℕ, ∀ k,
        (parallel_shuffle_loop draw i g xs ys).1[k]? = xs[σ k]? ∧
        (parallel_shuffle_loop draw i g xs ys).2.1[k]? = ys[σ k]? := by
  intro i
  induction i with
  | zero =>
    intro g xs ys _
    exact ⟨Equiv.refl ℕ, fun k => ⟨rfl, rfl⟩⟩
  | succ i ih =>
    intro g xs ys hlen
    obtain ⟨τ, hτ⟩ := swap_at_lookup xs (i + 1) (draw g (i + 1)).1
    obtain ⟨σ, hσ⟩ := ih (draw g (i + 1)).2 (swap_at xs (i + 1) (draw g (i + 1)).1)
      (swap_at ys (i + 1) (draw g (i + 1)).1) (by rw [length_swap_at, length_swap_at, hlen])
    refine ⟨τ * σ, ?_⟩
    intro k
    simp only [parallel_shuffle_loop, Equiv.Perm.mul_apply]
    rw [(hσ k).1, (hσ k).2, hτ xs rfl, hτ ys hlen.symm]
    exact ⟨rfl, rfl⟩

theorem make_batch_lookup (xs : List α) (lo hi k : Nat) (a : α)
    (h : (make_batch xs lo hi)[k]? = some a) : xs[lo + k]? = some a := by
  unfold make_batch at h
  rw [List.getElem?_take] at h
  split at h
  · rw [List.getElem?_drop] at h
    exact h
  · cases h

/-- When two ranges are read through one permutation of the offsets of two others, a pair of
samples at the same offset of two batches cut at the same offsets is a pair of samples at the
same offset of the two others. -/
theorem pair_of_batches (xs ys xs' ys' : List α) (σ : Equiv.Perm ℕ)
    (h : ∀ k, xs'[k]? = xs[σ k]? ∧ ys'[k]? = ys[σ k]?) (lo hi : Nat) :
    ∀ p ∈ (make_batch xs' lo hi).zip (make_batch ys' lo hi), p ∈ xs.zip ys := by
  intro p hp
  obtain ⟨k, hk⟩ := List.mem_iff_getElem?.1 hp
  obtain ⟨h1, h2⟩ := List.getElem?_zip_eq_some.1 hk
  have e1 := make_batch_lookup xs' lo hi k p.1 h1
  have e2 := make_batch_lookup ys' lo hi k p.2 h2
  rw [(h (lo + k)).1] at e1
  rw [(h (lo + k)).2] at e2
  exact List.mem_iff_getElem?.2 ⟨σ (lo + k), List.getElem?_zip_eq_some.2 ⟨e1, e2⟩⟩

end paired

section paired_epochs

variable {W S X G α : Type}

/-- With the shuffle capability, denoising training works on the copies of the two ranges. -/
theorem prepared_paired (c : Env W S X G α) (input expected : List α)
    (hs : c.traits.has_shuffle = true) :
    prepared c true input expected =
      ({ caller_input := input, caller_expected := expected, input_copy := input,
         expected_copy := expected }, Buf.input_copy, Buf.expected_copy) := by
  simp [prepared, prepare_it, hs]

/-- After any number of paired shuffles the two copies are read through one permutation of
the offsets of what they were. -/
theorem shuffled_paired (c : Env W S X G α) (hs : c.traits.has_shuffle = true) (m : Mem α)
    (g : G) (hlen : m.input_copy.length = m.expected_copy.length) (e : Nat) :
    (shuffled c true Buf.input_copy Buf.expected_copy e (m, g)).1.input_copy.length =
        (shuffled c true Buf.input_copy Buf.expected_copy e (m, g)).1.expected_copy.length ∧
    ∃ σ : Equiv.Perm ℕ, ∀ k,
      (shuffled c true Buf.input_copy Buf.expected_copy e (m, g)).1.input_copy[k]? =
        m.input_copy[σ k]? ∧
      (shuffled c true Buf.input_copy Buf.expected_copy e (m, g)).1.expected_copy[k]? =
        m.expected_copy[σ k]? := by
  induction e with
  | zero => exact ⟨hlen, Equiv.refl ℕ, fun k => ⟨rfl, rfl⟩⟩
  | succ e ih =>
    obtain ⟨hl, σ, hσ⟩ := ih
    rw [shuffled_succ]
    generalize shuffled c true Buf.input_copy Buf.expected_copy e (m, g) = q at hl hσ
    obtain ⟨l1, l2⟩ := parallel_shuffle_loop_length c.draw (q.1.input_copy.length - 1) q.2
      q.1.input_copy q.1.expected_copy
    obtain ⟨τ, hτ⟩ := parallel_shuffle_loop_perm c.draw (q.1.input_copy.length - 1) q.2
      q.1.input_copy q.1.expected_copy hl
    have hstep : (shuffle_step c true Buf.input_copy Buf.expected_copy q).1.input_copy =
          (parallel_shuffle_loop c.draw (q.1.input_copy.length - 1) q.2 q.1.input_copy
            q.1.expected_copy).1 ∧
        (shuffle_step c true Buf.input_copy Buf.expected_copy q).1.expected_copy =
          (parallel_shuffle_loop c.draw (q.1.input_copy.length - 1) q.2 q.1.input_copy
            q.1.expected_copy).2.1 := by
      simp [shuffle_step, shuffle, hs, parallel_shuffle, Mem.get, Mem.set]
    rw [hstep.1, hstep.2]
    refine ⟨by rw [l1, l2, hl], σ * τ, ?_⟩
    intro k
    rw [(hτ k).1, (hτ k).2, Equiv.Perm.mul_apply]
    exact hσ (τ k)

end paired_epochs
section paired_claim

variable {W S X G α : Type} [Zero W] [Add W] [Div W] [NatCast W]

/-- C13. For denoising training of a model with the shuffle capability on an input and a
target range of the same length, with batch size `b > 0` (and enough fuel), `train` returns
and for every epoch `e` there is one permutation `σ` of the offsets such that, after the
shuffle of that epoch, the working input at every offset `k` is the caller's input at `σ k`
and the working target at `k` is the caller's target at `σ k`. The calls of the per-batch
trainer in that epoch are the slices of these two working ranges at the same offsets, so every
pair of an input sample and the target sample at the same place of a call is a pair of the
caller's input and target at one offset. -/
theorem paired_shuffle_keeps_pairs (c : Env W S X G α) (fuel : Nat) (rbm : RBM W S) (ext : X)
    (g : G) (input expected : List α) (N b : Nat) (hsize : ∀ r, c.get_batch_size r = b)
    (hb : 0 < b) (hfuel : input.length < fuel) (hs : c.traits.has_shuffle = true)
    (hlen : input.length = expected.length) :
    ∃ r, train c true fuel rbm ext g input expected N = some r ∧
      ∀ e, e < N →
        (∃ σ : Equiv.Perm ℕ, ∀ k,
          (k < input.length ↔ σ k < input.length) ∧
          (epoch_input c true g input expected e)[k]? = input[σ k]? ∧
          (epoch_expected c true g input expected e)[k]? = expected[σ k]?) ∧
        batch_calls e r.1.trace =
          (List.range (ceil_div input.length b)).map
            (slice_call (epoch_input c true g input expected e)
              (epoch_expected c true g input expected e) b) ∧
        ∀ call ∈ batch_calls e r.1.trace,
          ∀ p ∈ call.input_batch.zip call.expected_batch, p ∈ input.zip expected := by
  obtain ⟨r, h1, h2⟩ :=
    train_trace_shape c true fuel rbm ext g input expected N b hsize hb hfuel
  refine ⟨r, h1, ?_⟩
  intro e he
  have hcalls : batch_calls e r.1.trace =
      (List.range (ceil_div input.length b)).map
        (slice_call (epoch_input c true g input expected e)
          (epoch_expected c true g input expected e) b) := by
    unfold batch_calls
    rw [h2, batch_of_train_shape c true g input expected b N e he, epoch_input_length]
  obtain ⟨-, σ, hσ⟩ := shuffled_paired c hs
    { caller_input := input, caller_expected := expected, input_copy := input,
      expected_copy := expected } g hlen (e + 1)
  have hperm : ∀ k,
      (epoch_input c true g input expected e)[k]? = input[σ k]? ∧
      (epoch_expected c true g input expected e)[k]? = expected[σ k]? := by
    intro k
    unfold epoch_input epoch_expected
    simp only [prepared_paired c input expected hs, Mem.get]
    exact hσ k
  have hdom : ∀ k, k < input.length ↔ σ k < input.length := by
    intro k
    have hk := (hperm k).1
    have hl := epoch_input_length c true g input expected e
    constructor
    · intro h
      by_contra hn
      rw [List.getElem?_eq_none (Nat.le_of_not_lt hn)] at hk
      have := List.getElem?_eq_none_iff.1 hk
      omega
    · intro h
      by_contra hn
      rw [List.getElem?_eq_none (by omega)] at hk
      have := List.getElem?_eq_none_iff.1 hk.symm
      omega
  refine ⟨⟨σ, fun k => ⟨hdom k, hperm k⟩⟩, hcalls, ?_⟩
  intro call hcall p hp
  rw [hcalls] at hcall
  obtain ⟨k, -, rfl⟩ := List.mem_map.1 hcall
  exact pair_of_batches input expected _ _ σ hperm _ _ p hp

/-- The samples 1, 2, 3 with the targets 4, 5, 6, shuffled together: in epoch 0 they come as
3, 2, 1 and 6, 5, 4, and the trainer is given `[3, 2]` with `[6, 5]`, then `[1]` with `[4]`. -/
theorem paired_shuffle_keeps_pairs_witness :
    ∃ r, train (demo_env shuffle_momentum true 2) true 4 (demo_rbm 3) 0 0 [1, 2, 3] [4, 5, 6]
        1 = some r ∧
      batch_calls 0 r.1.trace = [⟨0, 2, 0, 2, [3, 2], [6, 5]⟩, ⟨2, 3, 2, 3, [1], [4]⟩] ∧
      ∀ call ∈ batch_calls 0 r.1.trace,
        ∀ p ∈ call.input_batch.zip call.expected_batch, p ∈ [(1, 4), (2, 5), (3, 6)] := by
  obtain ⟨r, h1, h2⟩ := paired_shuffle_keeps_pairs (demo_env shuffle_momentum true 2) 4
    (demo_rbm 3) 0 0 [1, 2, 3] [4, 5, 6] 1 2 (fun _ => rfl) (by decide) (by decide) rfl rfl
  have hv : (train (demo_env shuffle_momentum true 2) true 4 (demo_rbm 3) 0 0 [1, 2, 3]
      [4, 5, 6] 1).map (fun r => batch_calls 0 r.1.trace) =
      some [⟨0, 2, 0, 2, [3, 2], [6, 5]⟩, ⟨2, 3, 2, 3, [1], [4]⟩] := by decide
  rw [h1] at hv
  exact ⟨r, h1, Option.some.inj hv, (h2 0 (by decide)).2.2⟩

end paired_claim

/-! ## The caller's ranges -/

section caller_ranges

variable {W S X G α : Type}

/-- A shuffle of ranges that start in the local vectors leaves the caller's ranges alone. -/
theorem shuffle_step_caller (c : Env W S X G α) (Denoising : Bool) (ibuf ebuf : Buf)
    (hi : ibuf = Buf.input_copy ∨ ibuf = Buf.expected_copy)
    (he : ebuf = Buf.input_copy ∨ ebuf = Buf.expected_copy) (q : Mem α × G) :
    (shuffle_step c Denoising ibuf ebuf q).1.caller_input = q.1.caller_input ∧
    (shuffle_step c Denoising ibuf ebuf q).1.caller_expected = q.1.caller_expected := by
  unfold shuffle_step shuffle
  rcases hi with hi | hi <;> rcases he with he | he <;> subst hi <;> subst he <;>
    by_cases hs : c.traits.has_shuffle = true <;> by_cases hd : Denoising = true <;>
    simp [hs, hd, Mem.set]

theorem shuffled_caller (c : Env W S X G α) (Denoising : Bool) (ibuf ebuf : Buf)
    (hi : ibuf = Buf.input_copy ∨ ibuf = Buf.expected_copy)
    (he : ebuf = Buf.input_copy ∨ ebuf = Buf.expected_copy) (e : Nat) (q : Mem α × G) :
    (shuffled c Denoising ibuf ebuf e q).1.caller_input = q.1.caller_input ∧
    (shuffled c Denoising ibuf ebuf e q).1.caller_expected = q.1.caller_expected := by
  induction e with
  | zero => exact ⟨rfl, rfl⟩
  | succ e ih =>
    rw [shuffled_succ]
    obtain ⟨h1, h2⟩ := shuffle_step_caller c Denoising ibuf ebuf hi he
      (shuffled c Denoising ibuf ebuf e q)
    rw [h1, h2]
    exact ih

/-- With the shuffle capability the iterators of `train` point into the local vectors, and
the caller's ranges are kept as they are next to them. -/
theorem prepared_copies (c : Env W S X G α) (Denoising : Bool) (input expected : List α)
    (hs : c.traits.has_shuffle = true) :
    ((prepared c Denoising input expected).2.1 = Buf.input_copy ∨
      (prepared c Denoising input expected).2.1 = Buf.expected_copy) ∧
    ((prepared c Denoising input expected).2.2 = Buf.input_copy ∨
      (prepared c Denoising input expected).2.2 = Buf.expected_copy) ∧
    (prepared c Denoising input expected).1.caller_input = input ∧
    (prepared c Denoising input expected).1.caller_expected = expected := by
  unfold prepared prepare_it
  by_cases hd : Denoising = true <;> simp [hs, hd]

variable [Zero W] [Add W] [Div W] [NatCast W]

/-- The buffers and the generator after a whole call: those of `prepare_it`, shuffled once per
epoch. -/
theorem train_final_mem (c : Env W S X G α) (Denoising : Bool) (fuel : Nat) (rbm : RBM W S)
    (ext : X) (g : G) (input expected : List α) (N b : Nat)
    (hsize : ∀ r, c.get_batch_size r = b) (hb : 0 < b) (hfuel : input.length < fuel) :
    ∃ r, train c Denoising fuel rbm ext g input expected N = some r ∧
      (r.1.mem, r.1.gen) =
        shuffled c Denoising (prepared c Denoising input expected).2.1
          (prepared c Denoising input expected).2.2 N
          ((prepared c Denoising input expected).1, g) := by
  obtain ⟨t1, t2, t3, t4, -⟩ := setup_result_shape c Denoising rbm ext g input expected
  have hbs : (setup_result c Denoising rbm ext g input expected).2.2.2 = b := hsize _
  have hp := prepared_input c Denoising input expected
  obtain ⟨r, h1, h2, -⟩ := epoch_loop_shape c Denoising fuel
    (setup_result c Denoising rbm ext g input expected).2.1
    (setup_result c Denoising rbm ext g input expected).2.2.1 b hb
    (setup_result c Denoising rbm ext g input expected).1 (0 : W)
    (by rw [t1, t3, hp]; exact hfuel) N
  refine ⟨(notify_training_end c r.1, r.2), by
    rw [train_eq c Denoising fuel rbm ext g input expected N b hsize hb, h1]; rfl, ?_⟩
  rw [t1, t2, t3, t4] at h2
  rw [← h2]
  unfold notify_training_end
  by_cases hw : c.EnableWatcher = true
  · simp [hw, State.log]
  · simp [hw]

/-- C14. For a model with the shuffle capability, with batch size `b > 0` (and enough fuel),
`train` returns and the caller's input range and target range are after the call what they
were before it, sample by sample and in the same order: the shuffles of all the epochs were
made on the local vectors. -/
theorem caller_ranges_unchanged (c : Env W S X G α) (Denoising : Bool) (fuel : Nat)
    (rbm : RBM W S) (ext : X) (g : G) (input expected : List α) (N b : Nat)
    (hsize : ∀ r, c.get_batch_size r = b) (hb : 0 < b) (hfuel : input.length < fuel)
    (hs : c.traits.has_shuffle = true) :
    ∃ r, train c Denoising fuel rbm ext g input expected N = some r ∧
      r.1.mem.caller_input = input ∧ r.1.mem.caller_expected = expected ∧
      r.1.mem.input_copy =
        (shuffled c Denoising (prepared c Denoising input expected).2.1
          (prepared c Denoising input expected).2.2 N
          ((prepared c Denoising input expected).1, g)).1.input_copy := by
  obtain ⟨r, h1, h2⟩ :=
    train_final_mem c Denoising fuel rbm ext g input expected N b hsize hb hfuel
  obtain ⟨p1, p2, p3, p4⟩ := prepared_copies c Denoising input expected hs
  obtain ⟨s1, s2⟩ := shuffled_caller c Denoising _ _ p1 p2 N
    ((prepared c Denoising input expected).1, g)
  have hm : r.1.mem = (shuffled c Denoising (prepared c Denoising input expected).2.1
      (prepared c Denoising input expected).2.2 N
      ((prepared c Denoising input expected).1, g)).1 := by rw [← h2]
  refine ⟨r, h1, ?_, ?_, by rw [hm]⟩
  · rw [hm, s1, p3]
  · rw [hm, s2, p4]

/-- After one shuffled epoch over 1, 2, 3 with targets 4, 5, 6 the caller's ranges are still
1, 2, 3 and 4, 5, 6, while the local vectors hold 3, 2, 1 and 6, 5, 4. -/
theorem caller_ranges_unchanged_witness :
    ∃ r, train (demo_env shuffle_momentum true 2) true 4 (demo_rbm 3) 0 0 [1, 2, 3] [4, 5, 6]
        1 = some r ∧
      r.1.mem = { caller_input := [1, 2, 3], caller_expected := [4, 5, 6],
                  input_copy := [3, 2, 1], expected_copy := [6, 5, 4] } := by
  obtain ⟨r, h1, -, -, -⟩ := caller_ranges_unchanged (demo_env shuffle_momentum true 2) true 4
    (demo_rbm 3) 0 0 [1, 2, 3] [4, 5, 6] 1 2 (fun _ => rfl) (by decide) (by decide) rfl
  have hv : (train (demo_env shuffle_momentum true 2) true 4 (demo_rbm 3) 0 0 [1, 2, 3]
      [4, 5, 6] 1).map (fun r => r.1.mem) =
      some { caller_input := [1, 2, 3], caller_expected := [4, 5, 6],
             input_copy := [3, 2, 1], expected_copy := [6, 5, 4] } := by decide
  rw [h1] at hv
  exact ⟨r, h1, Option.some.inj hv⟩

end caller_ranges

/-! ## Properties of all the entries of a trace -/

section all_entries

variable {W S X G α : Type} [Div W] [NatCast W]

variable [Zero W] [Add W]

/-- A property of the entries of the trace holds for all the entries of a whole call when it
holds for the entries written outside the batch loop and every iteration of the batch loop
writes entries that have it; the iterations may rely on a property `Q` of the loop variables
that holds when the batch loop starts and that they keep, and the `average` entry may rely on
`Q` at the end of the batch loop. -/
theorem train_trace_inv (c : Env W S X G α) (P : Event W S α → Prop)
    (Q : BatchLoop W S X G α → Prop) (b : Nat)
    (hQ0 : ∀ s, Q (batch_init s))
    (hstep : ∀ (epoch : Nat) (ibuf ebuf : Buf) (s : State W S X G α) (l : BatchLoop W S X G α),
      Core (s.mem.get ibuf).length b s l → l.iit < (s.mem.get ibuf).length → Q l →
      (∀ ev ∈ l.st.trace, P ev) →
      Q (batch_step c epoch ibuf ebuf (s.mem.get ibuf).length b l) ∧
      ∀ ev ∈ (batch_step c epoch ibuf ebuf (s.mem.get ibuf).length b l).st.trace, P ev)
    (havg : ∀ e l, Q l → P (Event.average e l.batches l.samples l.context))
    (hbegin : ∀ m, P (Event.training_begin m))
    (hinit : ∀ xs, P (Event.init_weights xs))
    (hwarn : P Event.warning)
    (hend : ∀ e ctx m, c.EnableWatcher = true → P (Event.epoch_end e ctx m))
    (htend : ∀ m, P (Event.training_end m))
    (Denoising : Bool) (fuel : Nat) (rbm : RBM W S) (ext : X) (g : G)
    (input expected : List α) (N : Nat)
    (hsize : ∀ r, c.get_batch_size r = b) (hb : 0 < b) (hfuel : input.length < fuel) :
    ∃ r, train c Denoising fuel rbm ext g input expected N = some r ∧
      ∀ ev ∈ r.1.trace, P ev := by
  obtain ⟨t1, -, t3, -, -⟩ := setup_result_shape c Denoising rbm ext g input expected
  have hbs : (setup_result c Denoising rbm ext g input expected).2.2.2 = b := hsize _
  have hp := prepared_input c Denoising input expected
  have hkind : ∀ ev ∈ (setup_result c Denoising rbm ext g input expected).1.trace,
      (∃ m, ev = Event.training_begin m) ∨ (∃ xs, ev = Event.init_weights xs) ∨
        ev = Event.warning := by
    unfold setup_result notify_training_begin init_weights
    by_cases hw : c.EnableWatcher = true <;> by_cases hi : c.traits.init_weights = true <;>
      simp only [hw, hi, if_true, Bool.false_eq_true, if_false, State.log] <;>
      split <;> simp
  have hsetup : ∀ ev ∈ (setup_result c Denoising rbm ext g input expected).1.trace, P ev := by
    intro ev hev
    rcases hkind ev hev with ⟨m, rfl⟩ | ⟨xs, rfl⟩ | rfl
    · exact hbegin m
    · exact hinit xs
    · exact hwarn
  obtain ⟨r, h1, -, h3⟩ := epoch_loop_rule
    (epoch_body c Denoising fuel (setup_result c Denoising rbm ext g input expected).2.1
      (setup_result c Denoising rbm ext g input expected).2.2.1 b)
    (fun _ r =>
      (r.1.mem.get (setup_result c Denoising rbm ext g input expected).2.1).length =
        input.length ∧
      ∀ ev ∈ r.1.trace, P ev)
    (by
      intro e r ⟨i1, i2⟩
      obtain ⟨l, l1, ⟨-, -, -, c4, -, -⟩, -, l3, l4⟩ := run_batches_rule c fuel e
        (setup_result c Denoising rbm ext g input expected).2.1
        (setup_result c Denoising rbm ext g input expected).2.2.1 b
        { r.1 with
          mem := (shuffle c.traits c.draw Denoising
            (setup_result c Denoising rbm ext g input expected).2.1
            (setup_result c Denoising rbm ext g input expected).2.2.1 r.1.gen r.1.mem).1,
          gen := (shuffle c.traits c.draw Denoising
            (setup_result c Denoising rbm ext g input expected).2.1
            (setup_result c Denoising rbm ext g input expected).2.2.1 r.1.gen r.1.mem).2 } hb
        (by simp only [shuffle_length]; rw [i1]; exact hfuel)
        (fun l => Q l ∧ ∀ ev ∈ l.st.trace, P ev)
        ⟨hQ0 _, i2⟩
        (fun l hc hlt hi => hstep e _ _ _ l hc hlt hi.1 hi.2)
      obtain ⟨f1, -, -⟩ := finish_epoch_shape c e l
      refine ⟨finish_epoch c e l, by simp [epoch_body, l1], ?_, ?_⟩
      · rw [f1, c4]
        simp only [shuffle_length]
        exact i1
      · rw [finish_epoch_trace]
        intro ev hev
        rcases List.mem_append.1 hev with h | h
        · exact l4 ev h
        · rcases List.mem_cons.1 h with h | h
          · subst h
            exact havg e l l3
          · by_cases hw : c.EnableWatcher = true
            · rw [if_pos hw] at h
              rw [List.mem_singleton.1 h]
              exact hend _ _ _ hw
            · rw [if_neg hw] at h
              cases h)
    N 0 ((setup_result c Denoising rbm ext g input expected).1, (0 : W))
    ⟨by rw [t1, t3, hp], hsetup⟩
  refine ⟨(notify_training_end c r.1, r.2), by
    rw [train_eq c Denoising fuel rbm ext g input expected N b hsize hb, h1]; rfl, ?_⟩
  unfold notify_training_end
  by_cases hw : c.EnableWatcher = true
  · simp only [hw, if_true, State.log]
    intro ev hev
    rcases List.mem_append.1 hev with h | h
    · exact h3 ev h
    · rw [List.mem_singleton.1 h]
      exact htend _
  · simp only [hw, Bool.false_eq_true, if_false]
    exact h3

end all_entries
/-! ## The free energy without a watcher -/

section free_energy

variable {W S X G α : Type} [Zero W] [Add W] [Div W] [NatCast W]

/-- C15. When the watcher is disabled and the per-batch trainer does not write the
`free_energy` of the context, whether or not the model tracks its free energy, with batch size
`b > 0` (and enough fuel) `train` returns, the model's `free_energy` is never called, and the
free energy accumulated in every epoch is zero when the epoch is averaged; the `free_energy` of
the final statistics of the epoch, which is that zero divided by the number of samples, is zero
in every arithmetic in which zero divided by the number of samples is zero. -/
theorem free_energy_elided (c : Env W S X G α) (Denoising : Bool) (fuel : Nat) (rbm : RBM W S)
    (ext : X) (g : G) (input expected : List α) (N b : Nat)
    (hsize : ∀ r, c.get_batch_size r = b) (hb : 0 < b) (hfuel : input.length < fuel)
    (hw : c.EnableWatcher = false)
    (hfe : ∀ ib eb ctx r x, (c.train_batch ib eb ctx r x).1.free_energy = ctx.free_energy)
    (hdiv : (0 : W) / ((input.length : Nat) : W) = 0) :
    ∃ r, ∃ acc : Nat → rbm_training_context W,
      train c Denoising fuel rbm ext g input expected N = some r ∧
      (∀ ev ∈ r.1.trace, ∀ v, ev ≠ Event.free_energy v) ∧
      r.1.trace.filterMap Event.stat =
        (List.range N).map (fun e =>
          Stat.accumulated e (ceil_div input.length b) input.length (acc e)) ∧
      ∀ e, e < N →
        (acc e).free_energy = 0 ∧ (acc e).free_energy / ((input.length : Nat) : W) = 0 := by
  have hflag : (c.EnableWatcher && c.traits.free_energy) = false := by simp [hw]
  obtain ⟨r, h1, hP⟩ := train_trace_inv c
    (fun ev => (∀ e k s acc, ev = Event.average e k s acc → acc.free_energy = 0) ∧
      ∀ v, ev ≠ Event.free_energy v)
    (fun l => l.context.free_energy = 0) b
    (fun _ => rfl)
    (by
      intro epoch ibuf ebuf s l _ _ hq hall
      obtain ⟨-, -, -, -, -, -, -, s8⟩ :=
        batch_step_spec c epoch ibuf ebuf (s.mem.get ibuf).length b l
      constructor
      · simp only [batch_step, hflag, Bool.false_eq_true, if_false, batch_call]
        rw [hfe]
        exact hq
      · rw [s8]
        simp only [hflag, Bool.false_eq_true, if_false]
        intro ev hev
        rcases List.mem_append.1 hev with h | h
        · exact hall ev h
        · rw [List.mem_singleton.1 h]
          exact ⟨fun _ _ _ _ h => (by cases h), fun _ h => (by cases h)⟩)
    (by
      intro e l hq
      exact ⟨fun _ _ _ _ h => (by cases h; exact hq), fun _ h => (by cases h)⟩)
    (fun _ => ⟨fun _ _ _ _ h => (by cases h), fun _ h => (by cases h)⟩)
    (fun _ => ⟨fun _ _ _ _ h => (by cases h), fun _ h => (by cases h)⟩)
    ⟨fun _ _ _ _ h => (by cases h), fun _ h => (by cases h)⟩
    (fun _ _ _ _ => ⟨fun _ _ _ _ h => (by cases h), fun _ h => (by cases h)⟩)
    (fun _ => ⟨fun _ _ _ _ h => (by cases h), fun _ h => (by cases h)⟩)
    Denoising fuel rbm ext g input expected N hsize hb hfuel
  obtain ⟨r', acc, h1', h2, -⟩ :=
    train_stat c Denoising fuel rbm ext g input expected N b hsize hb hfuel
  have hr : r' = r := Option.some.inj (h1'.symm.trans h1)
  subst hr
  have hstat : r'.1.trace.filterMap Event.stat =
      (List.range N).map (fun e =>
        Stat.accumulated e (ceil_div input.length b) input.length (acc e)) := by
    rw [h2, ← flatMap_singleton_map]
    apply List.flatMap_congr
    intro e _
    simp [epoch_stats, hw]
  refine ⟨r', acc, h1, fun ev hev => (hP ev hev).2, hstat, ?_⟩
  intro e he
  have hmem : Stat.accumulated e (ceil_div input.length b) input.length (acc e) ∈
      r'.1.trace.filterMap Event.stat := by
    rw [hstat]
    exact List.mem_map.2 ⟨e, List.mem_range.2 he, rfl⟩
  obtain ⟨ev, hev, hs⟩ := List.mem_filterMap.1 hmem
  have h0 : (acc e).free_energy = 0 := by
    cases ev <;> simp [Event.stat] at hs
    obtain ⟨rfl, rfl, rfl, rfl⟩ := hs
    exact (hP _ hev).1 _ _ _ _ rfl
  exact ⟨h0, by rw [h0]; exact hdiv⟩

/-- Two epochs over 1, 2, 3 in batches of two, on a model that tracks its free energy, without
a watcher: the only statistics entries are the two accumulated contexts, with a free energy of
zero, and the trace has no call of `free_energy`. -/
theorem free_energy_elided_witness :
    ∃ r, ∃ acc : Nat → rbm_training_context ℚ,
      train (demo_env free_energy_only false 2) false 4 (demo_rbm 3) 0 0 [1, 2, 3] [1, 2, 3]
        2 = some r ∧
      (∀ ev ∈ r.1.trace, ∀ v, ev ≠ Event.free_energy v) ∧
      r.1.trace.filterMap Event.stat =
        [Stat.accumulated 0 2 3 (acc 0), Stat.accumulated 1 2 3 (acc 1)] ∧
      (acc 0).free_energy = 0 ∧ (acc 1).free_energy = 0 := by
  obtain ⟨r, acc, h1, h2, h3, h4⟩ := free_energy_elided (demo_env free_energy_only false 2)
    false 4 (demo_rbm 3) 0 0 [1, 2, 3] [1, 2, 3] 2 2 (fun _ => rfl) (by decide) (by decide) rfl
    (fun _ _ _ _ _ => rfl) (by simp)
  exact ⟨r, acc, h1, h2, h3.trans rfl, (h4 0 (by decide)).1, (h4 1 (by decide)).1⟩

end free_energy

/-! ## The statistics at the start of an epoch -/

section fresh_context

variable {W S X G α : Type}

theorem ceil_div_pos_iff (n b : Nat) (hb : 0 < b) : ceil_div n b = 0 ↔ n = 0 := by
  constructor
  · intro h
    have := ceil_div_mul_ge n b hb
    rw [h] at this
    omega
  · intro h
    subst h
    unfold ceil_div
    exact Nat.div_eq_of_lt (by omega)

variable [Zero W]

theorem first_context_train_shape (c : Env W S X G α) (Denoising : Bool) (g : G)
    (input expected : List α) (b N : Nat) (hb : 0 < b) :
    (train_shape c Denoising g input expected b N).filterMap
        (Shape.first_context : Shape α → Option (Nat × rbm_training_context W)) =
      if input.length = 0 then []
      else (List.range N).map (fun e =>
        (e, { reconstruction_error := 0, sparsity := 0, free_energy := 0 })) := by
  rw [filterMap_train_shape]
  have hep : ∀ e, (epoch_shape c e (epoch_input c Denoising g input expected e)
      (epoch_expected c Denoising g input expected e) b).filterMap
        (Shape.first_context : Shape α → Option (Nat × rbm_training_context W)) =
      if input.length = 0 then []
      else [(e, { reconstruction_error := 0, sparsity := 0, free_energy := 0 })] := by
    intro e
    rw [filterMap_epoch_shape]
    simp only [filterMap_batch_shape c Shape.first_context (fun _ => rfl), Shape.first_context,
      Option.toList, List.append_nil, ite_self, epoch_input_length]
    have hk : ∀ k : Nat, (k * b = 0) ↔ (k = 0) := by
      intro k
      constructor
      · intro h
        rcases Nat.mul_eq_zero.1 h with h | h
        · exact h
        · omega
      · intro h
        rw [h, Nat.zero_mul]
    by_cases hn : input.length = 0
    · rw [if_pos hn, (ceil_div_pos_iff input.length b hb).2 hn]
      rfl
    · rw [if_neg hn]
      have hpos : 0 < ceil_div input.length b := by
        rcases Nat.eq_zero_or_pos (ceil_div input.length b) with h | h
        · exact absurd ((ceil_div_pos_iff input.length b hb).1 h) hn
        · exact h
      have := flatMap_range_single (ceil_div input.length b) 0
        (fun _ => [(e, ({ reconstruction_error := 0, sparsity := 0, free_energy := 0 } :
          rbm_training_context W))]) hpos
      refine Eq.trans ?_ this
      apply List.flatMap_congr
      intro k _
      by_cases h0 : k = 0
      · simp [h0]
      · simp [h0, (hk k).not.2 h0]
  simp only [hep, Shape.first_context, Option.toList, ite_self, List.append_nil,
    List.nil_append]
  by_cases hn : input.length = 0
  · simp only [hn, if_true]
    exact flatMap_nil_fun _
  · simp only [hn, if_false]
    exact flatMap_singleton_map _ _

variable [Add W] [Div W] [NatCast W]

/-- C16. With batch size `b > 0` (and enough fuel) `train` returns, and in every epoch
`0, ..., max_epochs - 1` (over a non-empty input) the first call of the per-batch trainer, the
one whose batch starts at offset 0, is given a context whose `reconstruction_error`, `sparsity`
and `free_energy` are zero, whatever the trainer and the free-energy loop did to the context
of the epochs before. The counters start at zero too: at the end of every epoch `batches` is
`ceil(n / b)` and `samples` is `n`, the counts of that epoch alone. -/
theorem context_fresh_each_epoch (c : Env W S X G α) (Denoising : Bool) (fuel : Nat)
    (rbm : RBM W S) (ext : X) (g : G) (input expected : List α) (N b : Nat)
    (hsize : ∀ r, c.get_batch_size r = b) (hb : 0 < b) (hfuel : input.length < fuel) :
    ∃ r, train c Denoising fuel rbm ext g input expected N = some r ∧
      first_contexts r.1.trace =
        (if input.length = 0 then []
         else (List.range N).map (fun e =>
          (e, { reconstruction_error := 0, sparsity := 0, free_energy := 0 }))) ∧
      course r.1.trace =
        (if input.length % b != 0 then [Course.warning] else []) ++
          (List.range N).map (fun e => Course.epoch e (ceil_div input.length b) input.length) ∧
      ∀ s : State W S X G α,
        (batch_init s).batches = 0 ∧ (batch_init s).samples = 0 ∧
        (batch_init s).context = { reconstruction_error := 0, sparsity := 0, free_energy := 0 } := by
  obtain ⟨r, h1, hP⟩ := train_trace_inv c
    (fun ev => ∀ e istart iit es et ib eb ctx m,
      ev = Event.train_batch e istart iit es et ib eb ctx m → istart = 0 →
      ctx = { reconstruction_error := 0, sparsity := 0, free_energy := 0 })
    (fun l => l.batches = 0 →
      l.context = { reconstruction_error := 0, sparsity := 0, free_energy := 0 }) b
    (fun _ _ => rfl)
    (by
      intro epoch ibuf ebuf s l hcore hlt hq hall
      obtain ⟨c1, -⟩ := hcore
      obtain ⟨-, -, s3, -, -, -, -, s8⟩ :=
        batch_step_spec c epoch ibuf ebuf (s.mem.get ibuf).length b l
      constructor
      · intro h0
        rw [s3] at h0
        omega
      · rw [s8]
        intro ev hev
        rcases List.mem_append.1 hev with h | h
        · exact hall ev h
        · rcases List.mem_cons.1 h with h | h
          · intro e istart iit es et ib eb ctx m hev' h0
            rw [h] at hev'
            cases hev'
            apply hq
            have hiit : l.iit = l.batches * b := by omega
            rw [hiit] at h0
            rcases Nat.mul_eq_zero.1 h0 with h' | h'
            · exact h'
            · omega
          · split at h
            · obtain ⟨v, -, rfl⟩ := List.mem_map.1 h
              intro _ _ _ _ _ _ _ _ _ h'
              cases h'
            · cases h)
    (fun _ _ _ => (fun _ _ _ _ _ _ _ _ _ h => (by cases h)))
    (fun _ => (fun _ _ _ _ _ _ _ _ _ h => (by cases h)))
    (fun _ => (fun _ _ _ _ _ _ _ _ _ h => (by cases h)))
    (fun _ _ _ _ _ _ _ _ _ h => (by cases h))
    (fun _ _ _ _ => (fun _ _ _ _ _ _ _ _ _ h => (by cases h)))
    (fun _ => (fun _ _ _ _ _ _ _ _ _ h => (by cases h)))
    Denoising fuel rbm ext g input expected N hsize hb hfuel
  obtain ⟨r', h1', hshape⟩ :=
    train_trace_shape c Denoising fuel rbm ext g input expected N b hsize hb hfuel
  have hr : r' = r := Option.some.inj (h1'.symm.trans h1)
  subst hr
  refine ⟨r', h1, ?_, ?_, fun _ => ⟨rfl, rfl, rfl⟩⟩
  · unfold first_contexts
    rw [filterMap_via_shape r'.1.trace Event.first_context Shape.first_context, hshape,
      first_context_train_shape c Denoising g input expected b N hb]
    intro ev hev
    have hp := hP ev hev
    cases ev <;> try rfl
    rename_i e istart iit es et ib eb ctx m
    simp only [Event.first_context, Event.shape, Shape.first_context]
    by_cases h0 : istart = 0
    · rw [if_pos h0, if_pos h0, hp e istart iit es et ib eb ctx m rfl h0]
    · rw [if_neg h0, if_neg h0]
  · unfold course
    rw [hshape, course_train_shape]

/-- Two epochs over 1, 2, 3 in batches of two with the trainer of the examples, which adds to
the context at every call: the first call of epoch 0 and the first call of epoch 1 are both
given a context of zeros. -/
theorem context_fresh_each_epoch_witness :
    ∃ r, train (demo_env free_energy_only true 2) false 4 (demo_rbm 3) 0 0 [1, 2, 3] [1, 2, 3]
        2 = some r ∧
      first_contexts r.1.trace = [(0, ⟨0, 0, 0⟩), (1, ⟨0, 0, 0⟩)] := by
  obtain ⟨r, h1, h2, -, -⟩ := context_fresh_each_epoch (demo_env free_energy_only true 2)
    false 4 (demo_rbm 3) 0 0 [1, 2, 3] [1, 2, 3] 2 2 (fun _ => rfl) (by decide) (by decide)
  exact ⟨r, h1, h2.trans rfl⟩

end fresh_context

/-! ## Termination -/

section termination

variable {W S X G α : Type} [Add W]

/-- One iteration of the batch loop with samples left and a positive batch size returns and
moves the input iterator forward by `min b (end_ - iit)`, at least one sample, not past the
end. -/
theorem batch_body_advances (c : Env W S X G α) (fuel epoch : Nat) (ibuf ebuf : Buf)
    (end_ b : Nat) (l : BatchLoop W S X G α) (hb : 0 < b) (hlt : l.iit < end_)
    (hfuel : min b (end_ - l.iit) < fuel) :
    ∃ l', batch_body c fuel epoch ibuf ebuf end_ b l = some l' ∧
      l'.iit = l.iit + min b (end_ - l.iit) ∧ 1 ≤ min b (end_ - l.iit) ∧
      l.iit < l'.iit ∧ l'.iit ≤ end_ ∧ l'.batches = l.batches + 1 := by
  obtain ⟨s1, -, s3, -, -, -, -, -⟩ := batch_step_spec c epoch ibuf ebuf end_ b l
  refine ⟨batch_step c epoch ibuf ebuf end_ b l,
    batch_body_eq c fuel epoch ibuf ebuf end_ b l (by omega) hfuel, s1, by omega, ?_, ?_, s3⟩
  · rw [s1]; omega
  · rw [s1]; omega

variable [Zero W]

/-- The batch loop of one epoch returns the loop variables after `ceil(n / b)` iterations,
whatever the fuel above `n`. -/
theorem run_batches_closed (c : Env W S X G α) (fuel epoch : Nat) (ibuf ebuf : Buf) (b : Nat)
    (s : State W S X G α) (hb : 0 < b) (hfuel : (s.mem.get ibuf).length < fuel) :
    run_batches c fuel epoch ibuf ebuf b s =
      some ((batch_step c epoch ibuf ebuf (s.mem.get ibuf).length b)^[
        ceil_div (s.mem.get ibuf).length b] (batch_init s)) := by
  obtain ⟨l, h1, ⟨c1, -, -, -, -, c6⟩, h3, h4⟩ :=
    run_batches_rule c fuel epoch ibuf ebuf b s hb hfuel
      (fun l => l = (batch_step c epoch ibuf ebuf (s.mem.get ibuf).length b)^[l.batches]
        (batch_init s))
      rfl
      (by
        intro l _ _ hi
        obtain ⟨-, -, s3, -, -, -, -, -⟩ :=
          batch_step_spec c epoch ibuf ebuf (s.mem.get ibuf).length b l
        rw [s3, Function.iterate_succ_apply', ← hi])
  have hk : l.batches = ceil_div (s.mem.get ibuf).length b :=
    ceil_div_of_core _ b l.batches hb (by omega) c6
  rw [h1, ← hk, ← h4]

variable [Div W] [NatCast W]

/-- The result of one epoch does not depend on the fuel above `n`. -/
theorem epoch_body_fuel (c : Env W S X G α) (Denoising : Bool) (fuel fuel' : Nat)
    (ibuf ebuf : Buf) (b epoch : Nat) (s : State W S X G α) (hb : 0 < b)
    (hfuel : (s.mem.get ibuf).length < fuel) (hfuel' : (s.mem.get ibuf).length < fuel') :
    epoch_body c Denoising fuel ibuf ebuf b epoch s =
      epoch_body c Denoising fuel' ibuf ebuf b epoch s := by
  unfold epoch_body
  simp only
  rw [run_batches_closed c fuel epoch ibuf ebuf b _ hb (by simpa [shuffle_length] using hfuel),
    run_batches_closed c fuel' epoch ibuf ebuf b _ hb
      (by simpa [shuffle_length] using hfuel')]

/-- The result of the epoch loop does not depend on the fuel above `n`. -/
theorem epoch_loop_fuel (c : Env W S X G α) (Denoising : Bool) (fuel fuel' : Nat)
    (ibuf ebuf : Buf) (b : Nat) (hb : 0 < b) :
    ∀ (k e : Nat) (r : State W S X G α × W), (r.1.mem.get ibuf).length < fuel →
      (r.1.mem.get ibuf).length < fuel' →
      epoch_loop (epoch_body c Denoising fuel ibuf ebuf b) k e r =
        epoch_loop (epoch_body c Denoising fuel' ibuf ebuf b) k e r := by
  intro k
  induction k with
  | zero => intro e r _ _; rfl
  | succ k ih =>
    intro e r hf hf'
    simp only [epoch_loop]
    rw [← epoch_body_fuel c Denoising fuel fuel' ibuf ebuf b e r.1 hb hf hf']
    obtain ⟨x, hx, hmem, -⟩ := epoch_body_shape c Denoising fuel ibuf ebuf b e r.1 hb hf
    rw [hx]
    simp only [Option.some_bind]
    have hlen : (x.1.mem.get ibuf).length = (r.1.mem.get ibuf).length := by
      have h1 : x.1.mem = (shuffle_step c Denoising ibuf ebuf (r.1.mem, r.1.gen)).1 := by
        rw [← hmem]
      rw [h1]
      exact shuffle_length _ _ _ _ _ _ _
    exact ih (e + 1) x (by rw [hlen]; exact hf) (by rw [hlen]; exact hf')

/-- The result of `train` does not depend on the fuel above `n`. -/
theorem train_fuel (c : Env W S X G α) (Denoising : Bool) (fuel fuel' : Nat) (rbm : RBM W S)
    (ext : X) (g : G) (input expected : List α) (N b : Nat)
    (hsize : ∀ r, c.get_batch_size r = b) (hb : 0 < b) (hfuel : input.length < fuel)
    (hfuel' : input.length < fuel') :
    train c Denoising fuel rbm ext g input expected N =
      train c Denoising fuel' rbm ext g input expected N := by
  obtain ⟨t1, -, t3, -, -⟩ := setup_result_shape c Denoising rbm ext g input expected
  have hbs : (setup_result c Denoising rbm ext g input expected).2.2.2 = b := hsize _
  have hp := prepared_input c Denoising input expected
  have hlen : ((setup_result c Denoising rbm ext g input expected).1.mem.get
      (setup_result c Denoising rbm ext g input expected).2.1).length = input.length := by
    rw [t1, t3, hp]
  rw [train_eq c Denoising fuel rbm ext g input expected N b hsize hb,
    train_eq c Denoising fuel' rbm ext g input expected N b hsize hb,
    epoch_loop_fuel c Denoising fuel fuel' _ _ b hb N 0 _ (by rw [hlen]; exact hfuel)
      (by rw [hlen]; exact hfuel')]

/-- C19. For an input of `n` samples, a batch size `b > 0` and any `max_epochs`, `train`
returns, with the same result for every amount of fuel above `n`, after
`max_epochs * ceil(n / b)` calls of the per-batch trainer; and every iteration of the batch
loop that starts with samples left returns and moves the input iterator forward by
`min b (end_ - iit)`, which is at least one sample, not past the end of the range. -/
theorem train_terminates (c : Env W S X G α) (Denoising : Bool) (rbm : RBM W S) (ext : X)
    (g : G) (input expected : List α) (N b : Nat) (hsize : ∀ r, c.get_batch_size r = b)
    (hb : 0 < b) :
    ∃ r, (∀ fuel, input.length < fuel →
        train c Denoising fuel rbm ext g input expected N = some r) ∧
      (progress r.1.trace).countP Step.is_train_batch = N * ceil_div input.length b ∧
      ∀ (fuel epoch : Nat) (ibuf ebuf : Buf) (end_ : Nat) (l : BatchLoop W S X G α),
        l.iit < end_ → min b (end_ - l.iit) < fuel →
        ∃ l', batch_body c fuel epoch ibuf ebuf end_ b l = some l' ∧
          l'.iit = l.iit + min b (end_ - l.iit) ∧ 1 ≤ min b (end_ - l.iit) ∧
          l.iit < l'.iit ∧ l'.iit ≤ end_ ∧ l'.batches = l.batches + 1 := by
  obtain ⟨r, h1, h2⟩ := train_trace_shape c Denoising (input.length + 1) rbm ext g input
    expected N b hsize hb (Nat.lt_succ_self _)
  refine ⟨r, ?_, ?_, ?_⟩
  · intro fuel hfuel
    rw [train_fuel c Denoising fuel (input.length + 1) rbm ext g input expected N b hsize hb
      hfuel (Nat.lt_succ_self _)]
    exact h1
  · unfold progress
    rw [h2, step_train_shape]
    exact countP_steps c.EnableWatcher N _ _ b
  · intro fuel epoch ibuf ebuf end_ l hlt hfuel
    exact batch_body_advances c fuel epoch ibuf ebuf end_ b l hb hlt hfuel

/-- Three samples in batches of two, two epochs: one result for every fuel above 3, after four
calls of the per-batch trainer. -/
theorem train_terminates_witness :
    ∃ r, (∀ fuel, 3 < fuel →
        train (demo_env shuffle_momentum true 2) false fuel (demo_rbm 3) 0 0 [1, 2, 3]
          [1, 2, 3] 2 = some r) ∧
      (progress r.1.trace).countP Step.is_train_batch = 4 := by
  obtain ⟨r, h1, h2, -⟩ := train_terminates (demo_env shuffle_momentum true 2) false
    (demo_rbm 3) 0 0 [1, 2, 3] [1, 2, 3] 2 2 (fun _ => rfl) (by decide)
  exact ⟨r, h1, h2⟩

end termination
section divergence

variable {W S X G α : Type} [Add W]

/-- With a batch size of zero the batch loop makes no progress: from the start of a non-empty
range no amount of fuel lets it return. -/
theorem batch_loop_zero_diverges (c : Env W S X G α) (fuel epoch : Nat) (ibuf ebuf : Buf)
    (end_ : Nat) (hend : end_ ≠ 0) :
    ∀ (fuel' : Nat) (l : BatchLoop W S X G α), l.iit = 0 →
      while_loop (fun l : BatchLoop W S X G α => l.iit != end_)
        (batch_body c fuel epoch ibuf ebuf end_ 0) fuel' l = none := by
  intro fuel'
  induction fuel' with
  | zero => intro l _; rfl
  | succ fuel' ih =>
    intro l hl
    have hcond : (l.iit != end_) = true := by
      rw [hl]
      simpa using hend.symm
    simp only [while_loop, hcond, if_true]
    rcases Nat.eq_zero_or_pos fuel with h0 | hpos
    · subst h0
      simp [batch_body, while_loop]
    · rw [batch_body_eq c fuel epoch ibuf ebuf end_ 0 l (by omega) (by omega)]
      simp only [Option.some_bind]
      apply ih
      obtain ⟨s1, -⟩ := batch_step_spec c epoch ibuf ebuf end_ 0 l
      rw [s1, hl]
      omega

variable [Zero W] [Div W] [NatCast W]

/-- With a batch size of zero `train` has no result, whatever the fuel, the ranges and the
number of epochs: the divisibility test of line 149 divides by zero before the epoch loop. -/
theorem batch_size_zero_no_result (c : Env W S X G α) (Denoising : Bool) (fuel : Nat)
    (rbm : RBM W S) (ext : X) (g : G) (input expected : List α) (N : Nat)
    (hsize : ∀ r, c.get_batch_size r = 0) :
    train c Denoising fuel rbm ext g input expected N = none := by
  unfold train
  rw [train_setup_zero c Denoising rbm ext g input expected hsize]
  rfl

end divergence

end dll
